import Mathlib

/-!
Verification of the embedded-raptor storage engine against its
natural-language specification.

The development shallowly embeds the storage engine's binary codec, WAL,
key index, in-memory engine state machine and top-N candidate set.

Modelling conventions:
* A file or buffer is a `List Nat` of byte values (each `< 256`).
* A key is represented by its UTF-8 byte sequence (`List Nat`); the
  JavaScript `TextEncoder`/`TextDecoder` pair is a bijection between
  well-formed strings and their UTF-8 encodings, so byte-list equality
  models string equality.
* A float32 embedding value is represented by its 32-bit IEEE-754 bit
  pattern (`Nat < 2^32`); `DataView.setFloat32`/`getFloat32` transport
  exactly these bit patterns to and from the 4 little-endian bytes.
* 64-bit signed quantities (`BigInt64` fields) are `Int`s, serialized via
  their two's-complement representative modulo `2^64`.
* Machine arithmetic (`setUint16`, `setUint32` wrap-around) is explicit
  `% 2^16` / `% 2^32` on `Nat`.
-/

namespace Raptor

/-! ## Little-endian byte encoding helpers -/

/-- Encode the low `n` bytes of `v` in little-endian order, as
`DataView.setUintN`/`setBigUint64` with little-endian flag do. -/
def leBytes : Nat → Nat → List Nat
  | 0, _ => []
  | n + 1, v => (v % 256) :: leBytes n (v / 256)

/-- Decode a little-endian byte list to a natural number. -/
def leDecode : List Nat → Nat
  | [] => 0
  | b :: bs => b + 256 * leDecode bs

theorem leBytes_length (n v : Nat) : (leBytes n v).length = n := by
  induction n generalizing v with
  | zero => rfl
  | succ n ih => simp [leBytes, ih]

theorem leDecode_leBytes (n v : Nat) : leDecode (leBytes n v) = v % 2 ^ (8 * n) := by
  induction n generalizing v with
  | zero => simp [leBytes, leDecode, Nat.mod_one]
  | succ n ih =>
    simp only [leBytes, leDecode, ih]
    have hpow : 2 ^ (8 * (n + 1)) = 256 * 2 ^ (8 * n) := by
      rw [show 8 * (n + 1) = 8 + 8 * n by ring, pow_add]
      norm_num
    rw [hpow, Nat.mod_mul]

theorem leDecode_leBytes_of_lt {n v : Nat} (h : v < 2 ^ (8 * n)) :
    leDecode (leBytes n v) = v := by
  rw [leDecode_leBytes, Nat.mod_eq_of_lt h]

theorem leBytes_lt (n v : Nat) : ∀ b ∈ leBytes n v, b < 256 := by
  induction n generalizing v with
  | zero => simp [leBytes]
  | succ n ih =>
    intro b hb
    simp only [leBytes, List.mem_cons] at hb
    rcases hb with h | h
    · subst h; exact Nat.mod_lt _ (by norm_num)
    · exact ih _ _ h

theorem leBytes_inj {n v w : Nat} (hv : v < 2 ^ (8 * n)) (hw : w < 2 ^ (8 * n))
    (h : leBytes n v = leBytes n w) : v = w := by
  have := congrArg leDecode h
  rwa [leDecode_leBytes_of_lt hv, leDecode_leBytes_of_lt hw] at this

/-! ## CRC32

`crc32` is the implementation translated from the source
(`makeCrc32Table` / `crc32` in the data-format module): table-driven,
polynomial `0xEDB88320`, initial value `0xFFFFFFFF`, final XOR
`0xFFFFFFFF`.  `crc32Zlib` is the standard zlib/PKZIP reference
definition, processing each byte bit by bit with the same parameters. -/

/-- One bit step of the CRC32 computation: shift right one bit and XOR
with the polynomial when the low bit is set.  This is the body of the
inner `j` loop of `makeCrc32Table`. -/
def crcStep (c : Nat) : Nat :=
  if c &&& 1 = 1 then 0xedb88320 ^^^ (c >>> 1) else c >>> 1

/-- Eight bit steps, as performed by the `j < 8` loop. -/
def crcStep8 (c : Nat) : Nat :=
  crcStep (crcStep (crcStep (crcStep (crcStep (crcStep (crcStep (crcStep c)))))))

/-- The 256-entry CRC table of `makeCrc32Table`: entry `i` is eight bit
steps applied to `i`. -/
def crc32Table : List Nat :=
  (List.range 256).map crcStep8

/-- Table lookup; indices are always in range in the implementation. -/
def crc32TableGet (i : Nat) : Nat :=
  crc32Table.getD i 0

/-- The implemented CRC32 (translated from `crc32` in the source):
start from `0xFFFFFFFF`, per byte update
`crc = table[(crc ^ b) & 0xff] ^ (crc >>> 8)`, final XOR. -/
def crc32 (data : List Nat) : Nat :=
  (data.foldl (fun crc b => crc32TableGet ((crc ^^^ b) &&& 0xff) ^^^ (crc >>> 8))
    0xffffffff) ^^^ 0xffffffff

/-- The standard zlib/PKZIP CRC32 reference definition: initial value
`0xFFFFFFFF`; each byte is XORed into the register and followed by eight
conditional polynomial reduction steps with polynomial `0xEDB88320`;
final XOR with `0xFFFFFFFF`. -/
def crc32Zlib (data : List Nat) : Nat :=
  (data.foldl (fun crc b => crcStep8 (crc ^^^ b)) 0xffffffff) ^^^ 0xffffffff

theorem crcStep_eq (c : Nat) :
    crcStep c = (if c % 2 = 1 then 0xedb88320 else 0) ^^^ c / 2 := by
  unfold crcStep
  rw [Nat.and_one_is_mod, Nat.shiftRight_one]
  by_cases h : c % 2 = 1 <;> simp [h]

theorem xor_left_comm_nat (a b c : Nat) : a ^^^ (b ^^^ c) = b ^^^ (a ^^^ c) := by
  rw [← Nat.xor_assoc, Nat.xor_comm a b, Nat.xor_assoc]

theorem xor_pp_cancel (p x y : Nat) : (p ^^^ x) ^^^ (p ^^^ y) = x ^^^ y := by
  rw [Nat.xor_assoc, xor_left_comm_nat x p y, ← Nat.xor_assoc, Nat.xor_self,
    Nat.zero_xor]

theorem crcStep_xor (a b : Nat) : crcStep (a ^^^ b) = crcStep a ^^^ crcStep b := by
  rw [crcStep_eq, crcStep_eq, crcStep_eq, Nat.xor_div_two]
  have hpar : ((a ^^^ b) % 2 = 1) ↔ ¬(a % 2 = 1 ↔ b % 2 = 1) :=
    Nat.xor_mod_two_eq_one
  by_cases ha : a % 2 = 1 <;> by_cases hb : b % 2 = 1
  · have hab : ¬ (a ^^^ b) % 2 = 1 := by
      rw [hpar]; simp [ha, hb]
    simp only [if_neg hab, if_pos ha, if_pos hb]
    rw [Nat.zero_xor, xor_pp_cancel]
  · have hab : (a ^^^ b) % 2 = 1 := by
      rw [hpar]; simp [ha, hb]
    simp only [if_pos hab, if_pos ha, if_neg hb]
    rw [Nat.zero_xor, Nat.xor_assoc]
  · have hab : (a ^^^ b) % 2 = 1 := by
      rw [hpar]; simp [ha, hb]
    simp only [if_pos hab, if_neg ha, if_pos hb]
    rw [Nat.zero_xor, xor_left_comm_nat]
  · have hab : ¬ (a ^^^ b) % 2 = 1 := by
      rw [hpar]; simp [ha, hb]
    simp only [if_neg hab, if_neg ha, if_neg hb]
    rw [Nat.zero_xor, Nat.zero_xor, Nat.zero_xor]

theorem crcStep8_xor (a b : Nat) : crcStep8 (a ^^^ b) = crcStep8 a ^^^ crcStep8 b := by
  simp [crcStep8, crcStep_xor]

theorem crcStep_two_mul (m : Nat) : crcStep (2 * m) = m := by
  rw [crcStep_eq]
  simp [Nat.mul_mod_right, Nat.mul_div_cancel_left _ (by norm_num : (0:Nat) < 2)]

theorem crcStep8_mul256 (y : Nat) : crcStep8 (256 * y) = y := by
  have h : ∀ m : Nat, crcStep (2 * m) = m := crcStep_two_mul
  unfold crcStep8
  rw [show 256 * y = 2 * (128 * y) by ring, h,
    show 128 * y = 2 * (64 * y) by ring, h,
    show 64 * y = 2 * (32 * y) by ring, h,
    show 32 * y = 2 * (16 * y) by ring, h,
    show 16 * y = 2 * (8 * y) by ring, h,
    show 8 * y = 2 * (4 * y) by ring, h,
    show 4 * y = 2 * (2 * y) by ring, h, h]

theorem and_255_eq_mod (x : Nat) : x &&& 255 = x % 256 := by
  have h := Nat.and_pow_two_sub_one_eq_mod x 8
  norm_num at h
  exact h

theorem xor_low_high (x : Nat) : (x % 256) ^^^ 256 * (x / 256) = x := by
  have hsl : 256 * (x / 256) = (x / 256) <<< 8 := by
    rw [Nat.shiftLeft_eq]; ring
  have hdr : x / 256 = x >>> 8 := by
    rw [Nat.shiftRight_eq_div_pow]
  have hm : x % 256 = x % 2 ^ 8 := by norm_num
  apply Nat.eq_of_testBit_eq
  intro i
  rw [Nat.testBit_xor, hm, Nat.testBit_mod_two_pow, hsl, hdr, Nat.testBit_shiftLeft,
    Nat.testBit_shiftRight]
  by_cases hi : i < 8
  · have h8 : ¬ 8 ≤ i := by omega
    simp [hi, h8]
  · have h8 : 8 ≤ i := by omega
    have he : 8 + (i - 8) = i := by omega
    simp [hi, h8, he]

theorem crcStep8_split (x : Nat) :
    crcStep8 x = crcStep8 (x &&& 255) ^^^ x / 256 := by
  rw [and_255_eq_mod]
  conv_lhs => rw [← xor_low_high x]
  rw [crcStep8_xor, crcStep8_mul256]

theorem crc32Table_get (i : Nat) (h : i < 256) : crc32TableGet i = crcStep8 i := by
  unfold crc32TableGet crc32Table
  rw [List.getD_eq_getElem?_getD, List.getElem?_map, List.getElem?_range h]
  rfl

theorem xor_shiftRight_distrib (a b n : Nat) :
    (a ^^^ b) >>> n = (a >>> n) ^^^ (b >>> n) := by
  apply Nat.eq_of_testBit_eq
  intro i
  simp [Nat.testBit_shiftRight, Nat.testBit_xor]

theorem crc32_byte_step (crc b : Nat) (hb : b < 256) :
    crc32TableGet ((crc ^^^ b) &&& 0xff) ^^^ (crc >>> 8) = crcStep8 (crc ^^^ b) := by
  have hmask : (crc ^^^ b) &&& 0xff = (crc ^^^ b) % 256 := and_255_eq_mod _
  have hlt : (crc ^^^ b) % 256 < 256 := Nat.mod_lt _ (by norm_num)
  rw [hmask, crc32Table_get _ hlt]
  have hb0 : b >>> 8 = 0 := by
    rw [Nat.shiftRight_eq_div_pow]
    exact Nat.div_eq_of_lt (by norm_num at hb ⊢; omega)
  have hshift : (crc ^^^ b) >>> 8 = crc >>> 8 := by
    rw [xor_shiftRight_distrib, hb0, Nat.xor_zero]
  have hdiv : (crc ^^^ b) / 256 = (crc ^^^ b) >>> 8 := by
    rw [Nat.shiftRight_eq_div_pow]
  rw [crcStep8_split (crc ^^^ b), and_255_eq_mod, hdiv, hshift]

theorem crc32_eq_zlib (data : List Nat) (h : ∀ b ∈ data, b < 256) :
    crc32 data = crc32Zlib data := by
  have key : ∀ (l : List Nat), (∀ b ∈ l, b < 256) → ∀ init : Nat,
      l.foldl (fun crc b => crc32TableGet ((crc ^^^ b) &&& 0xff) ^^^ (crc >>> 8)) init =
      l.foldl (fun crc b => crcStep8 (crc ^^^ b)) init := by
    intro l
    induction l with
    | nil => intro _ _; rfl
    | cons c cs ihc =>
      intro hl init
      simp only [List.foldl_cons]
      rw [crc32_byte_step _ _ (hl c (by simp))]
      exact ihc (fun x hx => hl x (by simp [hx])) _
  unfold crc32 crc32Zlib
  rw [key data h]

theorem crcStep_lt {c : Nat} (h : c < 2 ^ 32) : crcStep c < 2 ^ 32 := by
  rw [crcStep_eq]
  by_cases hc : c % 2 = 1
  · simp only [if_pos hc]
    exact Nat.xor_lt_two_pow (by norm_num) (by omega)
  · simp only [if_neg hc, Nat.zero_xor]
    omega

theorem crcStep8_lt {c : Nat} (h : c < 2 ^ 32) : crcStep8 c < 2 ^ 32 := by
  unfold crcStep8
  exact crcStep_lt (crcStep_lt (crcStep_lt (crcStep_lt (crcStep_lt (crcStep_lt
    (crcStep_lt (crcStep_lt h)))))))

theorem crc32TableGet_lt (i : Nat) : crc32TableGet i < 2 ^ 32 := by
  by_cases h : i < 256
  · rw [crc32Table_get i h]
    exact crcStep8_lt (by omega)
  · unfold crc32TableGet
    rw [List.getD_eq_getElem?_getD]
    have hlen : crc32Table.length = 256 := by
      unfold crc32Table; simp
    rw [List.getElem?_eq_none (by omega)]
    norm_num

theorem crc32_lt (data : List Nat) : crc32 data < 2 ^ 32 := by
  unfold crc32
  have key : ∀ (l : List Nat) (init : Nat), init < 2 ^ 32 →
      l.foldl (fun crc b => crc32TableGet ((crc ^^^ b) &&& 0xff) ^^^ (crc >>> 8)) init
        < 2 ^ 32 := by
    intro l
    induction l with
    | nil => intro init h; exact h
    | cons c cs ih =>
      intro init h
      simp only [List.foldl_cons]
      apply ih
      exact Nat.xor_lt_two_pow (crc32TableGet_lt _)
        (by rw [Nat.shiftRight_eq_div_pow]; omega)
  exact Nat.xor_lt_two_pow (key _ _ (by norm_num)) (by norm_num)

/-! ## Binary format constants (from the constants module) -/

def recordMagic : Nat := 0xcafebabe

def recordTrailer : Nat := 0xdeadbeef

def headerMagic : Nat := 0x454d4244

def headerVersionV2 : Nat := 2

def recordVersion : Nat := 2

def walVersion : Nat := 1

def headerSize : Nat := 16

def walEntrySize : Nat := 48

/-! ## Byte-buffer access helpers -/

/-- Read a single byte (`getUint8`); in-range in all guarded uses. -/
def byteAt (data : List Nat) (i : Nat) : Nat :=
  data.getD i 0

/-- The `n`-byte slice of `data` starting at `off` (`subarray`). -/
def byteSlice (data : List Nat) (off n : Nat) : List Nat :=
  (data.drop off).take n

/-- Read an `n`-byte little-endian unsigned integer at `off`
(`getUint16`/`getUint32`/`getBigUint64` with little-endian flag). -/
def readLE (data : List Nat) (off n : Nat) : Nat :=
  leDecode (byteSlice data off n)

/-! ## 64-bit two's-complement helpers (`setBigInt64`/`getBigInt64`) -/

/-- Two's-complement bit pattern of an `Int`, as stored by `setBigInt64`. -/
def toTwos64 (v : Int) : Nat :=
  (v % (2 ^ 64 : Int)).toNat

/-- Signed interpretation of a 64-bit pattern, as read by `getBigInt64`. -/
def fromTwos64 (p : Nat) : Int :=
  if p < 2 ^ 63 then (p : Int) else (p : Int) - 2 ^ 64

theorem toTwos64_lt (v : Int) : toTwos64 v < 2 ^ 64 := by
  unfold toTwos64
  have h1 : v % (2 ^ 64 : Int) < 2 ^ 64 := Int.emod_lt_of_pos v (by norm_num)
  have h2 : (0 : Int) ≤ v % (2 ^ 64 : Int) := Int.emod_nonneg v (by norm_num)
  omega

theorem fromTwos64_toTwos64 {v : Int} (h1 : -(2 ^ 63) ≤ v) (h2 : v < 2 ^ 63) :
    fromTwos64 (toTwos64 v) = v := by
  unfold fromTwos64 toTwos64
  have hmod : v % (2 ^ 64 : Int) = if 0 ≤ v then v else v + 2 ^ 64 := by
    by_cases hv : 0 ≤ v
    · rw [if_pos hv]
      exact Int.emod_eq_of_lt hv (by omega)
    · rw [if_neg hv]
      have : (v + 2 ^ 64) % (2 ^ 64 : Int) = v % (2 ^ 64 : Int) := by
        omega
      rw [← this]
      exact Int.emod_eq_of_lt (by omega) (by omega)
  by_cases hv : 0 ≤ v
  · rw [hmod, if_pos hv]
    rw [if_pos (by omega)]
    omega
  · rw [hmod, if_neg hv]
    rw [if_neg (by omega)]
    omega

/-! ## Data file header codec (`serializeHeader` / `deserializeHeader`) -/

/-- Parsed data-file header fields. -/
structure DataFileHeader where
  version : Nat
  dimension : Nat
deriving DecidableEq

/-- Translated from `serializeHeader`: `setUint32(0, headerMagic, true)`,
`setUint16(4, headerVersionV2, true)`, `setUint32(6, dimension, true)`,
remaining six reserved bytes zero. All three writes are little-endian. -/
def serializeHeader (dimension : Nat) : List Nat :=
  leBytes 4 headerMagic ++ leBytes 2 headerVersionV2 ++ leBytes 4 dimension ++
    List.replicate 6 0

/-- Translated from `deserializeHeader`. -/
def deserializeHeader (data : List Nat) : Option DataFileHeader :=
  if data.length < headerSize then none
  else if readLE data 0 4 ≠ headerMagic then none
  else some ⟨readLE data 4 2, readLE data 6 4⟩

/-! ## WAL entry codec (`serializeWalEntry` / `deserializeWalEntry`) -/

/-- A WAL entry as held in memory. -/
structure WalEntry where
  opType : Nat
  sequenceNumber : Int
  offset : Nat
  length : Nat
  keyHash : List Nat
deriving DecidableEq

/-- The key-hash field as written: `buffer.set(entry.keyHash.subarray(0, 8), 28)`
into a zero-initialized buffer, so fewer than 8 hash bytes leave zero padding. -/
def keyHashField (e : WalEntry) : List Nat :=
  e.keyHash.take 8 ++ List.replicate (8 - (e.keyHash.take 8).length) 0

/-- The first 40 bytes of a serialized WAL entry (everything before the
checksum field), laid out per `walEntryLayout`. -/
def walEntryBody (e : WalEntry) : List Nat :=
  leBytes 4 recordMagic ++ leBytes 2 walVersion ++ [e.opType % 256] ++ [0] ++
    leBytes 8 (toTwos64 e.sequenceNumber) ++ leBytes 8 e.offset ++
    leBytes 4 e.length ++ keyHashField e ++ leBytes 4 0

/-- Translated from `serializeWalEntry`: body, then CRC32 of the body,
then the trailer, 48 bytes in total. -/
def serializeWalEntry (e : WalEntry) : List Nat :=
  walEntryBody e ++ leBytes 4 (crc32 (walEntryBody e)) ++ leBytes 4 recordTrailer

/-- Translated from `deserializeWalEntry`: length guard, magic, version,
field reads at the `walEntryLayout` offsets, checksum over bytes 0-39,
trailer check. Returns the entry and `bytesRead = 48`. -/
def deserializeWalEntry (data : List Nat) (startOffset : Nat) :
    Option (WalEntry × Nat) :=
  if data.length - startOffset < walEntrySize then none
  else if readLE data startOffset 4 ≠ recordMagic then none
  else if readLE data (startOffset + 4) 2 ≠ walVersion then none
  else if readLE data (startOffset + 40) 4 ≠ crc32 (byteSlice data startOffset 40) then
    none
  else if readLE data (startOffset + 44) 4 ≠ recordTrailer then none
  else
    some (⟨byteAt data (startOffset + 6), fromTwos64 (readLE data (startOffset + 8) 8),
      readLE data (startOffset + 16) 8, readLE data (startOffset + 24) 4,
      byteSlice data (startOffset + 28) 8⟩, walEntrySize)

/-! ## WAL recovery (`Wal.recover`) -/

/-- The recovery loop of `Wal.recover`: starting at `offset`, while a full
48-byte slot remains, deserialize it; stop at the first invalid slot. -/
def walRecoverAux (buf : List Nat) (offset : Nat) : List WalEntry :=
  if h : offset + walEntrySize ≤ buf.length then
    match deserializeWalEntry buf offset with
    | none => []
    | some (e, _) => e :: walRecoverAux buf (offset + walEntrySize)
  else []
termination_by buf.length - offset
decreasing_by
  simp only [walEntrySize] at h ⊢
  omega

/-- Entries recovered from a WAL buffer, scanning 48-byte slots from 0. -/
def walRecover (buf : List Nat) : List WalEntry :=
  walRecoverAux buf 0

/-- Translated from `Wal.recover` including its file-level guards: a
missing file (`stat` throws) or an empty file recovers nothing; otherwise
the whole file is read and scanned. -/
def walRecoverFile : Option (List Nat) → List WalEntry
  | none => []
  | some buf => if buf.length = 0 then [] else walRecover buf

/-! ## Buffer access lemmas -/

theorem drop_append_ge (A B : List Nat) (k : Nat) (h : A.length ≤ k) :
    (A ++ B).drop k = B.drop (k - A.length) := by
  conv_lhs => rw [show k = A.length + (k - A.length) by omega]
  rw [← List.drop_drop, List.drop_left]

theorem byteSlice_append (A B : List Nat) (k n : Nat) (h : A.length ≤ k) :
    byteSlice (A ++ B) k n = byteSlice B (k - A.length) n := by
  unfold byteSlice
  rw [drop_append_ge A B k h]

theorem readLE_append (A B : List Nat) (k n : Nat) (h : A.length ≤ k) :
    readLE (A ++ B) k n = readLE B (k - A.length) n := by
  unfold readLE
  rw [byteSlice_append A B k n h]

theorem byteAt_append (A B : List Nat) (k : Nat) (h : A.length ≤ k) :
    byteAt (A ++ B) k = byteAt B (k - A.length) := by
  unfold byteAt
  rw [List.getD_eq_getElem?_getD, List.getD_eq_getElem?_getD,
    List.getElem?_append_right h]

theorem byteSlice_front (C rest : List Nat) (n : Nat) (h : C.length = n) :
    byteSlice (C ++ rest) 0 n = C := by
  unfold byteSlice
  rw [List.drop_zero, List.take_left' h]

theorem readLE_front {n : Nat} (v : Nat) (rest : List Nat) :
    readLE (leBytes n v ++ rest) 0 n = v % 2 ^ (8 * n) := by
  unfold readLE
  rw [byteSlice_front _ _ _ (leBytes_length n v), leDecode_leBytes]

theorem byteAt_cons (b : Nat) (rest : List Nat) : byteAt (b :: rest) 0 = b := rfl

theorem byteSlice_take (B : List Nat) (n : Nat) : byteSlice B 0 n = B.take n := by
  unfold byteSlice
  rw [List.drop_zero]

/-! ## Data record codec (`serializeDataRecord` / `deserializeDataRecord`) -/

/-- A data record; the key is its UTF-8 byte sequence, the embedding a
list of float32 bit patterns. -/
structure DataRecord where
  opType : Nat
  sequenceNumber : Int
  timestamp : Int
  key : List Nat
  dimension : Nat
  embedding : List Nat
deriving DecidableEq

/-- Translated from `calculateRecordSize`. -/
def calculateRecordSize (keyLength dimension : Nat) : Nat :=
  4 + 2 + 1 + 1 + 8 + 8 + 2 + keyLength + 4 + dimension * 4 + 4 + 4

/-- Concatenation of `f` over a list (serializing a sequence of fields). -/
def flatListMap (f : Nat → List Nat) : List Nat → List Nat
  | [] => []
  | a :: as => f a ++ flatListMap f as

theorem flatListMap_length (f : Nat → List Nat) (n : Nat)
    (hf : ∀ a, (f a).length = n) (l : List Nat) :
    (flatListMap f l).length = n * l.length := by
  induction l with
  | nil => simp [flatListMap]
  | cons a as ih => simp [flatListMap, hf, ih]; ring

/-- The embedding slots written by the serializer loop
`for i < record.dimension: setFloat32(embedding[i])`; an out-of-range
read of a `Float32Array` yields `undefined`, which `setFloat32` stores
as the canonical quiet NaN `0x7fc00000`. -/
def embSlots (r : DataRecord) : List Nat :=
  (List.range r.dimension).map (fun i => r.embedding.getD i 0x7fc00000)

/-- The serialized byte prefix covered by the checksum: every field up to
and including the embedding, laid out per `dataRecordOffsets`. -/
def dataRecordBody (r : DataRecord) : List Nat :=
  leBytes 4 recordMagic ++ leBytes 2 recordVersion ++ [r.opType % 256] ++ [0] ++
    leBytes 8 (toTwos64 r.sequenceNumber) ++ leBytes 8 (toTwos64 r.timestamp) ++
    leBytes 2 r.key.length ++ r.key ++ leBytes 4 r.dimension ++
    flatListMap (fun w => leBytes 4 w) (embSlots r)

/-- Translated from `serializeDataRecord`: body, CRC32 of the body,
trailer. -/
def serializeDataRecord (r : DataRecord) : List Nat :=
  dataRecordBody r ++ leBytes 4 (crc32 (dataRecordBody r)) ++ leBytes 4 recordTrailer

/-- Translated from `deserializeDataRecord`: minimum-size guard, magic and
version checks, header field reads, key-length guard, key and dimension
reads, embedding-length guard, embedding reads, checksum over everything
preceding the checksum field, trailer check.  Returns the record and the
number of bytes read. -/
def deserializeDataRecord (data : List Nat) (startOffset : Nat) :
    Option (DataRecord × Nat) :=
  if data.length - startOffset < 34 then none
  else if readLE data startOffset 4 ≠ recordMagic then none
  else if readLE data (startOffset + 4) 2 ≠ recordVersion then none
  else
    let keyLen := readLE data (startOffset + 24) 2
    if data.length - startOffset < 26 + keyLen + 12 then none
    else
      let dim := readLE data (startOffset + 26 + keyLen) 4
      if data.length - startOffset < 30 + keyLen + dim * 4 + 8 then none
      else if readLE data (startOffset + 30 + keyLen + dim * 4) 4 ≠
          crc32 (byteSlice data startOffset (30 + keyLen + dim * 4)) then none
      else if readLE data (startOffset + 34 + keyLen + dim * 4) 4 ≠ recordTrailer then
        none
      else
        some (⟨byteAt data (startOffset + 6),
          fromTwos64 (readLE data (startOffset + 8) 8),
          fromTwos64 (readLE data (startOffset + 16) 8),
          byteSlice data (startOffset + 26) keyLen, dim,
          (List.range dim).map (fun i => readLE data (startOffset + 30 + keyLen + 4 * i) 4)⟩,
          38 + keyLen + dim * 4)

/-- Translated from `readKeyFromBuffer`: 26-byte minimum guard, magic
check, key length at offset 24, bounds guard, key bytes at offset 26. -/
def readKeyFromBuffer (data : List Nat) (startOffset : Nat) : Option (List Nat) :=
  if data.length - startOffset < 26 then none
  else if readLE data startOffset 4 ≠ recordMagic then none
  else
    let keyLen := readLE data (startOffset + 24) 2
    if data.length - startOffset < 26 + keyLen then none
    else some (byteSlice data (startOffset + 26) keyLen)

/-! ## WAL entry round trip -/

/-- A WAL entry whose fields fit the on-disk layout exactly. -/
def ValidWalEntry (e : WalEntry) : Prop :=
  e.opType < 256 ∧ -(2 ^ 63) ≤ e.sequenceNumber ∧ e.sequenceNumber < 2 ^ 63 ∧
    e.offset < 2 ^ 64 ∧ e.length < 2 ^ 32 ∧ e.keyHash.length = 8 ∧
    ∀ b ∈ e.keyHash, b < 256

instance (e : WalEntry) : Decidable (ValidWalEntry e) := by
  unfold ValidWalEntry
  infer_instance

theorem keyHashField_eq {e : WalEntry} (h : e.keyHash.length = 8) :
    keyHashField e = e.keyHash := by
  unfold keyHashField
  rw [List.take_of_length_le (le_of_eq h)]
  simp [h]

theorem keyHashField_length (e : WalEntry) : (keyHashField e).length = 8 := by
  unfold keyHashField
  simp only [List.length_append, List.length_replicate, List.length_take]
  omega

theorem walEntryBody_length (e : WalEntry) : (walEntryBody e).length = 40 := by
  unfold walEntryBody
  simp [leBytes_length, keyHashField_length]

theorem serializeWalEntry_length (e : WalEntry) :
    (serializeWalEntry e).length = 48 := by
  unfold serializeWalEntry
  simp [walEntryBody_length, leBytes_length]

theorem deserializeWalEntry_serialize (e : WalEntry) (he : ValidWalEntry e)
    (rest : List Nat) :
    deserializeWalEntry (serializeWalEntry e ++ rest) 0 = some (e, walEntrySize) := by
  obtain ⟨hop, hs1, hs2, hoff, hlen, hkh, hkb⟩ := he
  have hkf : keyHashField e = e.keyHash := keyHashField_eq hkh
  have hS : serializeWalEntry e ++ rest =
      leBytes 4 recordMagic ++ (leBytes 2 walVersion ++
        ([e.opType % 256, 0] ++ (leBytes 8 (toTwos64 e.sequenceNumber) ++
          (leBytes 8 e.offset ++ (leBytes 4 e.length ++ (e.keyHash ++
            (leBytes 4 0 ++ (leBytes 4 (crc32 (walEntryBody e)) ++
              (leBytes 4 recordTrailer ++ rest))))))))) := by
    simp [serializeWalEntry, walEntryBody, hkf, List.append_assoc]
  have hS2 : serializeWalEntry e ++ rest = walEntryBody e ++
      (leBytes 4 (crc32 (walEntryBody e)) ++ (leBytes 4 recordTrailer ++ rest)) := by
    simp [serializeWalEntry, List.append_assoc]
  have hSlen : (serializeWalEntry e ++ rest).length = 48 + rest.length := by
    simp [serializeWalEntry_length]
  have r0 : readLE (serializeWalEntry e ++ rest) 0 4 = recordMagic := by
    rw [hS, readLE_front]
    norm_num [recordMagic]
  have r4 : readLE (serializeWalEntry e ++ rest) 4 2 = walVersion := by
    rw [hS, readLE_append _ _ 4 2 (by simp [leBytes_length])]
    simp only [leBytes_length]
    norm_num [readLE_front, walVersion]
  have b6 : byteAt (serializeWalEntry e ++ rest) 6 = e.opType := by
    rw [hS, byteAt_append _ _ 6 (by simp [leBytes_length]),
      byteAt_append _ _ _ (by simp [leBytes_length])]
    simp only [leBytes_length]
    norm_num [byteAt, Nat.mod_eq_of_lt hop]
  have r8 : readLE (serializeWalEntry e ++ rest) 8 8 = toTwos64 e.sequenceNumber := by
    have hb := toTwos64_lt e.sequenceNumber
    rw [hS, readLE_append _ _ 8 8 (by simp [leBytes_length]),
      readLE_append _ _ _ _ (by simp [leBytes_length]),
      readLE_append _ _ _ _ (by simp [leBytes_length])]
    simp only [leBytes_length, List.length_cons, List.length_nil]
    norm_num [readLE_front]
    omega
  have r16 : readLE (serializeWalEntry e ++ rest) 16 8 = e.offset := by
    rw [hS, readLE_append _ _ 16 8 (by simp [leBytes_length]),
      readLE_append _ _ _ _ (by simp [leBytes_length]),
      readLE_append _ _ _ _ (by simp [leBytes_length]),
      readLE_append _ _ _ _ (by simp [leBytes_length])]
    simp only [leBytes_length, List.length_cons, List.length_nil]
    norm_num [readLE_front]
    omega
  have r24 : readLE (serializeWalEntry e ++ rest) 24 4 = e.length := by
    rw [hS, readLE_append _ _ 24 4 (by simp [leBytes_length]),
      readLE_append _ _ _ _ (by simp [leBytes_length]),
      readLE_append _ _ _ _ (by simp [leBytes_length]),
      readLE_append _ _ _ _ (by simp [leBytes_length]),
      readLE_append _ _ _ _ (by simp [leBytes_length])]
    simp only [leBytes_length, List.length_cons, List.length_nil]
    norm_num [readLE_front]
    omega
  have s28 : byteSlice (serializeWalEntry e ++ rest) 28 8 = e.keyHash := by
    rw [hS, byteSlice_append _ _ 28 8 (by simp [leBytes_length]),
      byteSlice_append _ _ _ _ (by simp [leBytes_length]),
      byteSlice_append _ _ _ _ (by simp [leBytes_length]),
      byteSlice_append _ _ _ _ (by simp [leBytes_length]),
      byteSlice_append _ _ _ _ (by simp [leBytes_length]),
      byteSlice_append _ _ _ _ (by simp [leBytes_length])]
    simp only [leBytes_length, List.length_cons, List.length_nil]
    norm_num [byteSlice_front _ _ _ hkh]
  have s040 : byteSlice (serializeWalEntry e ++ rest) 0 40 = walEntryBody e := by
    rw [hS2, byteSlice_front _ _ _ (walEntryBody_length e)]
  have r40 : readLE (serializeWalEntry e ++ rest) 40 4 = crc32 (walEntryBody e) := by
    have hb := crc32_lt (walEntryBody e)
    rw [hS2, readLE_append _ _ 40 4 (by simp [walEntryBody_length])]
    simp only [walEntryBody_length]
    norm_num [readLE_front]
    omega
  have r44 : readLE (serializeWalEntry e ++ rest) 44 4 = recordTrailer := by
    rw [hS2, readLE_append _ _ 44 4 (by simp [walEntryBody_length]),
      readLE_append _ _ _ _ (by simp [leBytes_length, walEntryBody_length])]
    simp only [walEntryBody_length, leBytes_length]
    norm_num [readLE_front, recordTrailer]
  unfold deserializeWalEntry
  simp only [Nat.zero_add, Nat.sub_zero]
  rw [if_neg (by rw [hSlen]; unfold walEntrySize; omega)]
  rw [if_neg (by rw [r0]; exact fun h => h rfl)]
  rw [if_neg (by rw [r4]; exact fun h => h rfl)]
  rw [if_neg (by rw [r40, s040]; exact fun h => h rfl)]
  rw [if_neg (by rw [r44]; exact fun h => h rfl)]
  rw [b6, r8, r16, r24, s28]
  rw [fromTwos64_toTwos64 hs1 hs2]

/-- Deserialization fails on a short remainder (the initial length guard). -/
theorem deserializeWalEntry_short {buf : List Nat} {off : Nat}
    (h : buf.length - off < walEntrySize) : deserializeWalEntry buf off = none := by
  unfold deserializeWalEntry
  rw [if_pos h]

/-- A successful deserialization always reports 48 bytes read. -/
theorem deserializeWalEntry_bytesRead {buf : List Nat} {off : Nat} {e : WalEntry}
    {m : Nat} (h : deserializeWalEntry buf off = some (e, m)) : m = walEntrySize := by
  unfold deserializeWalEntry at h
  split at h
  · exact absurd h (by simp)
  · split at h
    · exact absurd h (by simp)
    · split at h
      · exact absurd h (by simp)
      · split at h
        · exact absurd h (by simp)
        · split at h
          · exact absurd h (by simp)
          · injection h with h1
            injection h1 with _ h2
            exact h2.symm

/-- Deserialization only looks at the bytes from `startOffset` on, so a
prefix shift of the buffer and the offset together is invisible. -/
theorem deserializeWalEntry_shift (C buf : List Nat) (off : Nat) :
    deserializeWalEntry (C ++ buf) (C.length + off) = deserializeWalEntry buf off := by
  have hR : ∀ x n, readLE (C ++ buf) (C.length + x) n = readLE buf x n := by
    intro x n
    rw [readLE_append _ _ _ _ (by omega)]
    have hx : C.length + x - C.length = x := by omega
    rw [hx]
  have hB : ∀ x, byteAt (C ++ buf) (C.length + x) = byteAt buf x := by
    intro x
    rw [byteAt_append _ _ _ (by omega)]
    have hx : C.length + x - C.length = x := by omega
    rw [hx]
  have hSl : ∀ x n, byteSlice (C ++ buf) (C.length + x) n = byteSlice buf x n := by
    intro x n
    rw [byteSlice_append _ _ _ _ (by omega)]
    have hx : C.length + x - C.length = x := by omega
    rw [hx]
  have hlen : (C ++ buf).length - (C.length + off) = buf.length - off := by
    simp only [List.length_append]
    omega
  unfold deserializeWalEntry
  rw [hlen]
  simp only [Nat.add_assoc, hR, hB, hSl]

/-- The recovery loop is likewise invariant under shifting buffer and
offset by a common prefix. -/
theorem walRecoverAux_shift (C buf : List Nat) (k : Nat) :
    walRecoverAux (C ++ buf) (C.length + k) = walRecoverAux buf k := by
  suffices H : ∀ n k, buf.length - k ≤ n →
      walRecoverAux (C ++ buf) (C.length + k) = walRecoverAux buf k from
    H (buf.length - k) k le_rfl
  intro n
  induction n with
  | zero =>
    intro k hk
    unfold walRecoverAux
    have h1 : ¬ (k + walEntrySize ≤ buf.length) := by
      unfold walEntrySize
      omega
    have h2 : ¬ (C.length + k + walEntrySize ≤ (C ++ buf).length) := by
      simp only [List.length_append]
      unfold walEntrySize
      omega
    rw [dif_neg h2, dif_neg h1]
  | succ n ih =>
    intro k hk
    unfold walRecoverAux
    by_cases hg : k + walEntrySize ≤ buf.length
    · have hg2 : C.length + k + walEntrySize ≤ (C ++ buf).length := by
        simp only [List.length_append]
        omega
      rw [dif_pos hg2, dif_pos hg, deserializeWalEntry_shift C buf k]
      cases hde : deserializeWalEntry buf k with
      | none => rfl
      | some p =>
        cases p with
        | mk e m =>
          simp only [List.cons.injEq, true_and]
          have harith : C.length + k + walEntrySize = C.length + (k + walEntrySize) := by
            omega
          rw [harith]
          exact ih (k + walEntrySize) (by unfold walEntrySize at hg ⊢; omega)
    · have hg2 : ¬ (C.length + k + walEntrySize ≤ (C ++ buf).length) := by
        simp only [List.length_append]
        omega
      rw [dif_neg hg2, dif_neg hg]

/-- Longest-prefix characterization of the recovery loop: every produced
entry is the successful deserialization of its 48-byte slot, and the slot
right after the last produced entry fails to deserialize. -/
theorem walRecoverAux_spec (buf : List Nat) :
    ∀ n k, buf.length - k ≤ n →
      (∀ i e, (walRecoverAux buf k)[i]? = some e →
        deserializeWalEntry buf (k + walEntrySize * i) = some (e, walEntrySize)) ∧
      deserializeWalEntry buf (k + walEntrySize * (walRecoverAux buf k).length) =
        none := by
  intro n
  induction n with
  | zero =>
    intro k hk
    unfold walRecoverAux
    have h1 : ¬ (k + walEntrySize ≤ buf.length) := by
      unfold walEntrySize
      omega
    rw [dif_neg h1]
    refine ⟨by simp, ?_⟩
    simp only [List.length_nil, Nat.mul_zero, Nat.add_zero]
    exact deserializeWalEntry_short (by unfold walEntrySize; omega)
  | succ n ih =>
    intro k hk
    unfold walRecoverAux
    by_cases hg : k + walEntrySize ≤ buf.length
    · rw [dif_pos hg]
      cases hde : deserializeWalEntry buf k with
      | none =>
        refine ⟨by simp, ?_⟩
        simpa using hde
      | some p =>
        cases p with
        | mk e m =>
          have hm : m = walEntrySize := deserializeWalEntry_bytesRead hde
          subst hm
          have hrec := ih (k + walEntrySize) (by unfold walEntrySize at hg ⊢; omega)
          constructor
          · intro i a ha
            cases i with
            | zero =>
              simp only [List.getElem?_cons_zero, Option.some.injEq] at ha
              subst ha
              simpa using hde
            | succ i =>
              simp only [List.getElem?_cons_succ] at ha
              have := hrec.1 i a ha
              have harith : k + walEntrySize * (i + 1) =
                  k + walEntrySize + walEntrySize * i := by ring
              rw [harith]
              exact this
          · simp only [List.length_cons]
            have harith : k + walEntrySize * ((walRecoverAux buf (k + walEntrySize)).length + 1) =
                k + walEntrySize + walEntrySize * (walRecoverAux buf (k + walEntrySize)).length := by
              ring
            rw [harith]
            exact hrec.2
    · rw [dif_neg hg]
      refine ⟨by simp, ?_⟩
      simp only [List.length_nil, Nat.mul_zero, Nat.add_zero]
      exact deserializeWalEntry_short (by unfold walEntrySize at hg ⊢; omega)

/-- Concatenation of serialized WAL entries, as `appendBatch` writes them
and as successive `append` calls lay them out in the file. -/
def serializeWalList : List WalEntry → List Nat
  | [] => []
  | e :: es => serializeWalEntry e ++ serializeWalList es

/-- Recovery of a WAL consisting of valid serialized entries followed by a
partial (shorter than 48 bytes) tail returns exactly the entries. -/
theorem walRecover_serialized (es : List WalEntry) (extra : List Nat)
    (he : ∀ e ∈ es, ValidWalEntry e) (hex : extra.length < walEntrySize) :
    walRecover (serializeWalList es ++ extra) = es := by
  induction es with
  | nil =>
    unfold serializeWalList walRecover walRecoverAux
    rw [dif_neg (by simp only [List.nil_append]; unfold walEntrySize at hex ⊢; omega)]
  | cons e es ih =>
    unfold serializeWalList walRecover
    rw [List.append_assoc]
    unfold walRecoverAux
    have hlen : (serializeWalEntry e ++ (serializeWalList es ++ extra)).length =
        48 + (serializeWalList es ++ extra).length := by
      simp [serializeWalEntry_length]
    rw [dif_pos (by rw [hlen]; unfold walEntrySize; omega)]
    rw [deserializeWalEntry_serialize e (he e (by simp)) _]
    simp only [List.cons.injEq, true_and]
    have h48 : 0 + walEntrySize = (serializeWalEntry e).length + 0 := by
      rw [serializeWalEntry_length]
      unfold walEntrySize
      omega
    rw [h48, walRecoverAux_shift]
    exact ih (fun x hx => he x (by simp [hx]))

/-! ## Data record round trip -/

/-- A data record whose fields fit the on-disk layout exactly: byte-sized
opType, int64 sequence number and timestamp, key shorter than the 2-byte
length field allows, 32-bit dimension equal to the embedding length, and
32-bit embedding patterns. -/
def ValidDataRecord (r : DataRecord) : Prop :=
  r.opType < 256 ∧ -(2 ^ 63) ≤ r.sequenceNumber ∧ r.sequenceNumber < 2 ^ 63 ∧
    -(2 ^ 63) ≤ r.timestamp ∧ r.timestamp < 2 ^ 63 ∧
    r.key.length < 2 ^ 16 ∧ (∀ b ∈ r.key, b < 256) ∧
    r.dimension < 2 ^ 32 ∧ r.embedding.length = r.dimension ∧
    ∀ w ∈ r.embedding, w < 2 ^ 32

instance (r : DataRecord) : Decidable (ValidDataRecord r) := by
  unfold ValidDataRecord
  infer_instance

theorem embSlots_eq {r : DataRecord} (h : r.embedding.length = r.dimension) :
    embSlots r = r.embedding := by
  unfold embSlots
  apply List.ext_getElem
  · simp [h]
  · intro i h1 h2
    simp only [List.getElem_map, List.getElem_range, List.getD_eq_getElem?_getD,
      List.getElem?_eq_getElem h2]
    rfl

theorem flatWords_length (ws : List Nat) :
    (flatListMap (fun w => leBytes 4 w) ws).length = 4 * ws.length :=
  flatListMap_length _ 4 (fun a => leBytes_length 4 a) ws

theorem dataRecordBody_length (r : DataRecord) (hemb : r.embedding.length = r.dimension) :
    (dataRecordBody r).length = 30 + r.key.length + r.dimension * 4 := by
  unfold dataRecordBody
  rw [embSlots_eq hemb]
  simp [leBytes_length, flatWords_length, hemb]
  ring

theorem serializeDataRecord_length (r : DataRecord)
    (hemb : r.embedding.length = r.dimension) :
    (serializeDataRecord r).length = calculateRecordSize r.key.length r.dimension := by
  unfold serializeDataRecord calculateRecordSize
  simp [dataRecordBody_length r hemb, leBytes_length]
  ring

theorem readLE_flatWords (ws : List Nat) :
    ∀ (rest : List Nat) (i : Nat), i < ws.length →
      readLE (flatListMap (fun w => leBytes 4 w) ws ++ rest) (4 * i) 4 =
        ws.getD i 0 % 2 ^ 32 := by
  induction ws with
  | nil =>
    intro rest i h
    exact absurd h (by simp)
  | cons w ws ih =>
    intro rest i hi
    cases i with
    | zero =>
      simp only [flatListMap, List.append_assoc, Nat.mul_zero]
      rw [readLE_front]
      rfl
    | succ i =>
      simp only [flatListMap, List.append_assoc]
      rw [show 4 * (i + 1) = 4 + 4 * i by ring,
        readLE_append _ _ _ _ (by simp [leBytes_length])]
      simp only [leBytes_length]
      rw [show 4 + 4 * i - 4 = 4 * i by omega]
      have := ih rest i (by simpa using hi)
      rw [this]
      rfl

/-- Encode-then-decode round trip for data records: deserializing a
serialized valid record (with any trailing bytes) succeeds and returns
the record unchanged, reporting the exact serialized length. -/
theorem deserializeDataRecord_serialize (r : DataRecord) (hr : ValidDataRecord r)
    (rest : List Nat) :
    deserializeDataRecord (serializeDataRecord r ++ rest) 0 =
      some (r, calculateRecordSize r.key.length r.dimension) := by
  obtain ⟨hop, hq1, hq2, ht1, ht2, hkl, hkb, hdim, hemb, hw⟩ := hr
  have hes : embSlots r = r.embedding := embSlots_eq hemb
  have hS : serializeDataRecord r ++ rest =
      leBytes 4 recordMagic ++ (leBytes 2 recordVersion ++
        ([r.opType % 256, 0] ++ (leBytes 8 (toTwos64 r.sequenceNumber) ++
          (leBytes 8 (toTwos64 r.timestamp) ++ (leBytes 2 r.key.length ++
            (r.key ++ (leBytes 4 r.dimension ++
              (flatListMap (fun w => leBytes 4 w) r.embedding ++
                (leBytes 4 (crc32 (dataRecordBody r)) ++
                  (leBytes 4 recordTrailer ++ rest)))))))))) := by
    simp [serializeDataRecord, dataRecordBody, hes, List.append_assoc]
  have hP26 : serializeDataRecord r ++ rest =
      (leBytes 4 recordMagic ++ leBytes 2 recordVersion ++ [r.opType % 256, 0] ++
        leBytes 8 (toTwos64 r.sequenceNumber) ++ leBytes 8 (toTwos64 r.timestamp) ++
        leBytes 2 r.key.length) ++
      (r.key ++ (leBytes 4 r.dimension ++
        (flatListMap (fun w => leBytes 4 w) r.embedding ++
          (leBytes 4 (crc32 (dataRecordBody r)) ++
            (leBytes 4 recordTrailer ++ rest))))) := by
    simp [serializeDataRecord, dataRecordBody, hes, List.append_assoc]
  have hP26len : (leBytes 4 recordMagic ++ leBytes 2 recordVersion ++
      [r.opType % 256, 0] ++ leBytes 8 (toTwos64 r.sequenceNumber) ++
      leBytes 8 (toTwos64 r.timestamp) ++ leBytes 2 r.key.length).length = 26 := by
    simp [leBytes_length]
  have hP30 : serializeDataRecord r ++ rest =
      (leBytes 4 recordMagic ++ leBytes 2 recordVersion ++ [r.opType % 256, 0] ++
        leBytes 8 (toTwos64 r.sequenceNumber) ++ leBytes 8 (toTwos64 r.timestamp) ++
        leBytes 2 r.key.length ++ r.key ++ leBytes 4 r.dimension) ++
      (flatListMap (fun w => leBytes 4 w) r.embedding ++
        (leBytes 4 (crc32 (dataRecordBody r)) ++ (leBytes 4 recordTrailer ++ rest))) := by
    simp [serializeDataRecord, dataRecordBody, hes, List.append_assoc]
  have hP30len : (leBytes 4 recordMagic ++ leBytes 2 recordVersion ++
      [r.opType % 256, 0] ++ leBytes 8 (toTwos64 r.sequenceNumber) ++
      leBytes 8 (toTwos64 r.timestamp) ++ leBytes 2 r.key.length ++ r.key ++
      leBytes 4 r.dimension).length = 30 + r.key.length := by
    simp [leBytes_length]
    ring
  have hPbody : serializeDataRecord r ++ rest = dataRecordBody r ++
      (leBytes 4 (crc32 (dataRecordBody r)) ++ (leBytes 4 recordTrailer ++ rest)) := by
    simp [serializeDataRecord, List.append_assoc]
  have hPck : serializeDataRecord r ++ rest =
      (dataRecordBody r ++ leBytes 4 (crc32 (dataRecordBody r))) ++
      (leBytes 4 recordTrailer ++ rest) := by
    simp [serializeDataRecord, List.append_assoc]
  have hbl : (dataRecordBody r).length = 30 + r.key.length + r.dimension * 4 :=
    dataRecordBody_length r hemb
  have hSlen : (serializeDataRecord r ++ rest).length =
      38 + r.key.length + r.dimension * 4 + rest.length := by
    simp [serializeDataRecord_length r hemb, calculateRecordSize]
    ring
  have r0 : readLE (serializeDataRecord r ++ rest) 0 4 = recordMagic := by
    rw [hS, readLE_front]
    norm_num [recordMagic]
  have r4 : readLE (serializeDataRecord r ++ rest) 4 2 = recordVersion := by
    rw [hS, readLE_append _ _ 4 2 (by simp [leBytes_length])]
    simp only [leBytes_length]
    norm_num [readLE_front, recordVersion]
  have b6 : byteAt (serializeDataRecord r ++ rest) 6 = r.opType := by
    rw [hS, byteAt_append _ _ 6 (by simp [leBytes_length]),
      byteAt_append _ _ _ (by simp [leBytes_length])]
    simp only [leBytes_length]
    norm_num [byteAt, Nat.mod_eq_of_lt hop]
  have r8 : readLE (serializeDataRecord r ++ rest) 8 8 = toTwos64 r.sequenceNumber := by
    have hb := toTwos64_lt r.sequenceNumber
    rw [hS, readLE_append _ _ 8 8 (by simp [leBytes_length]),
      readLE_append _ _ _ _ (by simp [leBytes_length]),
      readLE_append _ _ _ _ (by simp [leBytes_length])]
    simp only [leBytes_length, List.length_cons, List.length_nil]
    norm_num [readLE_front]
    omega
  have r16 : readLE (serializeDataRecord r ++ rest) 16 8 = toTwos64 r.timestamp := by
    have hb := toTwos64_lt r.timestamp
    rw [hS, readLE_append _ _ 16 8 (by simp [leBytes_length]),
      readLE_append _ _ _ _ (by simp [leBytes_length]),
      readLE_append _ _ _ _ (by simp [leBytes_length]),
      readLE_append _ _ _ _ (by simp [leBytes_length])]
    simp only [leBytes_length, List.length_cons, List.length_nil]
    norm_num [readLE_front]
    omega
  have r24 : readLE (serializeDataRecord r ++ rest) 24 2 = r.key.length := by
    rw [hS, readLE_append _ _ 24 2 (by simp [leBytes_length]),
      readLE_append _ _ _ _ (by simp [leBytes_length]),
      readLE_append _ _ _ _ (by simp [leBytes_length]),
      readLE_append _ _ _ _ (by simp [leBytes_length]),
      readLE_append _ _ _ _ (by simp [leBytes_length])]
    simp only [leBytes_length, List.length_cons, List.length_nil]
    norm_num [readLE_front]
    omega
  have skey : byteSlice (serializeDataRecord r ++ rest) 26 r.key.length = r.key := by
    rw [hP26, byteSlice_append _ _ 26 _ (by rw [hP26len])]
    rw [hP26len]
    norm_num [byteSlice_front r.key _ _ rfl]
  have rdim : readLE (serializeDataRecord r ++ rest) (26 + r.key.length) 4 =
      r.dimension := by
    rw [hP26, readLE_append _ _ _ _ (by rw [hP26len]; omega)]
    rw [hP26len, readLE_append _ _ _ _ (by omega)]
    rw [show 26 + r.key.length - 26 - r.key.length = 0 by omega, readLE_front]
    norm_num
    omega
  have remb : ∀ i, i < r.dimension →
      readLE (serializeDataRecord r ++ rest) (30 + r.key.length + 4 * i) 4 =
        r.embedding.getD i 0 % 2 ^ 32 := by
    intro i hi
    rw [hP30, readLE_append _ _ _ _ (by rw [hP30len]; omega)]
    rw [hP30len, show 30 + r.key.length + 4 * i - (30 + r.key.length) = 4 * i by omega]
    exact readLE_flatWords r.embedding _ i (by omega)
  have rck : readLE (serializeDataRecord r ++ rest)
      (30 + r.key.length + r.dimension * 4) 4 = crc32 (dataRecordBody r) := by
    have hb := crc32_lt (dataRecordBody r)
    rw [hPbody, readLE_append _ _ _ _ (by rw [hbl])]
    rw [hbl, Nat.sub_self, readLE_front]
    norm_num
    omega
  have str : byteSlice (serializeDataRecord r ++ rest) 0
      (30 + r.key.length + r.dimension * 4) = dataRecordBody r := by
    rw [hPbody, byteSlice_front _ _ _ hbl]
  have rtr : readLE (serializeDataRecord r ++ rest)
      (34 + r.key.length + r.dimension * 4) 4 = recordTrailer := by
    rw [hPck, readLE_append _ _ _ _ (by simp [hbl, leBytes_length]; omega)]
    rw [show ((dataRecordBody r ++ leBytes 4 (crc32 (dataRecordBody r))).length) =
      34 + r.key.length + r.dimension * 4 by simp [hbl, leBytes_length]; ring]
    rw [Nat.sub_self, readLE_front]
    norm_num [recordTrailer]
  have hmap : (List.range r.dimension).map
      (fun i => readLE (serializeDataRecord r ++ rest) (30 + r.key.length + 4 * i) 4) =
      r.embedding := by
    apply List.ext_getElem
    · simp [hemb]
    · intro i h1 h2
      simp only [List.getElem_map, List.getElem_range]
      rw [remb i (by simpa using h1)]
      have hmem : r.embedding[i] ∈ r.embedding := List.getElem_mem h2
      simp only [List.getD_eq_getElem?_getD, List.getElem?_eq_getElem h2]
      exact Nat.mod_eq_of_lt (hw _ hmem)
  unfold deserializeDataRecord
  simp only [Nat.zero_add, Nat.sub_zero]
  rw [if_neg (by rw [hSlen]; omega)]
  rw [if_neg (by rw [r0]; exact fun h => h rfl)]
  rw [if_neg (by rw [r4]; exact fun h => h rfl)]
  rw [r24]
  rw [if_neg (by rw [hSlen]; omega)]
  rw [rdim]
  rw [if_neg (by rw [hSlen]; omega)]
  rw [if_neg (by rw [rck, str]; exact fun h => h rfl)]
  rw [if_neg (by rw [rtr]; exact fun h => h rfl)]
  rw [b6, r8, r16, skey, hmap]
  rw [fromTwos64_toTwos64 hq1 hq2, fromTwos64_toTwos64 ht1 ht2]
  unfold calculateRecordSize
  have : 4 + 2 + 1 + 1 + 8 + 8 + 2 + r.key.length + 4 + r.dimension * 4 + 4 + 4 =
      38 + r.key.length + r.dimension * 4 := by ring
  rw [this]

/-! ## General reads from a serialized data record (no validity needed) -/

theorem ser_read_magic (r : DataRecord) (rest : List Nat) :
    readLE (serializeDataRecord r ++ rest) 0 4 = recordMagic := by
  have hS : serializeDataRecord r ++ rest = leBytes 4 recordMagic ++
      (leBytes 2 recordVersion ++ ([r.opType % 256, 0] ++
        (leBytes 8 (toTwos64 r.sequenceNumber) ++ (leBytes 8 (toTwos64 r.timestamp) ++
          (leBytes 2 r.key.length ++ (r.key ++ (leBytes 4 r.dimension ++
            (flatListMap (fun w => leBytes 4 w) (embSlots r) ++
              (leBytes 4 (crc32 (dataRecordBody r)) ++
                (leBytes 4 recordTrailer ++ rest)))))))))) := by
    simp [serializeDataRecord, dataRecordBody, List.append_assoc]
  rw [hS, readLE_front]
  norm_num [recordMagic]

theorem ser_read_version (r : DataRecord) (rest : List Nat) :
    readLE (serializeDataRecord r ++ rest) 4 2 = recordVersion := by
  have hS : serializeDataRecord r ++ rest = leBytes 4 recordMagic ++
      (leBytes 2 recordVersion ++ ([r.opType % 256, 0] ++
        (leBytes 8 (toTwos64 r.sequenceNumber) ++ (leBytes 8 (toTwos64 r.timestamp) ++
          (leBytes 2 r.key.length ++ (r.key ++ (leBytes 4 r.dimension ++
            (flatListMap (fun w => leBytes 4 w) (embSlots r) ++
              (leBytes 4 (crc32 (dataRecordBody r)) ++
                (leBytes 4 recordTrailer ++ rest)))))))))) := by
    simp [serializeDataRecord, dataRecordBody, List.append_assoc]
  rw [hS, readLE_append _ _ 4 2 (by simp [leBytes_length])]
  simp only [leBytes_length]
  norm_num [readLE_front, recordVersion]

theorem ser_read_keyLenField (r : DataRecord) (rest : List Nat) :
    readLE (serializeDataRecord r ++ rest) 24 2 = r.key.length % 2 ^ 16 := by
  have hS : serializeDataRecord r ++ rest = leBytes 4 recordMagic ++
      (leBytes 2 recordVersion ++ ([r.opType % 256, 0] ++
        (leBytes 8 (toTwos64 r.sequenceNumber) ++ (leBytes 8 (toTwos64 r.timestamp) ++
          (leBytes 2 r.key.length ++ (r.key ++ (leBytes 4 r.dimension ++
            (flatListMap (fun w => leBytes 4 w) (embSlots r) ++
              (leBytes 4 (crc32 (dataRecordBody r)) ++
                (leBytes 4 recordTrailer ++ rest)))))))))) := by
    simp [serializeDataRecord, dataRecordBody, List.append_assoc]
  rw [hS, readLE_append _ _ 24 2 (by simp [leBytes_length]),
    readLE_append _ _ _ _ (by simp [leBytes_length]),
    readLE_append _ _ _ _ (by simp [leBytes_length]),
    readLE_append _ _ _ _ (by simp [leBytes_length]),
    readLE_append _ _ _ _ (by simp [leBytes_length])]
  simp only [leBytes_length, List.length_cons, List.length_nil]
  norm_num [readLE_front]

theorem ser_read_key (r : DataRecord) (rest : List Nat) (m : Nat)
    (hm : m ≤ r.key.length) :
    byteSlice (serializeDataRecord r ++ rest) 26 m = r.key.take m := by
  have hP26 : serializeDataRecord r ++ rest =
      (leBytes 4 recordMagic ++ leBytes 2 recordVersion ++ [r.opType % 256, 0] ++
        leBytes 8 (toTwos64 r.sequenceNumber) ++ leBytes 8 (toTwos64 r.timestamp) ++
        leBytes 2 r.key.length) ++
      (r.key ++ (leBytes 4 r.dimension ++
        (flatListMap (fun w => leBytes 4 w) (embSlots r) ++
          (leBytes 4 (crc32 (dataRecordBody r)) ++
            (leBytes 4 recordTrailer ++ rest))))) := by
    simp [serializeDataRecord, dataRecordBody, List.append_assoc]
  have hP26len : (leBytes 4 recordMagic ++ leBytes 2 recordVersion ++
      [r.opType % 256, 0] ++ leBytes 8 (toTwos64 r.sequenceNumber) ++
      leBytes 8 (toTwos64 r.timestamp) ++ leBytes 2 r.key.length).length = 26 := by
    simp [leBytes_length]
  rw [hP26, byteSlice_append _ _ 26 m (by rw [hP26len])]
  rw [hP26len, Nat.sub_self]
  unfold byteSlice
  rw [List.drop_zero, List.take_append_of_le_length hm]

/-! ## Oversized keys (keyLen field wrap-around) -/

/-- The key of any successfully deserialized record is the slice of
`keyLen`-field-many bytes at offset 26: unfolding the success path of
`deserializeDataRecord`. -/
theorem deserializeDataRecord_key_eq (buf : List Nat) (p : DataRecord × Nat)
    (h : deserializeDataRecord buf 0 = some p) :
    p.1.key = byteSlice buf 26 (readLE buf 24 2) := by
  simp only [deserializeDataRecord, Nat.zero_add, Nat.sub_zero] at h
  split at h
  · exact absurd h (by simp)
  · split at h
    · exact absurd h (by simp)
    · split at h
      · exact absurd h (by simp)
      · split at h
        · exact absurd h (by simp)
        · split at h
          · exact absurd h (by simp)
          · split at h
            · exact absurd h (by simp)
            · split at h
              · exact absurd h (by simp)
              · injection h with h1
                rw [← h1]

/-- For a record whose key has at least `2^16` UTF-8 bytes, the stored
keyLen field wraps modulo `2^16`, so decoding the serialized bytes can
never return the original record. -/
theorem long_key_roundtrip_ne (r : DataRecord) (hk : 2 ^ 16 ≤ r.key.length)
    (p : DataRecord × Nat) (h : deserializeDataRecord (serializeDataRecord r) 0 = some p) :
    p.1 ≠ r := by
  intro hrec
  have hkey := deserializeDataRecord_key_eq _ _ h
  have hfld : readLE (serializeDataRecord r) 24 2 = r.key.length % 2 ^ 16 := by
    have := ser_read_keyLenField r []
    rwa [List.append_nil] at this
  rw [hrec, hfld] at hkey
  have hlen := congrArg List.length hkey
  have hble : (byteSlice (serializeDataRecord r) 26 (r.key.length % 2 ^ 16)).length ≤
      r.key.length % 2 ^ 16 := by
    unfold byteSlice
    simp
  have hmod : r.key.length % 2 ^ 16 < 2 ^ 16 := Nat.mod_lt _ (by norm_num)
  omega

theorem ser_slice_body (r : DataRecord) (rest : List Nat) :
    byteSlice (serializeDataRecord r ++ rest) 0 (dataRecordBody r).length =
      dataRecordBody r := by
  have hPbody : serializeDataRecord r ++ rest = dataRecordBody r ++
      (leBytes 4 (crc32 (dataRecordBody r)) ++ (leBytes 4 recordTrailer ++ rest)) := by
    simp [serializeDataRecord, List.append_assoc]
  rw [hPbody, byteSlice_front _ _ _ rfl]

theorem ser_read_checksum (r : DataRecord) (rest : List Nat) :
    readLE (serializeDataRecord r ++ rest) (dataRecordBody r).length 4 =
      crc32 (dataRecordBody r) := by
  have hb := crc32_lt (dataRecordBody r)
  have hPbody : serializeDataRecord r ++ rest = dataRecordBody r ++
      (leBytes 4 (crc32 (dataRecordBody r)) ++ (leBytes 4 recordTrailer ++ rest)) := by
    simp [serializeDataRecord, List.append_assoc]
  rw [hPbody, readLE_append _ _ _ _ le_rfl, Nat.sub_self, readLE_front]
  norm_num
  omega

theorem ser_read_trailer (r : DataRecord) (rest : List Nat) :
    readLE (serializeDataRecord r ++ rest) ((dataRecordBody r).length + 4) 4 =
      recordTrailer := by
  have hPck : serializeDataRecord r ++ rest =
      (dataRecordBody r ++ leBytes 4 (crc32 (dataRecordBody r))) ++
      (leBytes 4 recordTrailer ++ rest) := by
    simp [serializeDataRecord, List.append_assoc]
  rw [hPck, readLE_append _ _ _ _ (by simp [leBytes_length])]
  rw [show (dataRecordBody r ++ leBytes 4 (crc32 (dataRecordBody r))).length =
    (dataRecordBody r).length + 4 by simp [leBytes_length]]
  rw [Nat.sub_self, readLE_front]
  norm_num [recordTrailer]

/-- An adversarially aligned oversized key: if the key has exactly `2^16`
UTF-8 bytes and its first four bytes encode `dimension + 16384`
little-endian, the wrapped keyLen field reads 0, the misparsed dimension
realigns the parse with the real checksum and trailer, and
deserialization SUCCEEDS (returning a different record). -/
theorem wrapped_key_parse_some (r : DataRecord) (d : Nat) (ktail : List Nat)
    (hkey : r.key = leBytes 4 d ++ ktail)
    (hkt : r.key.length = 2 ^ 16)
    (hd : d = r.dimension + 16384)
    (hemb : r.embedding.length = r.dimension)
    (hdlt : d < 2 ^ 32) :
    deserializeDataRecord (serializeDataRecord r) 0 ≠ none := by
  have hnil : serializeDataRecord r = serializeDataRecord r ++ [] :=
    (List.append_nil _).symm
  have hbl : (dataRecordBody r).length = 30 + r.key.length + r.dimension * 4 :=
    dataRecordBody_length r hemb
  have hSlen : (serializeDataRecord r).length =
      38 + r.key.length + r.dimension * 4 := by
    rw [serializeDataRecord_length r hemb]
    unfold calculateRecordSize
    ring
  have r0 : readLE (serializeDataRecord r) 0 4 = recordMagic := by
    rw [hnil]; exact ser_read_magic r []
  have r4 : readLE (serializeDataRecord r) 4 2 = recordVersion := by
    rw [hnil]; exact ser_read_version r []
  have r24 : readLE (serializeDataRecord r) 24 2 = 0 := by
    rw [hnil, ser_read_keyLenField r [], hkt]
    norm_num
  have rdim : readLE (serializeDataRecord r) 26 4 = d := by
    have hsl : byteSlice (serializeDataRecord r) 26 4 = r.key.take 4 := by
      rw [hnil]; exact ser_read_key r [] 4 (by omega)
    have htk : r.key.take 4 = leBytes 4 d := by
      rw [hkey, List.take_append_of_le_length (by simp [leBytes_length]),
        List.take_of_length_le (by simp [leBytes_length])]
    unfold readLE
    rw [hsl, htk]
    rw [leDecode_leBytes_of_lt (by norm_num; omega)]
  have rck : readLE (serializeDataRecord r) (30 + d * 4) 4 =
      crc32 (dataRecordBody r) := by
    have : 30 + d * 4 = (dataRecordBody r).length := by omega
    rw [this, hnil]
    exact ser_read_checksum r []
  have str : byteSlice (serializeDataRecord r) 0 (30 + d * 4) = dataRecordBody r := by
    have : 30 + d * 4 = (dataRecordBody r).length := by omega
    rw [this, hnil]
    exact ser_slice_body r []
  have rtr : readLE (serializeDataRecord r) (34 + d * 4) 4 = recordTrailer := by
    have : 34 + d * 4 = (dataRecordBody r).length + 4 := by omega
    rw [this, hnil]
    exact ser_read_trailer r []
  unfold deserializeDataRecord
  simp only [Nat.zero_add, Nat.sub_zero]
  rw [if_neg (by rw [hSlen]; omega)]
  rw [if_neg (by rw [r0]; exact fun h => h rfl)]
  rw [if_neg (by rw [r4]; exact fun h => h rfl)]
  rw [r24]
  rw [if_neg (by rw [hSlen]; omega)]
  simp only [Nat.add_zero]
  rw [rdim]
  rw [if_neg (by rw [hSlen]; omega)]
  rw [if_neg (by rw [rck, str]; exact fun h => h rfl)]
  rw [if_neg (by rw [rtr]; exact fun h => h rfl)]
  simp

/-- Concrete oversized-key record: dimension 4 embedding, key of exactly
`2^16` bytes whose first four bytes are the little-endian encoding of
`4 + 16384 = 16388`, i.e. `0x04 0x40 0x00 0x00`, followed by 65532 times
the byte `A`. -/
def bigKeyRecord : DataRecord :=
  ⟨0, 1, 0, leBytes 4 16388 ++ List.replicate 65532 65, 4, [0, 0, 0, 0]⟩

/-! ## Recovery key reads (`KeyIndex.buildFromWal` reads 1024 bytes) -/

/-- Model of `dataHandle.read(buffer, 0, n, off)` into a fresh
zero-initialized buffer of size `n`: the available bytes at `off`, then
zero padding up to `n`. -/
def readChunk (file : List Nat) (off n : Nat) : List Nat :=
  byteSlice file off n ++ List.replicate (n - (byteSlice file off n).length) 0

theorem readChunk_length (file : List Nat) (off n : Nat) :
    (readChunk file off n).length = n := by
  unfold readChunk byteSlice
  simp

theorem byteSlice_readChunk (file : List Nat) (off n i m : Nat)
    (h1 : i + m ≤ n) (h2 : i + m ≤ (file.drop off).length) :
    byteSlice (readChunk file off n) i m = byteSlice (file.drop off) i m := by
  unfold readChunk
  unfold byteSlice
  have hXlen : ((file.drop off).take n).length = min n (file.drop off).length := by
    simp
  rw [List.drop_append_eq_append_drop, List.take_append_eq_append_take]
  have hdlen : (((file.drop off).take n).drop i).length = min n (file.drop off).length - i := by
    simp
  rw [show m - (((file.drop off).take n).drop i).length = 0 by rw [hdlen]; omega]
  rw [List.take_zero, List.append_nil]
  rw [List.drop_take, List.take_take]
  rw [show min m (n - i) = m by omega]

theorem byteSlice_drop (file : List Nat) (off i m : Nat) :
    byteSlice (file.drop off) i m = byteSlice file (off + i) m := by
  unfold byteSlice
  rw [List.drop_drop, Nat.add_comm]

/-- Reading the key back from a 1024-byte chunk at a record offset: for a
record whose key is at most 998 UTF-8 bytes (so that the 26-byte header
plus the key fit in 1024 bytes), `readKeyFromBuffer` recovers the key. -/
theorem readKeyFromBuffer_chunk (file : List Nat) (off : Nat) (r : DataRecord)
    (suf : List Nat) (hfile : file.drop off = serializeDataRecord r ++ suf)
    (hemb : r.embedding.length = r.dimension)
    (hkl : r.key.length ≤ 998) :
    readKeyFromBuffer (readChunk file off 1024) 0 = some r.key := by
  have hXlen : (file.drop off).length = 38 + r.key.length + r.dimension * 4 +
      suf.length := by
    rw [hfile]
    simp [serializeDataRecord_length r hemb, calculateRecordSize]
    ring
  have hCk : (readChunk file off 1024).length = 1024 := readChunk_length file off 1024
  have r0 : readLE (readChunk file off 1024) 0 4 = recordMagic := by
    unfold readLE
    rw [byteSlice_readChunk _ _ _ _ _ (by omega) (by omega), hfile]
    exact ser_read_magic r suf
  have r24 : readLE (readChunk file off 1024) 24 2 = r.key.length := by
    unfold readLE
    rw [byteSlice_readChunk _ _ _ _ _ (by omega) (by omega), hfile]
    have := ser_read_keyLenField r suf
    unfold readLE at this
    rw [this]
    omega
  have skey : byteSlice (readChunk file off 1024) 26 r.key.length = r.key := by
    rw [byteSlice_readChunk _ _ _ _ _ (by omega) (by omega), hfile,
      ser_read_key r suf r.key.length le_rfl, List.take_length]
  unfold readKeyFromBuffer
  simp only [Nat.zero_add, Nat.sub_zero]
  rw [if_neg (by rw [hCk]; omega)]
  rw [if_neg (by rw [r0]; exact fun h => h rfl)]
  rw [r24]
  rw [if_neg (by rw [hCk]; omega)]
  rw [skey]

/-! ## Key index (`KeyIndex`, a JS `Map` as insertion-ordered assoc list) -/

/-- In-memory record location. -/
structure RecordLocation where
  offset : Nat
  length : Nat
  sequenceNumber : Int
deriving DecidableEq

def opInsert : Nat := 0

def opUpdate : Nat := 1

def opDelete : Nat := 2

/-- `Map.get`: first (only) binding of the key. -/
def idxLookup : List (List Nat × RecordLocation) → List Nat → Option RecordLocation
  | [], _ => none
  | (k, v) :: rest, key => if k = key then some v else idxLookup rest key

/-- `Map.has`. -/
def idxHas (m : List (List Nat × RecordLocation)) (key : List Nat) : Bool :=
  (idxLookup m key).isSome

/-- `Map.set`: replace in place when present, append otherwise. -/
def idxSet : List (List Nat × RecordLocation) → List Nat → RecordLocation →
    List (List Nat × RecordLocation)
  | [], key, v => [(key, v)]
  | (k, w) :: rest, key, v =>
      if k = key then (k, v) :: rest else (k, w) :: idxSet rest key v

/-- `Map.delete`: remove the binding of the key. -/
def idxDelete : List (List Nat × RecordLocation) → List Nat →
    List (List Nat × RecordLocation)
  | [], _ => []
  | (k, w) :: rest, key => if k = key then rest else (k, w) :: idxDelete rest key

/-- `Map.size`. -/
def idxCount (m : List (List Nat × RecordLocation)) : Nat :=
  m.length

/-- `KeyIndex.apply` / `KeyIndex.applyEntry`: delete removes the key,
anything else sets the location. -/
def keyIndexApply (m : List (List Nat × RecordLocation)) (key : List Nat)
    (loc : RecordLocation) (op : Nat) : List (List Nat × RecordLocation) :=
  if op = opDelete then idxDelete m key else idxSet m key loc

theorem idxLookup_set_self (m : List (List Nat × RecordLocation)) (k : List Nat)
    (v : RecordLocation) : idxLookup (idxSet m k v) k = some v := by
  induction m with
  | nil => simp [idxSet, idxLookup]
  | cons p rest ih =>
    cases p with
    | mk k1 w =>
      by_cases h : k1 = k
      · simp [idxSet, h, idxLookup]
      · simp [idxSet, h, idxLookup, ih]

theorem idxLookup_set_other (m : List (List Nat × RecordLocation)) (k k2 : List Nat)
    (v : RecordLocation) (h : k2 ≠ k) : idxLookup (idxSet m k v) k2 = idxLookup m k2 := by
  induction m with
  | nil =>
    simp only [idxSet, idxLookup]
    rw [if_neg (fun hh => h hh.symm)]
  | cons p rest ih =>
    cases p with
    | mk k1 w =>
      by_cases h1 : k1 = k
      · subst h1
        simp only [idxSet, if_pos rfl, idxLookup]
        rw [if_neg (fun hh : k1 = k2 => h (hh ▸ rfl)),
          if_neg (fun hh : k1 = k2 => h (hh ▸ rfl))]
      · simp only [idxSet, if_neg h1, idxLookup]
        by_cases h2 : k1 = k2
        · simp [h2]
        · simp [h2, ih]

theorem idxLookup_isSome_iff (m : List (List Nat × RecordLocation)) (k : List Nat) :
    (idxLookup m k).isSome = true ↔ k ∈ m.map Prod.fst := by
  induction m with
  | nil => simp [idxLookup]
  | cons p rest ih =>
    cases p with
    | mk k1 w =>
      by_cases h : k1 = k
      · subst h
        simp [idxLookup]
      · simp only [idxLookup, if_neg h, List.map_cons, List.mem_cons]
        rw [ih]
        constructor
        · exact fun hh => Or.inr hh
        · intro hh
          rcases hh with hh | hh
          · exact absurd hh.symm h
          · exact hh

/-- Keys of an index are pairwise distinct (JS `Map` invariant). -/
def IdxNodup (m : List (List Nat × RecordLocation)) : Prop :=
  (m.map Prod.fst).Nodup

theorem idxSet_keys (m : List (List Nat × RecordLocation)) (k : List Nat)
    (v : RecordLocation) :
    (idxSet m k v).map Prod.fst =
      if (idxLookup m k).isSome then m.map Prod.fst else m.map Prod.fst ++ [k] := by
  induction m with
  | nil => simp [idxSet, idxLookup]
  | cons p rest ih =>
    cases p with
    | mk k1 w =>
      by_cases h : k1 = k
      · subst h
        simp [idxSet, idxLookup]
      · simp only [idxSet, if_neg h, idxLookup, List.map_cons, ih]
        by_cases h2 : (idxLookup rest k).isSome
        · simp [h2]
        · simp [h2]

theorem idxSet_nodup (m : List (List Nat × RecordLocation)) (k : List Nat)
    (v : RecordLocation) (hm : IdxNodup m) : IdxNodup (idxSet m k v) := by
  unfold IdxNodup at hm ⊢
  rw [idxSet_keys]
  by_cases h : (idxLookup m k).isSome
  · simp [h, hm]
  · rw [if_neg h, List.nodup_append]
    refine ⟨hm, List.nodup_singleton k, ?_⟩
    intro a ha hb
    simp only [List.mem_singleton] at hb
    subst hb
    exact h ((idxLookup_isSome_iff m a).mpr ha)

theorem idxDelete_sublist (m : List (List Nat × RecordLocation)) (k : List Nat) :
    (idxDelete m k).Sublist m := by
  induction m with
  | nil => simp [idxDelete]
  | cons p rest ih =>
    cases p with
    | mk k1 w =>
      by_cases h : k1 = k
      · simp only [idxDelete, if_pos h]
        exact List.sublist_cons_self (k1, w) rest
      · simp only [idxDelete, if_neg h]
        exact List.Sublist.cons₂ (k1, w) ih

theorem idxDelete_nodup (m : List (List Nat × RecordLocation)) (k : List Nat)
    (hm : IdxNodup m) : IdxNodup (idxDelete m k) := by
  unfold IdxNodup at hm ⊢
  exact List.Nodup.sublist (List.Sublist.map Prod.fst (idxDelete_sublist m k)) hm

theorem idxDelete_not_mem (m : List (List Nat × RecordLocation)) (k : List Nat)
    (hm : IdxNodup m) : k ∉ (idxDelete m k).map Prod.fst := by
  induction m with
  | nil => simp [idxDelete]
  | cons p rest ih =>
    cases p with
    | mk k1 w =>
      unfold IdxNodup at hm
      simp only [List.map_cons, List.nodup_cons] at hm
      by_cases h : k1 = k
      · subst h
        simp only [idxDelete, if_pos rfl]
        exact hm.1
      · simp only [idxDelete, if_neg h, List.map_cons, List.mem_cons]
        intro hh
        rcases hh with hh | hh
        · exact h hh.symm
        · exact ih hm.2 hh

theorem idxLookup_delete_self (m : List (List Nat × RecordLocation)) (k : List Nat)
    (hm : IdxNodup m) : idxLookup (idxDelete m k) k = none := by
  have h := idxDelete_not_mem m k hm
  cases ho : idxLookup (idxDelete m k) k with
  | none => rfl
  | some v =>
    exact absurd ((idxLookup_isSome_iff _ _).mp (by rw [ho]; rfl)) h

theorem idxLookup_delete_other (m : List (List Nat × RecordLocation)) (k k2 : List Nat)
    (h : k2 ≠ k) : idxLookup (idxDelete m k) k2 = idxLookup m k2 := by
  induction m with
  | nil => simp [idxDelete]
  | cons p rest ih =>
    cases p with
    | mk k1 w =>
      by_cases h1 : k1 = k
      · subst h1
        have hdel : idxDelete ((k1, w) :: rest) k1 = rest := by
          simp [idxDelete]
        rw [hdel]
        simp only [idxLookup]
        rw [if_neg (fun hh : k1 = k2 => h (hh ▸ rfl))]
      · simp only [idxDelete, if_neg h1, idxLookup]
        by_cases h2 : k1 = k2
        · simp [h2]
        · simp [h2, ih]

theorem idxDelete_keys (m : List (List Nat × RecordLocation)) (k : List Nat)
    (hm : IdxNodup m) :
    (idxDelete m k).map Prod.fst =
      if (idxLookup m k).isSome then (m.map Prod.fst).erase k else m.map Prod.fst := by
  induction m with
  | nil => simp [idxDelete, idxLookup]
  | cons p rest ih =>
    cases p with
    | mk k1 w =>
      have hm2 : IdxNodup rest := by
        unfold IdxNodup at hm ⊢
        simp only [List.map_cons, List.nodup_cons] at hm
        exact hm.2
      by_cases h : k1 = k
      · subst h
        simp [idxDelete, idxLookup, List.erase_cons_head]
      · simp only [idxDelete, if_neg h, idxLookup, if_neg h, List.map_cons, ih hm2]
        by_cases h2 : (idxLookup rest k).isSome
        · simp only [h2, if_true]
          rw [List.erase_cons_tail]
          simp [h]
        · simp [h2]

/-! ## FNV-1a key hash (`hashKey`) -/

/-- FNV-1a 64: offset basis `0xCBF29CE484222325`, prime `0x100000001B3`,
per UTF-8 byte, wrapping at 64 bits (`BigInt.asUintN(64, ...)`). -/
def fnv1a64 (bytes : List Nat) : Nat :=
  bytes.foldl (fun h b => ((h ^^^ b) * 0x100000001b3) % 2 ^ 64) 0xcbf29ce484222325

/-- Translated from `hashKey`: the 8 little-endian bytes of the FNV-1a 64
hash of the key. -/
def hashKey (key : List Nat) : List Nat :=
  leBytes 8 (fnv1a64 key)

theorem hashKey_length (key : List Nat) : (hashKey key).length = 8 :=
  leBytes_length 8 _

theorem hashKey_bytes (key : List Nat) : ∀ b ∈ hashKey key, b < 256 :=
  leBytes_lt 8 _

/-! ## Storage engine state machine (`StorageEngine`, immediate write path)

The engine is modelled by its logical state: the two files (absent or
byte content), the in-memory index and the sequence counter.  Writes are
modelled on the non-batched path (`writeRecordImmediate`); the batcher
produces the same committed bytes per acknowledged write.  The process
clock (`Date.now()`) is an external input, passed as the `ts` argument.
Lock acquisition always succeeds in this single-process model. -/

structure Engine where
  dimension : Nat
  dataFile : Option (List Nat)
  walFile : Option (List Nat)
  index : List (List Nat × RecordLocation)
  sequenceCounter : Int
deriving DecidableEq

/-- Translated from `KeyIndex.buildFromWal`: missing data file gives an
empty index and sequence 0; otherwise every recovered WAL entry updates
the running maximum sequence and, when its key can be read from the data
file (1024-byte chunk at the entry offset), is applied to the index.
The source's guard is `if (key)` on a `string | null`, and a JS string is
falsy when it is empty: a `null` key (unreadable) AND the empty-string
key are both skipped. -/
def buildFromWal (wal : Option (List Nat)) (dataFile : Option (List Nat)) :
    List (List Nat × RecordLocation) × Int :=
  match dataFile with
  | none => ([], 0)
  | some file =>
      (walRecoverFile wal).foldl
        (fun acc e =>
          let m2 := max acc.2 e.sequenceNumber
          match readKeyFromBuffer (readChunk file e.offset 1024) 0 with
          | some k =>
              if k = [] then (acc.1, m2)
              else (keyIndexApply acc.1 k ⟨e.offset, e.length, e.sequenceNumber⟩
                e.opType, m2)
          | none => (acc.1, m2))
        ([], 0)

/-- Translated from `StorageEngine.create`: build the index from the WAL
and start the sequence counter at `maxSequence + 1`. -/
def createEngine (dimension : Nat) (dataFile : Option (List Nat))
    (walFile : Option (List Nat)) : Engine :=
  let r := buildFromWal walFile dataFile
  ⟨dimension, dataFile, walFile, r.1, r.2 + 1⟩

/-- Translated from `appendToDataFile`: if the file is empty or missing,
write the header first and append at offset 16; otherwise append at the
current size.  Returns the record offset and the new file content. -/
def appendToDataFile (e : Engine) (data : List Nat) : Nat × List Nat :=
  let cur := e.dataFile.getD []
  if cur.length = 0 then (headerSize, serializeHeader e.dimension ++ data)
  else (cur.length, cur ++ data)

/-- The body of `writeRecordImmediate` after the guards: assign the next
sequence number, serialize, append to the data file, append the WAL entry
(commit point), update the index. -/
def writeRecordCore (e : Engine) (key emb : List Nat) (op : Nat) (ts : Int) :
    Engine :=
  let seq := e.sequenceCounter
  let rec1 : DataRecord := ⟨op, seq, ts, key, e.dimension, emb⟩
  let recordData := serializeDataRecord rec1
  let od := appendToDataFile e recordData
  let walEntry : WalEntry := ⟨op, seq, od.1, recordData.length, hashKey key⟩
  ⟨e.dimension, some od.2, some (e.walFile.getD [] ++ serializeWalEntry walEntry),
    keyIndexApply e.index key ⟨od.1, recordData.length, seq⟩ op, seq + 1⟩

inductive EngErr where
  | dimensionMismatch
deriving DecidableEq

/-- Translated from `writeRecord` (named engine source): dimension guard,
then the immediate write path. -/
def writeRecord (e : Engine) (key emb : List Nat) (op : Nat) (ts : Int) :
    Except EngErr Engine :=
  if emb.length ≠ e.dimension then .error .dimensionMismatch
  else .ok (writeRecordCore e key emb op ts)

/-- Translated from `deleteRecord`: absent key returns false without
writing; otherwise a delete record with a zero vector of dimension D goes
through the write path. -/
def deleteRecord (e : Engine) (key : List Nat) (ts : Int) : Bool × Engine :=
  if idxHas e.index key then
    (true, writeRecordCore e key (List.replicate e.dimension 0) opDelete ts)
  else (false, e)

/-- Translated from `readRecord`: index lookup, positional read of
`length` bytes at `offset` (zero-padded if short), decode; `none` on any
codec failure. -/
def readRecord (e : Engine) (key : List Nat) : Option DataRecord :=
  match idxLookup e.index key with
  | none => none
  | some loc =>
      match deserializeDataRecord (readChunk (e.dataFile.getD []) loc.offset loc.length) 0 with
      | none => none
      | some p => some p.1

/-- Translated from `hasKey`. -/
def hasKey (e : Engine) (key : List Nat) : Bool :=
  idxHas e.index key

/-- Translated from `count`. -/
def engineCount (e : Engine) : Nat :=
  idxCount e.index

/-- A client operation: an awaited `writeRecord` or `deleteRecord` call,
with the wall-clock timestamp the engine would observe. -/
inductive EngOp where
  | write (key emb : List Nat) (op : Nat) (ts : Int)
  | del (key : List Nat) (ts : Int)
deriving DecidableEq

/-- Apply one operation; a rejected write (dimension mismatch throws
before any mutation) leaves the state unchanged. -/
def applyOp (e : Engine) : EngOp → Engine
  | .write k emb op ts =>
      match writeRecord e k emb op ts with
      | .ok e2 => e2
      | .error _ => e
  | .del k ts => (deleteRecord e k ts).2

def runOps (e : Engine) (ops : List EngOp) : Engine :=
  ops.foldl applyOp e

/-- Well-formed operation for an engine of dimension `D`: key bytes are
UTF-8 code units, the embedding has the engine dimension with 32-bit
float patterns, the opType is one of insert/update/delete, the timestamp
is an int64, and the key fits the 2-byte keyLen field. -/
def WFOp (D : Nat) : EngOp → Prop
  | .write k emb op ts =>
      (∀ b ∈ k, b < 256) ∧ k.length < 2 ^ 16 ∧ emb.length = D ∧
        (∀ w ∈ emb, w < 2 ^ 32) ∧ op < 3 ∧ -(2 ^ 63) ≤ ts ∧ ts < 2 ^ 63
  | .del k ts =>
      (∀ b ∈ k, b < 256) ∧ k.length < 2 ^ 16 ∧ -(2 ^ 63) ≤ ts ∧ ts < 2 ^ 63

/-- A key that recovery can restore: non-empty (the `if (key)` truthiness
guard in `KeyIndex.buildFromWal` skips the empty string) and short enough
for the 26-byte record header plus the key to fit the 1024-byte recovery
chunk. -/
def RecoverableKeyOp : EngOp → Prop
  | .write k _ _ _ => 1 ≤ k.length ∧ k.length ≤ 998
  | .del k _ => 1 ≤ k.length ∧ k.length ≤ 998

/-! ## Ghost state: the committed records of a run -/

/-- Concatenated serialized records (the data file after the header). -/
def dataBytesAux : List DataRecord → List Nat
  | [] => []
  | r :: rs => serializeDataRecord r ++ dataBytesAux rs

/-- The full data file for committed records `recs`. -/
def dataBytes (D : Nat) (recs : List DataRecord) : List Nat :=
  serializeHeader D ++ dataBytesAux recs

/-- The WAL entries for committed records starting at data offset `pos`. -/
def walEntriesAux (pos : Nat) : List DataRecord → List WalEntry
  | [] => []
  | r :: rs =>
      ⟨r.opType, r.sequenceNumber, pos, (serializeDataRecord r).length, hashKey r.key⟩ ::
        walEntriesAux (pos + (serializeDataRecord r).length) rs

def walEntries (recs : List DataRecord) : List WalEntry :=
  walEntriesAux headerSize recs

/-- The WAL file bytes for committed records. -/
def walBytes (recs : List DataRecord) : List Nat :=
  serializeWalList (walEntries recs)

/-- Replaying committed records onto an index, tracking data offsets. -/
def replayIndex : List DataRecord → Nat → List (List Nat × RecordLocation) →
    List (List Nat × RecordLocation)
  | [], _, m => m
  | r :: rs, pos, m =>
      replayIndex rs (pos + (serializeDataRecord r).length)
        (keyIndexApply m r.key ⟨pos, (serializeDataRecord r).length, r.sequenceNumber⟩
          r.opType)

/-- Records paired with their data-file offsets. -/
def withOffsets (pos : Nat) : List DataRecord → List (Nat × DataRecord)
  | [] => []
  | r :: rs => (pos, r) :: withOffsets (pos + (serializeDataRecord r).length) rs

/-- The last committed record for a key. -/
def lastRecFor (recs : List DataRecord) (k : List Nat) : Option DataRecord :=
  (recs.filter (fun r => r.key = k)).getLast?

/-! ## Logical view of an operation sequence -/

def opKey : EngOp → List Nat
  | .write k _ _ _ => k
  | .del k _ => k

def opIsDelete : EngOp → Bool
  | .write _ _ op _ => op = opDelete
  | .del _ _ => true

/-- The last operation that targeted `k`. -/
def lastOpOn (ops : List EngOp) (k : List Nat) : Option EngOp :=
  (ops.filter (fun o => opKey o = k)).getLast?

/-- Whether any operation targeted `k`. -/
def touches (ops : List EngOp) (k : List Nat) : Bool :=
  ops.any (fun o => opKey o = k)

/-- Is `k` live after `ops`: some operation targeted it and the last one
was not a delete. -/
def liveKey (ops : List EngOp) (k : List Nat) : Bool :=
  match lastOpOn ops k with
  | some o => !(opIsDelete o)
  | none => false

/-- The embedding of the last operation on `k`, when it is a live write. -/
def liveEmb (ops : List EngOp) (k : List Nat) : Option (List Nat) :=
  match lastOpOn ops k with
  | some (.write _ emb op _) => if op = opDelete then none else some emb
  | _ => none

/-! ## Engine invariant -/

/-- Invariant tying an engine state to its ghost list of committed
records: bounded dimension and count (so offsets and sequence numbers fit
their fields), valid records of the engine dimension, sequence numbers
`1..n` in order, counter `n+1`, files exactly the serialized committed
state (absent before the first commit), and the in-memory index equal to
the replay of the committed records. -/
structure EngineInv (e : Engine) (recs : List DataRecord) : Prop where
  dim_bound : e.dimension ≤ 2 ^ 16
  count_bound : recs.length ≤ 2 ^ 32
  recs_valid : ∀ r ∈ recs, ValidDataRecord r
  recs_dim : ∀ r ∈ recs, r.dimension = e.dimension
  seqs : ∀ i (h : i < recs.length), recs[i].sequenceNumber = (i : Int) + 1
  counter : e.sequenceCounter = (recs.length : Int) + 1
  files : (recs = [] ∧ e.dataFile = none ∧ e.walFile = none) ∨
      (recs ≠ [] ∧ e.dataFile = some (dataBytes e.dimension recs) ∧
        e.walFile = some (walBytes recs))
  index_eq : e.index = replayIndex recs headerSize []

theorem recordSize_bound {r : DataRecord} (hv : ValidDataRecord r)
    (hd : r.dimension ≤ 2 ^ 16) : (serializeDataRecord r).length ≤ 2 ^ 19 := by
  obtain ⟨_, _, _, _, _, h1, _, _, hemb, _⟩ := hv
  rw [serializeDataRecord_length r hemb]
  unfold calculateRecordSize
  omega

theorem dataBytesAux_append (rs : List DataRecord) (r : DataRecord) :
    dataBytesAux (rs ++ [r]) = dataBytesAux rs ++ serializeDataRecord r := by
  induction rs with
  | nil => simp [dataBytesAux]
  | cons q qs ih => simp [dataBytesAux, ih]

theorem dataBytesAux_length_bound (rs : List DataRecord) (D : Nat)
    (hv : ∀ r ∈ rs, ValidDataRecord r) (hd : ∀ r ∈ rs, r.dimension = D)
    (hD : D ≤ 2 ^ 16) : (dataBytesAux rs).length ≤ rs.length * 2 ^ 19 := by
  induction rs with
  | nil => simp [dataBytesAux]
  | cons q qs ih =>
    simp only [dataBytesAux, List.length_append, List.length_cons]
    have h1 : (serializeDataRecord q).length ≤ 2 ^ 19 :=
      recordSize_bound (hv q (by simp)) (by rw [hd q (by simp)]; exact hD)
    have h2 := ih (fun r hr => hv r (by simp [hr])) (fun r hr => hd r (by simp [hr]))
    omega

theorem dataBytes_length (D : Nat) (rs : List DataRecord) :
    (dataBytes D rs).length = 16 + (dataBytesAux rs).length := by
  unfold dataBytes serializeHeader
  simp [leBytes_length]
  omega

theorem walEntriesAux_append (rs : List DataRecord) (r : DataRecord) :
    ∀ pos, walEntriesAux pos (rs ++ [r]) = walEntriesAux pos rs ++
      [⟨r.opType, r.sequenceNumber, pos + (dataBytesAux rs).length,
        (serializeDataRecord r).length, hashKey r.key⟩] := by
  induction rs with
  | nil =>
    intro pos
    simp [walEntriesAux, dataBytesAux]
  | cons q qs ih =>
    intro pos
    simp only [List.cons_append, List.append_eq, walEntriesAux, dataBytesAux,
      List.length_append]
    rw [ih]
    ring_nf

theorem serializeWalList_append (es : List WalEntry) (e : WalEntry) :
    serializeWalList (es ++ [e]) = serializeWalList es ++ serializeWalEntry e := by
  induction es with
  | nil => simp [serializeWalList]
  | cons q qs ih => simp [serializeWalList, ih]

theorem replayIndex_append (rs : List DataRecord) (r : DataRecord) :
    ∀ pos m, replayIndex (rs ++ [r]) pos m =
      keyIndexApply (replayIndex rs pos m) r.key
        ⟨pos + (dataBytesAux rs).length, (serializeDataRecord r).length,
          r.sequenceNumber⟩ r.opType := by
  induction rs with
  | nil =>
    intro pos m
    simp [replayIndex, dataBytesAux]
  | cons q qs ih =>
    intro pos m
    simp only [List.cons_append, List.append_eq, replayIndex, dataBytesAux,
      List.length_append]
    rw [ih]
    ring_nf

theorem fresh_inv (D : Nat) (hD : D ≤ 2 ^ 16) :
    EngineInv (createEngine D none none) [] := by
  refine ⟨hD, by simp, by simp, by simp, by simp, ?_, ?_, ?_⟩
  · show (buildFromWal none none).2 + 1 = ((List.length []: Nat) : Int) + 1
    simp [buildFromWal]
  · left
    exact ⟨rfl, rfl, rfl⟩
  · show (buildFromWal none none).1 = replayIndex [] headerSize []
    simp [buildFromWal, replayIndex]

theorem writeRecordCore_inv {e : Engine} {recs : List DataRecord}
    (hinv : EngineInv e recs) (k emb : List Nat) (op : Nat) (ts : Int)
    (hk : ∀ b ∈ k, b < 256) (hklt : k.length < 2 ^ 16)
    (hemb : emb.length = e.dimension) (hw : ∀ w ∈ emb, w < 2 ^ 32) (hop : op < 3)
    (hts1 : -(2 ^ 63) ≤ ts) (hts2 : ts < 2 ^ 63)
    (hcnt : recs.length + 1 ≤ 2 ^ 32) :
    EngineInv (writeRecordCore e k emb op ts)
      (recs ++ [⟨op, e.sequenceCounter, ts, k, e.dimension, emb⟩]) := by
  set newRec : DataRecord := ⟨op, e.sequenceCounter, ts, k, e.dimension, emb⟩ with hnew
  have hseqval : e.sequenceCounter = (recs.length : Int) + 1 := hinv.counter
  have hseqlt : e.sequenceCounter < 2 ^ 63 := by
    rw [hseqval]
    have : (recs.length : Int) ≤ 2 ^ 32 := by exact_mod_cast hinv.count_bound
    omega
  have hseqge : -(2 ^ 63) ≤ e.sequenceCounter := by
    rw [hseqval]
    have : (0 : Int) ≤ (recs.length : Int) := Int.ofNat_nonneg _
    omega
  have hvnew : ValidDataRecord newRec := by
    refine ⟨by show op < 256; omega, hseqge, hseqlt, hts1, hts2, hklt, hk, ?_, hemb, hw⟩
    have := hinv.dim_bound
    show e.dimension < 2 ^ 32
    omega
  have hoffdata : ∀ cur : List Nat, cur.length ≠ 0 → True := fun _ _ => trivial
  constructor
  case dim_bound => exact hinv.dim_bound
  case count_bound => simpa using hcnt
  case recs_valid =>
    intro r hr
    rcases List.mem_append.mp hr with h | h
    · exact hinv.recs_valid r h
    · simp only [List.mem_singleton] at h
      subst h
      exact hvnew
  case recs_dim =>
    intro r hr
    rcases List.mem_append.mp hr with h | h
    · exact hinv.recs_dim r h
    · simp only [List.mem_singleton] at h
      subst h
      rfl
  case seqs =>
    intro i h
    simp only [List.length_append, List.length_singleton, List.length_nil] at h
    by_cases hi : i < recs.length
    · rw [List.getElem_append_left hi]
      exact hinv.seqs i hi
    · have : i = recs.length := by omega
      subst this
      rw [List.getElem_append_right (le_refl _)]
      simp [hnew, hseqval]
  case counter =>
    show e.sequenceCounter + 1 = _
    rw [hseqval]
    simp
  case files =>
    right
    have hdim2 : (writeRecordCore e k emb op ts).dimension = e.dimension := rfl
    refine ⟨by simp, ?_, ?_⟩
    · show some (appendToDataFile e (serializeDataRecord newRec)).2 = _
      rw [hdim2]
      unfold appendToDataFile
      rcases hinv.files with ⟨hrecs, hdf, hwf⟩ | ⟨hrecs, hdf, hwf⟩
      · subst hrecs
        rw [hdf]
        simp [dataBytes, dataBytesAux]
      · rw [hdf]
        simp only [Option.getD_some]
        rw [if_neg (by rw [dataBytes_length]; omega)]
        simp [dataBytes, dataBytesAux_append, List.append_assoc]
    · show some (e.walFile.getD [] ++ serializeWalEntry _) = _
      rcases hinv.files with ⟨hrecs, hdf, hwf⟩ | ⟨hrecs, hdf, hwf⟩
      · subst hrecs
        rw [hwf]
        unfold walBytes walEntries
        simp only [Option.getD_none, List.nil_append]
        simp only [walEntriesAux, serializeWalList, List.append_nil]
        congr 2
        unfold appendToDataFile
        rw [hdf]
        simp
      · rw [hwf]
        unfold walBytes walEntries
        simp only [Option.getD_some]
        rw [walEntriesAux_append, serializeWalList_append]
        congr 2
        unfold appendToDataFile
        rw [hdf]
        simp only [Option.getD_some]
        rw [if_neg (by rw [dataBytes_length]; omega)]
        rw [dataBytes_length]
        rfl
  case index_eq =>
    show keyIndexApply e.index k _ op = _
    rw [replayIndex_append, ← hinv.index_eq]
    congr 2
    unfold appendToDataFile
    rcases hinv.files with ⟨hrecs, hdf, hwf⟩ | ⟨hrecs, hdf, hwf⟩
    · subst hrecs
      rw [hdf]
      simp [dataBytesAux, headerSize]
    · rw [hdf]
      simp only [Option.getD_some]
      rw [if_neg (by rw [dataBytes_length]; omega)]
      rw [dataBytes_length]
      rfl

/-! ## Recovery rebuilds the committed state -/

theorem serializeWalList_length (es : List WalEntry) :
    (serializeWalList es).length = 48 * es.length := by
  induction es with
  | nil => simp [serializeWalList]
  | cons e es ih =>
    simp [serializeWalList, serializeWalEntry_length, ih]
    ring

theorem serRecord_pos {r : DataRecord} (hemb : r.embedding.length = r.dimension) :
    38 ≤ (serializeDataRecord r).length := by
  rw [serializeDataRecord_length r hemb]
  unfold calculateRecordSize
  omega

theorem walEntriesAux_valid (rs : List DataRecord) :
    ∀ pos, pos + (dataBytesAux rs).length ≤ 2 ^ 64 →
      (∀ r ∈ rs, ValidDataRecord r) →
      (∀ r ∈ rs, (serializeDataRecord r).length ≤ 2 ^ 19) →
      ∀ en ∈ walEntriesAux pos rs, ValidWalEntry en := by
  induction rs with
  | nil => simp [walEntriesAux]
  | cons r rs ih =>
    intro pos hpos hv hsz en hen
    have hvr := hv r (by simp)
    obtain ⟨hop, hs1, hs2, _, _, _, _, _, hemb, _⟩ := hvr
    simp only [walEntriesAux, List.mem_cons] at hen
    have hrlen : 38 ≤ (serializeDataRecord r).length := serRecord_pos hemb
    simp only [dataBytesAux, List.length_append] at hpos
    rcases hen with hen | hen
    · subst hen
      refine ⟨hop, hs1, hs2, by show pos < 2 ^ 64; omega, ?_, hashKey_length r.key,
        hashKey_bytes r.key⟩
      have := hsz r (by simp)
      show (serializeDataRecord r).length < 2 ^ 32
      omega
    · exact ih (pos + (serializeDataRecord r).length) (by omega)
        (fun q hq => hv q (by simp [hq])) (fun q hq => hsz q (by simp [hq])) en hen

theorem walRecoverFile_walBytes (recs : List DataRecord)
    (hval : ∀ en ∈ walEntries recs, ValidWalEntry en) :
    walRecoverFile (some (walBytes recs)) = walEntries recs := by
  rw [show walRecoverFile (some (walBytes recs)) =
    (if (walBytes recs).length = 0 then [] else walRecover (walBytes recs)) from rfl]
  by_cases h : (walBytes recs).length = 0
  · rw [if_pos h]
    unfold walBytes at h
    rw [serializeWalList_length] at h
    have : walEntries recs = [] := List.length_eq_zero.mp (by omega)
    rw [this]
  · rw [if_neg h]
    unfold walBytes
    have := walRecover_serialized (walEntries recs) [] hval (by decide)
    rwa [List.append_nil] at this

/-- The `buildFromWal` fold, walking entries aligned with the records
they commit: rebuilds the replayed index and the maximum sequence. -/
theorem buildFold_spec (file : List Nat) (rs : List DataRecord) :
    ∀ (pos : Nat) (m : List (List Nat × RecordLocation)) (msq : Int),
      (∀ r ∈ rs, ValidDataRecord r) →
      (∀ r ∈ rs, 1 ≤ r.key.length ∧ r.key.length ≤ 998) →
      file.drop pos = dataBytesAux rs →
      (∀ i (h : i < rs.length), rs[i].sequenceNumber = msq + i + 1) →
      (walEntriesAux pos rs).foldl
        (fun acc e =>
          let m2 := max acc.2 e.sequenceNumber
          match readKeyFromBuffer (readChunk file e.offset 1024) 0 with
          | some k =>
              if k = [] then (acc.1, m2)
              else (keyIndexApply acc.1 k ⟨e.offset, e.length, e.sequenceNumber⟩
                e.opType, m2)
          | none => (acc.1, m2)) (m, msq) =
      (replayIndex rs pos m, msq + rs.length) := by
  induction rs with
  | nil =>
    intro pos m msq _ _ _ _
    simp [walEntriesAux, replayIndex]
  | cons r rs ih =>
    intro pos m msq hv hk hfile hs
    have hvr := hv r (by simp)
    have hemb : r.embedding.length = r.dimension := hvr.2.2.2.2.2.2.2.2.1
    have hseq0 : r.sequenceNumber = msq + 1 := by
      have := hs 0 (by simp)
      simpa using this
    have hread : readKeyFromBuffer (readChunk file pos 1024) 0 = some r.key := by
      apply readKeyFromBuffer_chunk file pos r (dataBytesAux rs)
      · rw [hfile]
        simp [dataBytesAux]
      · exact hemb
      · exact (hk r (by simp)).2
    have hne : ¬(r.key = []) := by
      have h1 := (hk r (by simp)).1
      intro hcon
      rw [hcon] at h1
      simp at h1
    simp only [walEntriesAux, List.foldl_cons]
    simp only [hread]
    rw [if_neg hne]
    have hmax : max msq r.sequenceNumber = msq + 1 := by
      rw [hseq0]
      omega
    simp only [hmax]
    have hdrop : file.drop (pos + (serializeDataRecord r).length) = dataBytesAux rs := by
      have h1 : (file.drop pos).drop (serializeDataRecord r).length =
          file.drop (pos + (serializeDataRecord r).length) :=
        List.drop_drop _ _ _
      rw [hfile] at h1
      simp only [dataBytesAux] at h1
      rw [List.drop_left] at h1
      exact h1.symm
    have hseqs : ∀ i (h : i < rs.length), rs[i].sequenceNumber = (msq + 1) + i + 1 := by
      intro i h
      have := hs (i + 1) (by simp; omega)
      simp only [List.getElem_cons_succ] at this
      rw [this]
      push_cast
      ring
    rw [ih (pos + (serializeDataRecord r).length)
      (keyIndexApply m r.key ⟨pos, (serializeDataRecord r).length, r.sequenceNumber⟩
        r.opType) (msq + 1) (fun q hq => hv q (by simp [hq]))
      (fun q hq => hk q (by simp [hq])) hdrop hseqs]
    simp only [replayIndex, List.length_cons, Prod.mk.injEq]
    refine ⟨trivial, ?_⟩
    push_cast
    ring

theorem serializeHeader_length (D : Nat) : (serializeHeader D).length = 16 := by
  simp [serializeHeader, leBytes_length]

/-- Reopening an engine (close writes nothing; `create` rebuilds from the
files) restores the invariant, provided every committed key is recoverable:
non-empty (the `if (key)` truthiness guard skips the empty string) and
short enough for the 1024-byte recovery read. -/
theorem reopen_inv (e : Engine) (recs : List DataRecord) (hinv : EngineInv e recs)
    (hkeys : ∀ r ∈ recs, 1 ≤ r.key.length ∧ r.key.length ≤ 998) :
    EngineInv (createEngine e.dimension e.dataFile e.walFile) recs := by
  rcases hfl : hinv.files with ⟨hrecs, hdf, hwf⟩ | ⟨hrecs, hdf, hwf⟩
  · subst hrecs
    rw [hdf, hwf]
    exact fresh_inv e.dimension hinv.dim_bound
  · rw [hdf, hwf]
    have hsz : ∀ r ∈ recs, (serializeDataRecord r).length ≤ 2 ^ 19 := fun r hr =>
      recordSize_bound (hinv.recs_valid r hr)
        (by rw [hinv.recs_dim r hr]; exact hinv.dim_bound)
    have hauxlen : (dataBytesAux recs).length ≤ 2 ^ 51 := by
      have h1 := dataBytesAux_length_bound recs e.dimension hinv.recs_valid
        hinv.recs_dim hinv.dim_bound
      have h2 := hinv.count_bound
      have h3 : recs.length * 2 ^ 19 ≤ 2 ^ 32 * 2 ^ 19 :=
        Nat.mul_le_mul_right _ h2
      have h4 : (2 : Nat) ^ 32 * 2 ^ 19 = 2 ^ 51 := by norm_num
      omega
    have hval : ∀ en ∈ walEntries recs, ValidWalEntry en := by
      apply walEntriesAux_valid recs headerSize ?_ hinv.recs_valid hsz
      unfold headerSize
      omega
    have hrec : walRecoverFile (some (walBytes recs)) = walEntries recs :=
      walRecoverFile_walBytes recs hval
    have hfile : (dataBytes e.dimension recs).drop headerSize = dataBytesAux recs := by
      unfold dataBytes
      exact List.drop_left' (serializeHeader_length e.dimension)
    have hseqs : ∀ i (h : i < recs.length),
        recs[i].sequenceNumber = (0 : Int) + i + 1 := by
      intro i h
      rw [hinv.seqs i h]
      ring
    have hbuild : buildFromWal (some (walBytes recs)) (some (dataBytes e.dimension recs)) =
        (replayIndex recs headerSize [], (0 : Int) + recs.length) := by
      show ((walRecoverFile (some (walBytes recs))).foldl _ ([], 0)) = _
      rw [hrec]
      exact buildFold_spec (dataBytes e.dimension recs) recs headerSize [] 0
        hinv.recs_valid hkeys hfile hseqs
    constructor
    case dim_bound => exact hinv.dim_bound
    case count_bound => exact hinv.count_bound
    case recs_valid => exact hinv.recs_valid
    case recs_dim => exact hinv.recs_dim
    case seqs => exact hinv.seqs
    case counter =>
      show (buildFromWal (some (walBytes recs)) (some (dataBytes e.dimension recs))).2 + 1 = _
      rw [hbuild]
      simp
    case files =>
      right
      exact ⟨hrecs, rfl, rfl⟩
    case index_eq =>
      show (buildFromWal (some (walBytes recs)) (some (dataBytes e.dimension recs))).1 = _
      rw [hbuild]

/-! ## Characterizing lookups after replay -/

theorem keyIndexApply_nodup (m : List (List Nat × RecordLocation)) (k : List Nat)
    (loc : RecordLocation) (op : Nat) (hm : IdxNodup m) :
    IdxNodup (keyIndexApply m k loc op) := by
  unfold keyIndexApply
  by_cases h : op = opDelete
  · rw [if_pos h]
    exact idxDelete_nodup m k hm
  · rw [if_neg h]
    exact idxSet_nodup m k loc hm

theorem replayIndex_nodup (rs : List DataRecord) :
    ∀ pos m, IdxNodup m → IdxNodup (replayIndex rs pos m) := by
  induction rs with
  | nil => intro pos m hm; exact hm
  | cons r rs ih =>
    intro pos m hm
    exact ih _ _ (keyIndexApply_nodup m r.key _ r.opType hm)

theorem getLast?_cons_of_ne_nil {p : Nat × DataRecord} {l : List (Nat × DataRecord)}
    (h : l ≠ []) : (p :: l).getLast? = l.getLast? := by
  cases l with
  | nil => exact absurd rfl h
  | cons q qs => exact List.getLast?_cons_cons

theorem replay_lookup (k : List Nat) (rs : List DataRecord) :
    ∀ pos m, IdxNodup m →
      idxLookup (replayIndex rs pos m) k =
        match ((withOffsets pos rs).filter (fun pr => pr.2.key = k)).getLast? with
        | none => idxLookup m k
        | some pr => if pr.2.opType = opDelete then none
            else some ⟨pr.1, (serializeDataRecord pr.2).length, pr.2.sequenceNumber⟩ := by
  induction rs with
  | nil =>
    intro pos m hm
    simp [withOffsets, replayIndex]
  | cons r rs ih =>
    intro pos m hm
    have hm2 : IdxNodup (keyIndexApply m r.key
        ⟨pos, (serializeDataRecord r).length, r.sequenceNumber⟩ r.opType) :=
      keyIndexApply_nodup m r.key _ r.opType hm
    simp only [replayIndex, withOffsets, List.filter_cons]
    rw [ih (pos + (serializeDataRecord r).length) _ hm2]
    by_cases hk : r.key = k
    · simp only [hk, decide_eq_true_eq, if_pos rfl]
      rw [if_pos (by simp [hk])]
      cases hF : ((withOffsets (pos + (serializeDataRecord r).length) rs).filter
          (fun pr => pr.2.key = k)).getLast? with
      | none =>
        have hFnil := List.getLast?_eq_none_iff.mp hF
        rw [hFnil]
        simp only [List.getLast?_singleton]
        unfold keyIndexApply
        by_cases hop : r.opType = opDelete
        · rw [if_pos hop, idxLookup_delete_self m k hm, if_pos hop]
        · rw [if_neg hop, idxLookup_set_self, if_neg hop]
      | some pr =>
        have hFne : ((withOffsets (pos + (serializeDataRecord r).length) rs).filter
            (fun pr => pr.2.key = k)) ≠ [] := by
          intro hcon
          rw [hcon] at hF
          exact absurd hF (by simp)
        rw [getLast?_cons_of_ne_nil hFne, hF]
    · rw [if_neg (by simp [hk])]
      cases hF : ((withOffsets (pos + (serializeDataRecord r).length) rs).filter
          (fun pr => pr.2.key = k)).getLast? with
      | none =>
        unfold keyIndexApply
        by_cases hop : r.opType = opDelete
        · rw [if_pos hop]
          exact idxLookup_delete_other m r.key k (fun hh => hk hh.symm)
        · rw [if_neg hop]
          exact idxLookup_set_other m r.key k _ (fun hh => hk hh.symm)
      | some pr => rfl

theorem withOffsets_snd (rs : List DataRecord) :
    ∀ pos, (withOffsets pos rs).map Prod.snd = rs := by
  induction rs with
  | nil => intro pos; rfl
  | cons r rs ih =>
    intro pos
    simp [withOffsets, ih]

theorem filter_last_rel (rs : List DataRecord) (pos : Nat) (k : List Nat) :
    (((withOffsets pos rs).filter (fun pr => pr.2.key = k)).getLast?).map Prod.snd =
      lastRecFor rs k := by
  unfold lastRecFor
  rw [← List.getLast?_map]
  congr 1
  have h1 : rs.filter (fun r => r.key = k) =
      ((withOffsets pos rs).map Prod.snd).filter (fun r => r.key = k) := by
    rw [withOffsets_snd]
  rw [h1, List.filter_map]
  rfl

theorem withOffsets_mem (rs : List DataRecord) :
    ∀ pos p r, (p, r) ∈ withOffsets pos rs →
      ∃ pre suf, dataBytesAux rs = pre ++ (serializeDataRecord r ++ suf) ∧
        p = pos + pre.length ∧ r ∈ rs := by
  induction rs with
  | nil => simp [withOffsets]
  | cons q qs ih =>
    intro pos p r hmem
    simp only [withOffsets, List.mem_cons] at hmem
    rcases hmem with hmem | hmem
    · injection hmem with h1 h2
      subst h1
      subst h2
      exact ⟨[], dataBytesAux qs, by simp [dataBytesAux], by simp, by simp⟩
    · rcases ih _ _ _ hmem with ⟨pre, suf, haux, hp, hr⟩
      refine ⟨serializeDataRecord q ++ pre, suf, ?_, ?_, by simp [hr]⟩
      · simp [dataBytesAux, haux]
      · simp only [List.length_append]
        omega

theorem readChunk_full (file : List Nat) (off n : Nat)
    (h : n ≤ (file.drop off).length) :
    readChunk file off n = byteSlice file off n := by
  unfold readChunk
  have h1 : (byteSlice file off n).length = n := by
    unfold byteSlice
    simp only [List.length_take, List.length_drop]
    simp only [List.length_drop] at h
    omega
  rw [h1, Nat.sub_self]
  simp

/-- The liveness of a key as read from the last committed record. -/
def liveRec (recs : List DataRecord) (k : List Nat) : Bool :=
  match lastRecFor recs k with
  | some r => !(decide (r.opType = opDelete))
  | none => false

theorem hasKey_spec (e : Engine) (recs : List DataRecord) (hinv : EngineInv e recs)
    (k : List Nat) : hasKey e k = liveRec recs k := by
  unfold hasKey idxHas liveRec
  rw [hinv.index_eq, replay_lookup k recs headerSize [] (by simp [IdxNodup])]
  cases hF : ((withOffsets headerSize recs).filter (fun pr => pr.2.key = k)).getLast? with
  | none =>
    have hrel := filter_last_rel recs headerSize k
    rw [hF] at hrel
    have hlast : lastRecFor recs k = none := hrel.symm
    rw [hlast]
    rfl
  | some pr =>
    have hrel := filter_last_rel recs headerSize k
    rw [hF] at hrel
    have hlast : lastRecFor recs k = some pr.2 := hrel.symm
    rw [hlast]
    by_cases hop : pr.2.opType = opDelete
    · simp [hop]
    · simp [hop]

theorem readRecord_spec (e : Engine) (recs : List DataRecord) (hinv : EngineInv e recs)
    (k : List Nat) :
    readRecord e k = match lastRecFor recs k with
      | some r => if r.opType = opDelete then none else some r
      | none => none := by
  unfold readRecord
  rw [hinv.index_eq, replay_lookup k recs headerSize [] (by simp [IdxNodup])]
  cases hF : ((withOffsets headerSize recs).filter (fun pr => pr.2.key = k)).getLast? with
  | none =>
    have hrel := filter_last_rel recs headerSize k
    rw [hF] at hrel
    have hlast : lastRecFor recs k = none := hrel.symm
    rw [hlast]
    rfl
  | some pr =>
    have hrel := filter_last_rel recs headerSize k
    rw [hF] at hrel
    have hlast : lastRecFor recs k = some pr.2 := hrel.symm
    rw [hlast]
    by_cases hop : pr.2.opType = opDelete
    · simp [hop]
    · simp only [hop, if_false, if_neg hop]
      have hmem : (pr.1, pr.2) ∈ withOffsets headerSize recs := by
        have := List.mem_of_getLast?_eq_some hF
        have h2 := (List.mem_filter.mp this).1
        simpa using h2
      rcases withOffsets_mem recs headerSize pr.1 pr.2 hmem with ⟨pre, suf, haux, hp, hr⟩
      have hvr : ValidDataRecord pr.2 := hinv.recs_valid _ hr
      have hemb : pr.2.embedding.length = pr.2.dimension := hvr.2.2.2.2.2.2.2.2.1
      have hne : recs ≠ [] := by
        intro hcon
        subst hcon
        simp at hr
      rcases hinv.files with ⟨hrecs, _, _⟩ | ⟨_, hdf, _⟩
      · exact absurd hrecs hne
      · rw [hdf]
        simp only [Option.getD_some]
        have hdropP : (dataBytes e.dimension recs).drop pr.1 =
            serializeDataRecord pr.2 ++ suf := by
          unfold dataBytes
          rw [haux, hp]
          rw [show serializeHeader e.dimension ++ (pre ++ (serializeDataRecord pr.2 ++ suf)) =
            (serializeHeader e.dimension ++ pre) ++ (serializeDataRecord pr.2 ++ suf) by
              simp [List.append_assoc]]
          apply List.drop_left'
          simp only [List.length_append, serializeHeader_length, headerSize]
        have hlenOK : (serializeDataRecord pr.2).length ≤
            ((dataBytes e.dimension recs).drop pr.1).length := by
          rw [hdropP]
          simp
        rw [readChunk_full _ _ _ hlenOK]
        have hslice : byteSlice (dataBytes e.dimension recs) pr.1
            (serializeDataRecord pr.2).length = serializeDataRecord pr.2 := by
          unfold byteSlice
          rw [hdropP]
          exact List.take_left _ _
        rw [hslice]
        have hser := deserializeDataRecord_serialize pr.2 hvr []
        rw [List.append_nil] at hser
        rw [hser]

/-! ## Relating runs of operations to the committed records -/

theorem applyOp_dimension (e : Engine) (o : EngOp) :
    (applyOp e o).dimension = e.dimension := by
  cases o with
  | write k emb op ts =>
      show (match writeRecord e k emb op ts with
        | .ok e2 => e2 | .error _ => e).dimension = e.dimension
      unfold writeRecord
      by_cases h : emb.length ≠ e.dimension
      · rw [if_pos h]
      · rw [if_neg h]
        rfl
  | del k ts =>
      show (deleteRecord e k ts).2.dimension = e.dimension
      unfold deleteRecord
      by_cases h : idxHas e.index k = true
      · rw [if_pos h]
        rfl
      · rw [if_neg h]

theorem runOps_dimension (e : Engine) (ops : List EngOp) :
    (runOps e ops).dimension = e.dimension := by
  induction ops generalizing e with
  | nil => rfl
  | cons o ops ih =>
      show (runOps (applyOp e o) ops).dimension = e.dimension
      rw [ih, applyOp_dimension]

theorem touches_cons_false (o : EngOp) (ops : List EngOp) (k : List Nat)
    (h : touches (o :: ops) k = false) : opKey o ≠ k ∧ touches ops k = false := by
  simp only [touches, List.any_cons, Bool.or_eq_false_iff,
    decide_eq_false_iff_not] at h
  exact h

theorem touches_cons_cases (o : EngOp) (ops : List EngOp) (k : List Nat)
    (h : touches (o :: ops) k = true) : opKey o = k ∨ touches ops k = true := by
  simp only [touches, List.any_cons, Bool.or_eq_true, decide_eq_true_eq] at h
  exact h

theorem filter_eq_nil_of_not_touches (ops : List EngOp) (k : List Nat)
    (h : touches ops k = false) : ops.filter (fun o => opKey o = k) = [] := by
  rw [List.filter_eq_nil_iff]
  intro a ha
  simp only [decide_eq_true_eq]
  intro hak
  have hc : touches ops k = true := by
    simp only [touches, List.any_eq_true]
    exact ⟨a, ha, by simp [hak]⟩
  simp [h] at hc

theorem filter_ne_nil_of_touches (ops : List EngOp) (k : List Nat)
    (h : touches ops k = true) : ops.filter (fun o => opKey o = k) ≠ [] := by
  intro hnil
  simp only [touches, List.any_eq_true] at h
  obtain ⟨a, ha, hp⟩ := h
  exact (List.filter_eq_nil_iff.mp hnil a ha) hp

theorem getLast?_cons_ne {α : Type} (a : α) (l : List α) (h : l ≠ []) :
    (a :: l).getLast? = l.getLast? := by
  cases l with
  | nil => exact absurd rfl h
  | cons b t => exact List.getLast?_cons_cons

theorem lastOpOn_cons_touch (o : EngOp) (ops : List EngOp) (k : List Nat)
    (h : touches ops k = true) : lastOpOn (o :: ops) k = lastOpOn ops k := by
  unfold lastOpOn
  rw [List.filter_cons]
  by_cases hko : opKey o = k
  · rw [if_pos (by simp [hko])]
    exact getLast?_cons_ne _ _ (filter_ne_nil_of_touches ops k h)
  · rw [if_neg (by simp [hko])]

theorem lastOpOn_cons_self (o : EngOp) (ops : List EngOp) (k : List Nat)
    (h : touches ops k = false) (hk : opKey o = k) :
    lastOpOn (o :: ops) k = some o := by
  unfold lastOpOn
  rw [List.filter_cons, if_pos (by simp [hk]), filter_eq_nil_of_not_touches ops k h]
  rfl

theorem lastOpOn_cons_other (o : EngOp) (ops : List EngOp) (k : List Nat)
    (hk : opKey o ≠ k) : lastOpOn (o :: ops) k = lastOpOn ops k := by
  unfold lastOpOn
  rw [List.filter_cons, if_neg (by simp [hk])]

theorem lastOpOn_none_of_not_touches (ops : List EngOp) (k : List Nat)
    (h : touches ops k = false) : lastOpOn ops k = none := by
  unfold lastOpOn
  rw [filter_eq_nil_of_not_touches ops k h]
  rfl

/-- The embedding recorded by a single operation when it is a live write. -/
def liveO : EngOp → Option (List Nat)
  | .write _ emb op _ => if op = opDelete then none else some emb
  | .del _ _ => none

theorem liveEmb_single (ops : List EngOp) (k : List Nat) (o : EngOp)
    (h : lastOpOn ops k = some o) : liveEmb ops k = liveO o := by
  unfold liveEmb liveO
  rw [h]
  cases o <;> rfl

theorem liveEmb_none_of_lastOpOn_none (ops : List EngOp) (k : List Nat)
    (h : lastOpOn ops k = none) : liveEmb ops k = none := by
  unfold liveEmb
  rw [h]

theorem liveKey_eq_single (ops : List EngOp) (k : List Nat) (o : EngOp)
    (h : lastOpOn ops k = some o) : liveKey ops k = !(opIsDelete o) := by
  unfold liveKey
  rw [h]

theorem liveKey_liveEmb (ops : List EngOp) (k : List Nat)
    (h : liveKey ops k = true) : ∃ v, liveEmb ops k = some v := by
  unfold liveKey at h
  cases hlast : lastOpOn ops k with
  | none => rw [hlast] at h; cases h
  | some o =>
      rw [hlast] at h
      cases o with
      | write k2 emb op2 ts2 =>
          have hop : ¬op2 = opDelete := by simpa [opIsDelete] using h
          refine ⟨emb, ?_⟩
          rw [liveEmb_single ops k _ hlast]
          simp [liveO, hop]
      | del k2 ts2 => simp [opIsDelete] at h

theorem lastRecFor_append_self (recs : List DataRecord) (r : DataRecord)
    (k : List Nat) (h : r.key = k) : lastRecFor (recs ++ [r]) k = some r := by
  unfold lastRecFor
  rw [List.filter_append]
  have h1 : List.filter (fun r2 => decide (r2.key = k)) [r] = [r] := by simp [h]
  rw [h1, List.getLast?_concat]

theorem lastRecFor_append_other (recs : List DataRecord) (r : DataRecord)
    (k : List Nat) (h : r.key ≠ k) :
    lastRecFor (recs ++ [r]) k = lastRecFor recs k := by
  unfold lastRecFor
  rw [List.filter_append]
  have h1 : List.filter (fun r2 => decide (r2.key = k)) [r] = [] := by simp [h]
  rw [h1, List.append_nil]

theorem lastRecFor_key (recs : List DataRecord) (k : List Nat) (r : DataRecord)
    (h : lastRecFor recs k = some r) : r.key = k := by
  unfold lastRecFor at h
  have h1 := List.mem_of_getLast?_eq_some h
  have h2 := (List.mem_filter.mp h1).2
  simpa using h2

theorem lastRecFor_mem (recs : List DataRecord) (k : List Nat) (r : DataRecord)
    (h : lastRecFor recs k = some r) : r ∈ recs :=
  (List.mem_filter.mp (List.mem_of_getLast?_eq_some h)).1

theorem liveRec_false_cases (recs : List DataRecord) (k : List Nat)
    (h : liveRec recs k = false) :
    lastRecFor recs k = none ∨
      ∃ r, lastRecFor recs k = some r ∧ r.opType = opDelete := by
  unfold liveRec at h
  cases hl : lastRecFor recs k with
  | none => exact Or.inl rfl
  | some r =>
      rw [hl] at h
      exact Or.inr ⟨r, rfl, by simpa using h⟩

/-- Combining the per-key facts for the tail of a run with a committed
record for the head operation. -/
theorem ghost_step_commit (o : EngOp) (ops : List EngOp)
    (recs recs2 : List DataRecord) (newRec : DataRecord)
    (hkey : newRec.key = opKey o)
    (hlivefact : ∀ v, liveO o = some v →
        newRec.opType ≠ opDelete ∧ newRec.embedding = v)
    (hdeadfact : opIsDelete o = true → newRec.opType = opDelete)
    (hu2 : ∀ k, touches ops k = false →
        lastRecFor recs2 k = lastRecFor (recs ++ [newRec]) k)
    (hl2 : ∀ k v, liveEmb ops k = some v → ∃ r2, lastRecFor recs2 k = some r2 ∧
        r2.opType ≠ opDelete ∧ r2.embedding = v)
    (hd2 : ∀ k, touches ops k = true → liveKey ops k = false →
        lastRecFor recs2 k = none ∨
          ∃ r2, lastRecFor recs2 k = some r2 ∧ r2.opType = opDelete) :
    (∀ k, touches (o :: ops) k = false → lastRecFor recs2 k = lastRecFor recs k) ∧
    (∀ k v, liveEmb (o :: ops) k = some v → ∃ r2, lastRecFor recs2 k = some r2 ∧
        r2.opType ≠ opDelete ∧ r2.embedding = v) ∧
    (∀ k, touches (o :: ops) k = true → liveKey (o :: ops) k = false →
        lastRecFor recs2 k = none ∨
          ∃ r2, lastRecFor recs2 k = some r2 ∧ r2.opType = opDelete) := by
  refine ⟨?_, ?_, ?_⟩
  · intro k h
    obtain ⟨hko, ht⟩ := touches_cons_false o ops k h
    rw [hu2 k ht, lastRecFor_append_other recs newRec k (by rw [hkey]; exact hko)]
  · intro k v h
    by_cases ht : touches ops k = true
    · apply hl2 k v
      rwa [show liveEmb (o :: ops) k = liveEmb ops k from by
        unfold liveEmb; rw [lastOpOn_cons_touch o ops k ht]] at h
    · have ht' : touches ops k = false := by
        revert ht; cases touches ops k <;> simp
      by_cases hko : opKey o = k
      · have hlast : lastOpOn (o :: ops) k = some o :=
          lastOpOn_cons_self o ops k ht' hko
        rw [liveEmb_single (o :: ops) k o hlast] at h
        obtain ⟨hne, hemb⟩ := hlivefact v h
        refine ⟨newRec, ?_, hne, hemb⟩
        rw [hu2 k ht', lastRecFor_append_self recs newRec k (by rw [hkey, hko])]
      · exfalso
        have hnone : lastOpOn (o :: ops) k = none := by
          rw [lastOpOn_cons_other o ops k hko]
          exact lastOpOn_none_of_not_touches ops k ht'
        rw [liveEmb_none_of_lastOpOn_none (o :: ops) k hnone] at h
        cases h
  · intro k ht hlk
    by_cases ht2 : touches ops k = true
    · apply hd2 k ht2
      rwa [show liveKey (o :: ops) k = liveKey ops k from by
        unfold liveKey; rw [lastOpOn_cons_touch o ops k ht2]] at hlk
    · have ht2' : touches ops k = false := by
        revert ht2; cases touches ops k <;> simp
      by_cases hko : opKey o = k
      · have hlast : lastOpOn (o :: ops) k = some o :=
          lastOpOn_cons_self o ops k ht2' hko
        have hdel : opIsDelete o = true := by
          have h2 := liveKey_eq_single (o :: ops) k o hlast
          rw [hlk] at h2
          revert h2; cases opIsDelete o <;> simp
        right
        refine ⟨newRec, ?_, hdeadfact hdel⟩
        rw [hu2 k ht2', lastRecFor_append_self recs newRec k (by rw [hkey, hko])]
      · exfalso
        rcases touches_cons_cases o ops k ht with h1 | h2
        · exact hko h1
        · exact absurd h2 (by simp [ht2'])

/-- Combining the per-key facts for the tail of a run when the head
operation was a no-op delete on a key that is already dead. -/
theorem ghost_step_noop (o : EngOp) (ops : List EngOp)
    (recs recs2 : List DataRecord)
    (hliveO : liveO o = none)
    (hdel : opIsDelete o = true)
    (hdead0 : lastRecFor recs (opKey o) = none ∨
        ∃ r, lastRecFor recs (opKey o) = some r ∧ r.opType = opDelete)
    (hu2 : ∀ k, touches ops k = false → lastRecFor recs2 k = lastRecFor recs k)
    (hl2 : ∀ k v, liveEmb ops k = some v → ∃ r2, lastRecFor recs2 k = some r2 ∧
        r2.opType ≠ opDelete ∧ r2.embedding = v)
    (hd2 : ∀ k, touches ops k = true → liveKey ops k = false →
        lastRecFor recs2 k = none ∨
          ∃ r2, lastRecFor recs2 k = some r2 ∧ r2.opType = opDelete) :
    (∀ k, touches (o :: ops) k = false → lastRecFor recs2 k = lastRecFor recs k) ∧
    (∀ k v, liveEmb (o :: ops) k = some v → ∃ r2, lastRecFor recs2 k = some r2 ∧
        r2.opType ≠ opDelete ∧ r2.embedding = v) ∧
    (∀ k, touches (o :: ops) k = true → liveKey (o :: ops) k = false →
        lastRecFor recs2 k = none ∨
          ∃ r2, lastRecFor recs2 k = some r2 ∧ r2.opType = opDelete) := by
  refine ⟨?_, ?_, ?_⟩
  · intro k h
    obtain ⟨hko, ht⟩ := touches_cons_false o ops k h
    exact hu2 k ht
  · intro k v h
    by_cases ht : touches ops k = true
    · apply hl2 k v
      rwa [show liveEmb (o :: ops) k = liveEmb ops k from by
        unfold liveEmb; rw [lastOpOn_cons_touch o ops k ht]] at h
    · have ht' : touches ops k = false := by
        revert ht; cases touches ops k <;> simp
      by_cases hko : opKey o = k
      · have hlast : lastOpOn (o :: ops) k = some o :=
          lastOpOn_cons_self o ops k ht' hko
        rw [liveEmb_single (o :: ops) k o hlast, hliveO] at h
        cases h
      · have hnone : lastOpOn (o :: ops) k = none := by
          rw [lastOpOn_cons_other o ops k hko]
          exact lastOpOn_none_of_not_touches ops k ht'
        rw [liveEmb_none_of_lastOpOn_none (o :: ops) k hnone] at h
        cases h
  · intro k ht hlk
    by_cases ht2 : touches ops k = true
    · apply hd2 k ht2
      rwa [show liveKey (o :: ops) k = liveKey ops k from by
        unfold liveKey; rw [lastOpOn_cons_touch o ops k ht2]] at hlk
    · have ht2' : touches ops k = false := by
        revert ht2; cases touches ops k <;> simp
      by_cases hko : opKey o = k
      · subst hko
        rw [hu2 _ ht2']
        exact hdead0
      · exfalso
        rcases touches_cons_cases o ops k ht with h1 | h2
        · exact hko h1
        · exact absurd h2 (by simp [ht2'])

/-- The grand run lemma: starting from an invariant state, a run of
well-formed operations reaches an invariant state whose committed records
realise the logical view of the operation sequence key by key. -/
theorem runOps_ghost (ops : List EngOp) : ∀ (e : Engine) (recs : List DataRecord),
    EngineInv e recs → (∀ o ∈ ops, WFOp e.dimension o) →
    recs.length + ops.length ≤ 2 ^ 32 →
    ∃ recs2 : List DataRecord,
      EngineInv (runOps e ops) recs2 ∧
      recs2.length ≤ recs.length + ops.length ∧
      (∀ r ∈ recs2, r ∈ recs ∨ ∃ o ∈ ops, opKey o = r.key) ∧
      (∀ k, touches ops k = false → lastRecFor recs2 k = lastRecFor recs k) ∧
      (∀ k v, liveEmb ops k = some v → ∃ r2, lastRecFor recs2 k = some r2 ∧
          r2.opType ≠ opDelete ∧ r2.embedding = v) ∧
      (∀ k, touches ops k = true → liveKey ops k = false →
          lastRecFor recs2 k = none ∨
            ∃ r2, lastRecFor recs2 k = some r2 ∧ r2.opType = opDelete) := by
  induction ops with
  | nil =>
      intro e recs hinv hwf hb
      refine ⟨recs, hinv, by simp, fun r hr => Or.inl hr, fun k _ => rfl, ?_, ?_⟩
      · intro k v h
        rw [liveEmb_none_of_lastOpOn_none [] k rfl] at h
        cases h
      · intro k h
        simp [touches] at h
  | cons o ops ih =>
      intro e recs hinv hwf hb
      have hwfo : WFOp e.dimension o := hwf o (List.mem_cons_self o ops)
      have hwf2 : ∀ o2 ∈ ops, WFOp (applyOp e o).dimension o2 := by
        rw [applyOp_dimension]
        exact fun o2 h2 => hwf o2 (List.mem_cons_of_mem o h2)
      have hb1 : recs.length + 1 ≤ 2 ^ 32 := by
        simp only [List.length_cons] at hb
        omega
      cases o with
      | write k0 emb op0 ts =>
          obtain ⟨hk, hklt, hembd, hww, hop, hts1, hts2⟩ := hwfo
          have happ : applyOp e (.write k0 emb op0 ts) =
              writeRecordCore e k0 emb op0 ts := by
            show (match writeRecord e k0 emb op0 ts with
              | .ok e2 => e2 | .error _ => e) = writeRecordCore e k0 emb op0 ts
            unfold writeRecord
            rw [if_neg (not_ne_iff.mpr hembd)]
          have hinv1 := writeRecordCore_inv hinv k0 emb op0 ts hk hklt hembd hww
            hop hts1 hts2 hb1
          rw [← happ] at hinv1
          obtain ⟨recs2, hinv2, hlen2, horig2, hu2, hl2, hd2⟩ :=
            ih (applyOp e (.write k0 emb op0 ts))
              (recs ++ [⟨op0, e.sequenceCounter, ts, k0, e.dimension, emb⟩]) hinv1 hwf2
              (by
                simp only [List.length_append, List.length_cons,
                  List.length_singleton, List.length_nil] at hb ⊢
                omega)
          obtain ⟨hu3, hl3, hd3⟩ := ghost_step_commit (.write k0 emb op0 ts) ops
            recs recs2 ⟨op0, e.sequenceCounter, ts, k0, e.dimension, emb⟩ rfl
            (by
              intro v hv
              by_cases hdel : op0 = opDelete
              · rw [show liveO (.write k0 emb op0 ts) =
                  (if op0 = opDelete then none else some emb) from rfl,
                  if_pos hdel] at hv
                cases hv
              · rw [show liveO (.write k0 emb op0 ts) =
                  (if op0 = opDelete then none else some emb) from rfl,
                  if_neg hdel] at hv
                exact ⟨hdel, (Option.some.inj hv)⟩)
            (by
              intro hdel
              simpa [opIsDelete] using hdel)
            hu2 hl2 hd2
          refine ⟨recs2, hinv2, ?_, ?_, hu3, hl3, hd3⟩
          · simp only [List.length_append, List.length_cons,
              List.length_singleton, List.length_nil] at hlen2 ⊢
            omega
          · intro r hr
            rcases horig2 r hr with h | ⟨o2, ho2, hko2⟩
            · rcases List.mem_append.mp h with h | h
              · exact Or.inl h
              · right
                refine ⟨.write k0 emb op0 ts, List.mem_cons_self _ _, ?_⟩
                simp only [List.mem_singleton] at h
                rw [h]
                rfl
            · exact Or.inr ⟨o2, List.mem_cons_of_mem _ ho2, hko2⟩
      | del k0 ts =>
          obtain ⟨hk, hklt, hts1, hts2⟩ := hwfo
          by_cases hhas : idxHas e.index k0 = true
          · have happ : applyOp e (.del k0 ts) =
                writeRecordCore e k0 (List.replicate e.dimension 0) opDelete ts := by
              show (deleteRecord e k0 ts).2 = _
              unfold deleteRecord
              rw [if_pos hhas]
            have hinv1 := writeRecordCore_inv hinv k0 (List.replicate e.dimension 0)
              opDelete ts hk hklt (by simp)
              (by
                intro w hw
                rw [List.eq_of_mem_replicate hw]
                norm_num)
              (by norm_num [opDelete]) hts1 hts2 hb1
            rw [← happ] at hinv1
            obtain ⟨recs2, hinv2, hlen2, horig2, hu2, hl2, hd2⟩ :=
              ih (applyOp e (.del k0 ts))
                (recs ++ [⟨opDelete, e.sequenceCounter, ts, k0, e.dimension,
                  List.replicate e.dimension 0⟩]) hinv1 hwf2
                (by
                  simp only [List.length_append, List.length_cons,
                    List.length_singleton, List.length_nil] at hb ⊢
                  omega)
            obtain ⟨hu3, hl3, hd3⟩ := ghost_step_commit (.del k0 ts) ops
              recs recs2 ⟨opDelete, e.sequenceCounter, ts, k0, e.dimension,
                List.replicate e.dimension 0⟩ rfl
              (by intro v hv; cases hv)
              (by intro _; rfl)
              hu2 hl2 hd2
            refine ⟨recs2, hinv2, ?_, ?_, hu3, hl3, hd3⟩
            · simp only [List.length_append, List.length_cons,
                List.length_singleton, List.length_nil] at hlen2 ⊢
              omega
            · intro r hr
              rcases horig2 r hr with h | ⟨o2, ho2, hko2⟩
              · rcases List.mem_append.mp h with h | h
                · exact Or.inl h
                · right
                  refine ⟨.del k0 ts, List.mem_cons_self _ _, ?_⟩
                  simp only [List.mem_singleton] at h
                  rw [h]
                  rfl
              · exact Or.inr ⟨o2, List.mem_cons_of_mem _ ho2, hko2⟩
          · have happ : applyOp e (.del k0 ts) = e := by
              show (deleteRecord e k0 ts).2 = e
              unfold deleteRecord
              rw [if_neg hhas]
            obtain ⟨recs2, hinv2, hlen2, horig2, hu2, hl2, hd2⟩ :=
              ih (applyOp e (.del k0 ts)) recs (by rw [happ]; exact hinv) hwf2
                (by
                  simp only [List.length_cons] at hb
                  omega)
            have hdead0 : lastRecFor recs k0 = none ∨
                ∃ r, lastRecFor recs k0 = some r ∧ r.opType = opDelete := by
              apply liveRec_false_cases
              have hhk := hasKey_spec e recs hinv k0
              rw [← hhk]
              show idxHas e.index k0 = false
              revert hhas
              cases idxHas e.index k0 <;> simp
            obtain ⟨hu3, hl3, hd3⟩ := ghost_step_noop (.del k0 ts) ops
              recs recs2 rfl rfl hdead0 hu2 hl2 hd2
            refine ⟨recs2, hinv2, ?_, ?_, hu3, hl3, hd3⟩
            · simp only [List.length_cons]
              omega
            · intro r hr
              rcases horig2 r hr with h | ⟨o2, ho2, hko2⟩
              · exact Or.inl h
              · exact Or.inr ⟨o2, List.mem_cons_of_mem _ ho2, hko2⟩

theorem liveKey_mem_keys (ops : List EngOp) (k : List Nat)
    (h : liveKey ops k = true) : k ∈ ops.map opKey := by
  unfold liveKey at h
  cases hlast : lastOpOn ops k with
  | none => rw [hlast] at h; cases h
  | some o =>
      unfold lastOpOn at hlast
      have hmem := List.mem_of_getLast?_eq_some hlast
      obtain ⟨ho, hp⟩ := List.mem_filter.mp hmem
      exact List.mem_map.mpr ⟨o, ho, by simpa using hp⟩

/-- `liveRec` over the committed records of a run from an empty store
agrees with `liveKey` over the operations. -/
theorem ghost_liveRec (ops : List EngOp) (recs2 : List DataRecord)
    (hu : ∀ k, touches ops k = false → lastRecFor recs2 k = lastRecFor [] k)
    (hl : ∀ k v, liveEmb ops k = some v → ∃ r2, lastRecFor recs2 k = some r2 ∧
        r2.opType ≠ opDelete ∧ r2.embedding = v)
    (hd : ∀ k, touches ops k = true → liveKey ops k = false →
        lastRecFor recs2 k = none ∨
          ∃ r2, lastRecFor recs2 k = some r2 ∧ r2.opType = opDelete)
    (k : List Nat) : liveRec recs2 k = liveKey ops k := by
  by_cases hlk : liveKey ops k = true
  · obtain ⟨v, hv⟩ := liveKey_liveEmb ops k hlk
    obtain ⟨r2, hr2, hne, _⟩ := hl k v hv
    rw [hlk]
    unfold liveRec
    rw [hr2]
    simp [hne]
  · have hlk2 : liveKey ops k = false := by
      revert hlk; cases liveKey ops k <;> simp
    rw [hlk2]
    by_cases ht : touches ops k = true
    · rcases hd k ht hlk2 with h | ⟨r2, hr2, hop⟩
      · unfold liveRec; rw [h]
      · unfold liveRec; rw [hr2]; simp [hop]
    · have ht2 : touches ops k = false := by
        revert ht; cases touches ops k <;> simp
      unfold liveRec
      rw [hu k ht2]
      rfl

/-- Number of distinct keys whose last operation was not a delete. -/
def liveKeyCount (ops : List EngOp) : Nat :=
  (((ops.map opKey).dedup).filter (fun k => liveKey ops k)).length

theorem engineCount_eq_liveKeyCount (ops : List EngOp) (e : Engine)
    (recs : List DataRecord) (hinv : EngineInv e recs)
    (hLR : ∀ k, liveRec recs k = liveKey ops k) :
    engineCount e = liveKeyCount ops := by
  have hnd1 : (e.index.map Prod.fst).Nodup := by
    rw [hinv.index_eq]
    exact replayIndex_nodup recs headerSize [] (by simp [IdxNodup])
  have hnd2 : (((ops.map opKey).dedup).filter (fun k => liveKey ops k)).Nodup :=
    (List.nodup_dedup _).filter _
  have hmem : ∀ k, k ∈ e.index.map Prod.fst ↔
      k ∈ ((ops.map opKey).dedup).filter (fun k => liveKey ops k) := by
    intro k
    constructor
    · intro h
      have hh : idxHas e.index k = true := by
        unfold idxHas
        exact (idxLookup_isSome_iff e.index k).mpr h
      have hlive : liveKey ops k = true := by
        rw [← hLR k, ← hasKey_spec e recs hinv k]
        exact hh
      exact List.mem_filter.mpr
        ⟨List.mem_dedup.mpr (liveKey_mem_keys ops k hlive), by simp [hlive]⟩
    · intro h
      have hlive : liveKey ops k = true := by
        have h2 := (List.mem_filter.mp h).2
        simpa using h2
      have hh : hasKey e k = true := by
        rw [hasKey_spec e recs hinv k, hLR k]
        exact hlive
      exact (idxLookup_isSome_iff e.index k).mp hh
  have hperm := (List.perm_ext_iff_of_nodup hnd1 hnd2).mpr hmem
  have hlen := hperm.length_eq
  show idxCount e.index = liveKeyCount ops
  unfold idxCount liveKeyCount
  rw [show e.index.length = (e.index.map Prod.fst).length from
    (List.length_map _ _).symm]
  exact hlen

/-- A full single-session run from a fresh engine, packaged. -/
theorem fresh_run_ghost (D : Nat) (hD : D ≤ 2 ^ 16) (ops : List EngOp)
    (hwf : ∀ o ∈ ops, WFOp D o) (hb : ops.length ≤ 2 ^ 32) :
    ∃ recs2 : List DataRecord,
      EngineInv (runOps (createEngine D none none) ops) recs2 ∧
      recs2.length ≤ ops.length ∧
      (∀ r ∈ recs2, ∃ o ∈ ops, opKey o = r.key) ∧
      (∀ k, liveRec recs2 k = liveKey ops k) ∧
      (∀ k v, liveEmb ops k = some v → ∃ r2, lastRecFor recs2 k = some r2 ∧
          r2.opType ≠ opDelete ∧ r2.embedding = v) := by
  obtain ⟨recs2, hinv2, hlen, horig, hu, hl, hd⟩ :=
    runOps_ghost ops (createEngine D none none) [] (fresh_inv D hD) hwf
      (by simpa using hb)
  refine ⟨recs2, hinv2, by simpa using hlen, ?_, ?_, hl⟩
  · intro r hr
    rcases horig r hr with h | h
    · cases h
    · exact h
  · exact ghost_liveRec ops recs2 hu hl hd

/-! ## Lifetime of a database across close/reopen cycles -/

/-- Closing and reopening the engine on the same files
(`StorageEngine.create` on the paths of `e`). -/
def reopenEngine (e : Engine) : Engine :=
  createEngine e.dimension e.dataFile e.walFile

/-- A database lifetime: a fresh create, then sessions of operations,
each session preceded by a close/reopen. -/
def runLifetime (D : Nat) (sessions : List (List EngOp)) : Engine :=
  sessions.foldl (fun e ops => runOps (reopenEngine e) ops) (createEngine D none none)

theorem inv_walEntries_valid (e : Engine) (recs : List DataRecord)
    (hinv : EngineInv e recs) : ∀ en ∈ walEntries recs, ValidWalEntry en := by
  have hsz : ∀ r ∈ recs, (serializeDataRecord r).length ≤ 2 ^ 19 := fun r hr =>
    recordSize_bound (hinv.recs_valid r hr)
      (by rw [hinv.recs_dim r hr]; exact hinv.dim_bound)
  have hauxlen : (dataBytesAux recs).length ≤ 2 ^ 51 := by
    have h1 := dataBytesAux_length_bound recs e.dimension hinv.recs_valid
      hinv.recs_dim hinv.dim_bound
    have h2 := hinv.count_bound
    have h3 : recs.length * 2 ^ 19 ≤ 2 ^ 32 * 2 ^ 19 :=
      Nat.mul_le_mul_right _ h2
    have h4 : (2 : Nat) ^ 32 * 2 ^ 19 = 2 ^ 51 := by norm_num
    omega
  apply walEntriesAux_valid recs headerSize ?_ hinv.recs_valid hsz
  unfold headerSize
  omega

/-- Recovering the WAL of an invariant state yields exactly the entries
of the committed records. -/
theorem inv_walRecover (e : Engine) (recs : List DataRecord)
    (hinv : EngineInv e recs) : walRecoverFile e.walFile = walEntries recs := by
  rcases hinv.files with ⟨hrecs, hdf, hwf⟩ | ⟨hrecs, hdf, hwf⟩
  · subst hrecs
    rw [hwf]
    rfl
  · rw [hwf]
    exact walRecoverFile_walBytes recs (inv_walEntries_valid e recs hinv)

theorem recoverableKeyOp_len (o : EngOp) (h : RecoverableKeyOp o) :
    1 ≤ (opKey o).length ∧ (opKey o).length ≤ 998 := by
  cases o <;> exact h

theorem walEntriesAux_seqMap (rs : List DataRecord) : ∀ pos,
    (walEntriesAux pos rs).map WalEntry.sequenceNumber =
      rs.map DataRecord.sequenceNumber := by
  induction rs with
  | nil => intro pos; rfl
  | cons r rs ih =>
      intro pos
      simp only [walEntriesAux, List.map_cons]
      rw [ih]

theorem foldl_max_seqs (rs : List DataRecord) : ∀ init : Int,
    (∀ i (h : i < rs.length), (rs.get ⟨i, h⟩).sequenceNumber = init + i + 1) →
    rs.foldl (fun m r => max m r.sequenceNumber) init = init + rs.length := by
  induction rs with
  | nil => intro init _; simp
  | cons r rs ih =>
      intro init hseq
      have h0 : r.sequenceNumber = init + 1 := by
        have := hseq 0 (by simp)
        simpa using this
      show List.foldl _ (max init r.sequenceNumber) rs = _
      rw [h0, max_eq_right (by omega : init ≤ init + 1)]
      have htail : ∀ i (h : i < rs.length),
          (rs.get ⟨i, h⟩).sequenceNumber = (init + 1) + i + 1 := by
        intro i h
        have := hseq (i + 1) (by simp; omega)
        rw [show ((r :: rs).get ⟨i + 1, by simp; omega⟩) = rs.get ⟨i, h⟩ from rfl] at this
        rw [this]
        push_cast
        ring
      rw [ih (init + 1) htail]
      simp only [List.length_cons]
      push_cast
      ring

/-- Reading the key from a 1024-byte recovery chunk FAILS whenever the
26-byte record header plus the key exceed the chunk (key of 999 bytes or
more): the length guard `data.length - startOffset < 26 + keyLen` fires. -/
theorem readKeyFromBuffer_chunk_long (file : List Nat) (off : Nat) (r : DataRecord)
    (suf : List Nat) (hfile : file.drop off = serializeDataRecord r ++ suf)
    (hemb : r.embedding.length = r.dimension)
    (hkl : r.key.length < 2 ^ 16) (hlong : 999 ≤ r.key.length) :
    readKeyFromBuffer (readChunk file off 1024) 0 = none := by
  have hXlen : (file.drop off).length = 38 + r.key.length + r.dimension * 4 +
      suf.length := by
    rw [hfile]
    simp [serializeDataRecord_length r hemb, calculateRecordSize]
    ring
  have hCk : (readChunk file off 1024).length = 1024 := readChunk_length file off 1024
  have r0 : readLE (readChunk file off 1024) 0 4 = recordMagic := by
    unfold readLE
    rw [byteSlice_readChunk _ _ _ _ _ (by omega) (by omega), hfile]
    exact ser_read_magic r suf
  have r24 : readLE (readChunk file off 1024) 24 2 = r.key.length := by
    unfold readLE
    rw [byteSlice_readChunk _ _ _ _ _ (by omega) (by omega), hfile]
    have := ser_read_keyLenField r suf
    unfold readLE at this
    rw [this]
    omega
  unfold readKeyFromBuffer
  simp only [Nat.zero_add, Nat.sub_zero]
  rw [if_neg (by rw [hCk]; omega)]
  rw [if_neg (by rw [r0]; exact fun h => h rfl)]
  rw [r24]
  rw [if_pos (by rw [hCk]; omega)]

/-- Crash-recovery correctness for recoverable keys: after running any
well-formed session (keys of 1 to 998 UTF-8 bytes) from a fresh engine
and reopening, key presence matches the logical view, and every live key
reads back the embedding of its last write. -/
theorem recover_spec (D : Nat) (hD : D ≤ 2 ^ 16) (ops : List EngOp)
    (hwf : ∀ o ∈ ops, WFOp D o) (hshort : ∀ o ∈ ops, RecoverableKeyOp o)
    (hb : ops.length ≤ 2 ^ 32) :
    (∀ k, hasKey (reopenEngine (runOps (createEngine D none none) ops)) k =
        liveKey ops k) ∧
    (∀ k v, liveEmb ops k = some v →
        ∃ r, readRecord (reopenEngine (runOps (createEngine D none none) ops)) k =
            some r ∧ r.embedding = v ∧ r.key = k) := by
  obtain ⟨recs2, hinv2, hlen, horig, hLR, hl⟩ := fresh_run_ghost D hD ops hwf hb
  have hkeys : ∀ r ∈ recs2, 1 ≤ r.key.length ∧ r.key.length ≤ 998 := by
    intro r hr
    obtain ⟨o, ho, hko⟩ := horig r hr
    rw [← hko]
    exact recoverableKeyOp_len o (hshort o ho)
  have hro : EngineInv (reopenEngine (runOps (createEngine D none none) ops)) recs2 :=
    reopen_inv _ recs2 hinv2 hkeys
  constructor
  · intro k
    rw [hasKey_spec _ recs2 hro k]
    exact hLR k
  · intro k v hv
    obtain ⟨r2, hr2, hne, hemb⟩ := hl k v hv
    refine ⟨r2, ?_, hemb, lastRecFor_key recs2 k r2 hr2⟩
    rw [readRecord_spec _ recs2 hro k, hr2]
    simp [hne]

/-- A 999-byte key: one byte too long for the 1024-byte recovery chunk. -/
def bigKey : List Nat := List.replicate 999 97

/-- One acknowledged insert of `bigKey` on a dimension-1 engine. -/
def bigOps : List EngOp := [.write bigKey [0] 0 0]

theorem walEntries_singleton (r : DataRecord) :
    walEntries [r] = [⟨r.opType, r.sequenceNumber, headerSize,
      (serializeDataRecord r).length, hashKey r.key⟩] := rfl

theorem dataBytes_singleton_drop (D : Nat) (r : DataRecord) :
    (dataBytes D [r]).drop headerSize = serializeDataRecord r ++ [] := by
  unfold dataBytes
  rw [show dataBytesAux [r] = serializeDataRecord r ++ [] from rfl]
  exact List.drop_left' (by rw [serializeHeader_length]; rfl)

/-- If the recovered WAL has a single entry whose key cannot be read from
the data file, `buildFromWal` skips it and leaves the index empty. -/
theorem buildFromWal_single_skip (wal file : List Nat) (en : WalEntry)
    (hrec : walRecoverFile (some wal) = [en])
    (hkey : readKeyFromBuffer (readChunk file en.offset 1024) 0 = none) :
    (buildFromWal (some wal) (some file)).1 = [] := by
  show ((walRecoverFile (some wal)).foldl _ ([], 0)).1 = []
  rw [hrec]
  simp only [List.foldl_cons, List.foldl_nil]
  rw [hkey]

/-- C1 helper: if the recovered WAL has a single entry whose key reads
back as the EMPTY string, the `if (key)` truthiness guard skips it and
the index stays empty. -/
theorem buildFromWal_single_skip_emptyKey (wal file : List Nat) (en : WalEntry)
    (hrec : walRecoverFile (some wal) = [en])
    (hkey : readKeyFromBuffer (readChunk file en.offset 1024) 0 = some []) :
    (buildFromWal (some wal) (some file)).1 = [] := by
  show ((walRecoverFile (some wal)).foldl _ ([], 0)).1 = []
  rw [hrec]
  simp only [List.foldl_cons, List.foldl_nil]
  rw [hkey]
  rfl

theorem reopen_hasKey_of_empty (e1 : Engine) (k : List Nat)
    (h : (buildFromWal e1.walFile e1.dataFile).1 = []) :
    hasKey (reopenEngine e1) k = false := by
  show idxHas (buildFromWal e1.walFile e1.dataFile).1 k = false
  rw [h]
  rfl

/-- Running `bigOps` on a fresh dimension-1 engine and reopening loses the
key: the write was acknowledged and committed (its last operation is an
insert), yet the reopened engine does not have it, because recovery cannot
read a 999-byte key back out of its 1024-byte chunk. -/
theorem bigKey_lost :
    liveKey bigOps bigKey = true ∧
    hasKey (reopenEngine (runOps (createEngine 1 none none) bigOps)) bigKey
      = false := by
  constructor
  · have hlast : lastOpOn bigOps bigKey = some (.write bigKey [0] 0 0) :=
      lastOpOn_cons_self _ [] bigKey rfl rfl
    rw [liveKey_eq_single bigOps bigKey _ hlast]
    rfl
  · have hinv0 : EngineInv (createEngine 1 none none) [] :=
      fresh_inv 1 (by norm_num)
    have hinv1 := writeRecordCore_inv hinv0 bigKey [0] 0 0
      (by intro b hb; rw [List.eq_of_mem_replicate hb]; norm_num)
      (by norm_num [bigKey]) rfl
      (by intro w hw; simp only [List.mem_singleton] at hw; rw [hw]; norm_num)
      (by norm_num) (by norm_num) (by norm_num) (by norm_num)
    have happ : runOps (createEngine 1 none none) bigOps =
        writeRecordCore (createEngine 1 none none) bigKey [0] 0 0 := rfl
    rw [happ]
    set e0 : Engine := createEngine 1 none none with he0
    set r : DataRecord :=
      ⟨0, e0.sequenceCounter, 0, bigKey, e0.dimension, [0]⟩ with hrdef
    set e1 : Engine := writeRecordCore e0 bigKey [0] 0 0 with he1
    have hinv1r : EngineInv e1 ([] ++ [r]) := hinv1
    rcases hinv1r.files with ⟨h0, _, _⟩ | ⟨_, hdf, hwf⟩
    · simp at h0
    · apply reopen_hasKey_of_empty
      rw [hdf, hwf, List.nil_append]
      apply buildFromWal_single_skip _ _
        ⟨r.opType, r.sequenceNumber, headerSize,
          (serializeDataRecord r).length, hashKey r.key⟩
      · rw [show walBytes [r] = walBytes ([] ++ [r]) from by rw [List.nil_append],
          walRecoverFile_walBytes _ (inv_walEntries_valid e1 _ hinv1r),
          List.nil_append]
        exact walEntries_singleton r
      · apply readKeyFromBuffer_chunk_long _ _ r []
        · exact dataBytes_singleton_drop e1.dimension r
        · rfl
        · show bigKey.length < 2 ^ 16
          rw [show bigKey = List.replicate 999 97 from rfl, List.length_replicate]
          norm_num
        · show 999 ≤ bigKey.length
          rw [show bigKey = List.replicate 999 97 from rfl, List.length_replicate]

/-- One acknowledged insert of the empty key on a dimension-1 engine. -/
def emptyKeyOps : List EngOp := [.write [] [0] 0 0]

/-- Running `emptyKeyOps` on a fresh dimension-1 engine and reopening
loses the key: the write was acknowledged and committed, the record's key
reads back fine from the data file, but the `if (key)` truthiness guard
in `KeyIndex.buildFromWal` treats the empty string as falsy and skips the
entry. -/
theorem emptyKey_lost :
    liveKey emptyKeyOps [] = true ∧
    hasKey (reopenEngine (runOps (createEngine 1 none none) emptyKeyOps)) []
      = false := by
  constructor
  · have hlast : lastOpOn emptyKeyOps [] = some (.write [] [0] 0 0) :=
      lastOpOn_cons_self _ [] [] rfl rfl
    rw [liveKey_eq_single emptyKeyOps [] _ hlast]
    rfl
  · have hinv0 : EngineInv (createEngine 1 none none) [] :=
      fresh_inv 1 (by norm_num)
    have hinv1 := writeRecordCore_inv hinv0 [] [0] 0 0
      (by simp) (by norm_num) rfl
      (by intro w hw; simp only [List.mem_singleton] at hw; rw [hw]; norm_num)
      (by norm_num) (by norm_num) (by norm_num) (by norm_num)
    have happ : runOps (createEngine 1 none none) emptyKeyOps =
        writeRecordCore (createEngine 1 none none) [] [0] 0 0 := rfl
    rw [happ]
    set e0 : Engine := createEngine 1 none none with he0
    set r : DataRecord :=
      ⟨0, e0.sequenceCounter, 0, [], e0.dimension, [0]⟩ with hrdef
    set e1 : Engine := writeRecordCore e0 [] [0] 0 0 with he1
    have hinv1r : EngineInv e1 ([] ++ [r]) := hinv1
    rcases hinv1r.files with ⟨h0, _, _⟩ | ⟨_, hdf, hwf⟩
    · simp at h0
    · apply reopen_hasKey_of_empty
      rw [hdf, hwf, List.nil_append]
      apply buildFromWal_single_skip_emptyKey _ _
        ⟨r.opType, r.sequenceNumber, headerSize,
          (serializeDataRecord r).length, hashKey r.key⟩
      · rw [show walBytes [r] = walBytes ([] ++ [r]) from by rw [List.nil_append],
          walRecoverFile_walBytes _ (inv_walEntries_valid e1 _ hinv1r),
          List.nil_append]
        exact walEntries_singleton r
      · have hres := readKeyFromBuffer_chunk (dataBytes e1.dimension [r])
          headerSize r [] (dataBytes_singleton_drop e1.dimension r) rfl
          (by show ([] : List Nat).length ≤ 998; norm_num)
        exact hres

/-! ## Read-only mode (`StorageEngine` variant with `readOnly`) -/

/-- Engine wrapper tracking the `readOnly` flag and the number of
file-lock acquisitions (a lock is taken per write operation only). -/
structure EngineRO where
  eng : Engine
  readOnly : Bool
  locksAcquired : Nat
deriving DecidableEq

inductive ROErr where
  | noDatabase
  | readOnlyError
  | dimensionMismatch
deriving DecidableEq

/-- Translated from `StorageEngine.create` (readOnly variant): in
read-only mode, fail when neither the data file nor the WAL exists;
otherwise recover.  Creating an engine acquires no lock. -/
def createEngineRO (dimension : Nat) (readOnly : Bool)
    (dataFile walFile : Option (List Nat)) : Except ROErr EngineRO :=
  if readOnly = true ∧ dataFile = none ∧ walFile = none then
    .error .noDatabase
  else
    .ok ⟨createEngine dimension dataFile walFile, readOnly, 0⟩

/-- Translated from `writeRecord` (readOnly variant): the `ReadOnlyError`
guard comes first, before the dimension check, the mutex, the file lock
and any mutation. -/
def writeRecordRO (e : EngineRO) (key emb : List Nat) (op : Nat) (ts : Int) :
    Except ROErr EngineRO :=
  if e.readOnly then .error .readOnlyError
  else if emb.length ≠ e.eng.dimension then .error .dimensionMismatch
  else .ok ⟨writeRecordCore e.eng key emb op ts, e.readOnly, e.locksAcquired + 1⟩

/-- Translated from `deleteRecord` (readOnly variant): a missing key
returns `false` before any write; an existing key goes through
`writeRecord`, which throws `ReadOnlyError` in read-only mode. -/
def deleteRecordRO (e : EngineRO) (key : List Nat) (ts : Int) :
    Except ROErr (Bool × EngineRO) :=
  if ¬idxHas e.eng.index key then .ok (false, e)
  else
    match writeRecordRO e key (List.replicate e.eng.dimension 0) opDelete ts with
    | .ok e2 => .ok (true, e2)
    | .error er => .error er

/-- Translated from `readRecord` (readOnly variant): a pure read; the
engine state (including the lock count) is untouched. -/
def readRecordRO (e : EngineRO) (key : List Nat) : Option DataRecord × EngineRO :=
  (readRecord e.eng key, e)

def hasKeyRO (e : EngineRO) (key : List Nat) : Bool × EngineRO :=
  (hasKey e.eng key, e)

/-! ## CandidateSet (`candidate-set.ts`): a fixed-size top-N min-heap -/

/-- A heap entry: key (UTF-8 bytes) and score (similarity value). -/
structure CSEntry where
  key : List Nat
  value : Int
deriving DecidableEq

/-- Out-of-range default (JS would give `undefined`; never hit in-range). -/
def cdef : CSEntry := ⟨[], 0⟩

inductive CSErr where
  | sizeNotPositive
  | keyMissing
  | valueMissing
deriving DecidableEq

/-- Translated from `swap(i, j)`. -/
def csSwap (h : List CSEntry) (i j : Nat) : List CSEntry :=
  (h.set i (h.getD j cdef)).set j (h.getD i cdef)

/-- Translated from `bubbleUp`: climb while the parent is strictly
larger. -/
def bubbleUp (h : List CSEntry) (index : Nat) : List CSEntry :=
  if hpos : 0 < index then
    let parentIndex := (index - 1) / 2
    if (h.getD parentIndex cdef).value ≤ (h.getD index cdef).value then h
    else bubbleUp (csSwap h parentIndex index) parentIndex
  else h
termination_by index
decreasing_by
  show (index - 1) / 2 < index
  omega

/-- The index of the smallest value among `index` and its two children
(the body of one `bubbleDown` loop iteration). -/
def smallestIdx (h : List CSEntry) (index : Nat) : Nat :=
  let leftChild := 2 * index + 1
  let rightChild := 2 * index + 2
  let s1 := if leftChild < h.length ∧
      (h.getD leftChild cdef).value < (h.getD index cdef).value then leftChild
    else index
  if rightChild < h.length ∧
      (h.getD rightChild cdef).value < (h.getD s1 cdef).value then rightChild
  else s1

/-- Translated from `bubbleDown`: the `while (true)` loop with explicit
fuel; each iteration moves strictly down, so `h.length` fuel always
reaches the loop's own exit. -/
def bubbleDownAux : Nat → List CSEntry → Nat → List CSEntry
  | 0, h, _ => h
  | fuel + 1, h, index =>
      if smallestIdx h index = index then h
      else bubbleDownAux fuel (csSwap h index (smallestIdx h index))
        (smallestIdx h index)

def bubbleDown (h : List CSEntry) (index : Nat) : List CSEntry :=
  bubbleDownAux h.length h index

structure CandidateSet where
  size : Nat
  heap : List CSEntry
deriving DecidableEq

/-- Translated from the constructor: `invariant(size > 0)`. -/
def csNew (size : Nat) : Except CSErr CandidateSet :=
  if size > 0 then .ok ⟨size, []⟩ else .error .sizeNotPositive

/-- Translated from `add(key, value)`: `invariant(key)` and
`invariant(value)` throw on falsy arguments (the empty string, the score
`0`); below capacity push and bubble up; at capacity replace the root
exactly when the new score beats the minimum. -/
def csAdd (s : CandidateSet) (key : List Nat) (value : Int) :
    Except CSErr CandidateSet :=
  if key = [] then .error .keyMissing
  else if value = 0 then .error .valueMissing
  else if s.heap.length < s.size then
    .ok ⟨s.size, bubbleUp (s.heap ++ [(⟨key, value⟩ : CSEntry)])
      ((s.heap ++ [(⟨key, value⟩ : CSEntry)]).length - 1)⟩
  else if (s.heap.getD 0 cdef).value < value then
    .ok ⟨s.size, bubbleDown (s.heap.set 0 (⟨key, value⟩ : CSEntry)) 0⟩
  else .ok s

def csCount (s : CandidateSet) : Nat := s.heap.length

/-- Translated from `getEntries`: a sorted copy, highest value first
(a stable sort, like JS `Array.prototype.sort`). -/
def getEntries (s : CandidateSet) : List CSEntry :=
  s.heap.mergeSort (fun a b => b.value ≤ a.value)

/-- The min-heap property: every non-root node is at least its parent. -/
def IsMinHeap (h : List CSEntry) : Prop :=
  ∀ j, 0 < j → j < h.length →
    (h.getD ((j - 1) / 2) cdef).value ≤ (h.getD j cdef).value

theorem getD_set_self {l : List CSEntry} {i : Nat} {v : CSEntry}
    (h : i < l.length) : (l.set i v).getD i cdef = v := by
  simp [List.getD_eq_getElem?_getD, List.getElem?_set_self h]

theorem getD_set_other {l : List CSEntry} {i j : Nat} {v : CSEntry}
    (h : i ≠ j) : (l.set i v).getD j cdef = l.getD j cdef := by
  simp [List.getD_eq_getElem?_getD, List.getElem?_set_ne h]

theorem csSwap_length (h : List CSEntry) (i j : Nat) :
    (csSwap h i j).length = h.length := by
  simp [csSwap]

theorem csSwap_getD_fst (h : List CSEntry) (i j : Nat) (hi : i < h.length) :
    (csSwap h i j).getD i cdef = h.getD j cdef := by
  unfold csSwap
  by_cases hij : i = j
  · subst hij
    exact getD_set_self (by simpa using hi)
  · rw [getD_set_other (fun hh => hij hh.symm)]
    exact getD_set_self hi

theorem csSwap_getD_snd (h : List CSEntry) (i j : Nat) (hj : j < h.length) :
    (csSwap h i j).getD j cdef = h.getD i cdef := by
  unfold csSwap
  exact getD_set_self (by simpa using hj)

theorem csSwap_getD_other (h : List CSEntry) (i j x : Nat)
    (hxi : x ≠ i) (hxj : x ≠ j) :
    (csSwap h i j).getD x cdef = h.getD x cdef := by
  unfold csSwap
  rw [getD_set_other (fun hh => hxj hh.symm), getD_set_other (fun hh => hxi hh.symm)]

theorem swap_cons_perm {α : Type} (a b : α) (B C : List α) :
    (a :: (B ++ b :: C)).Perm (b :: (B ++ a :: C)) := by
  have h1 : (a :: (B ++ b :: C)).Perm (a :: (b :: (B ++ C))) :=
    List.Perm.cons a List.perm_middle
  have h2 : (a :: b :: (B ++ C)).Perm (b :: a :: (B ++ C)) :=
    List.Perm.swap b a _
  have h3 : (b :: a :: (B ++ C)).Perm (b :: (B ++ a :: C)) :=
    List.Perm.cons b List.perm_middle.symm
  exact (h1.trans h2).trans h3

theorem set_swap_perm_lt {α : Type} (l : List α) (i j : Nat) (d : α)
    (hij : i < j) (hj : j < l.length) :
    ((l.set i (l.getD j d)).set j (l.getD i d)).Perm l := by
  have hi : i < l.length := lt_trans hij hj
  have hgi : l.getD i d = l[i] := by
    simp [List.getD_eq_getElem?_getD, List.getElem?_eq_getElem hi]
  have hgj : l.getD j d = l[j] := by
    simp [List.getD_eq_getElem?_getD, List.getElem?_eq_getElem hj]
  have htk : (l.take i).length = i := by
    simp [List.length_take]
    omega
  have hdlen : (l.drop (i + 1)).length = l.length - (i + 1) := by simp
  have hset1 : l.set i (l[j]) = l.take i ++ l[j] :: l.drop (i + 1) := by
    rw [List.set_eq_take_append_cons_drop, if_pos hi]
  have hdropA : ∀ A : Nat, A = j →
      List.drop A l = l[j] :: List.drop (j + 1) l := by
    intro A hA
    rw [hA]
    exact List.drop_eq_getElem_cons hj
  have hdropB : ∀ A : Nat, A = j + 1 → List.drop A l = List.drop (j + 1) l := by
    intro A hA
    rw [hA]
  have hset2 : (l.take i ++ l[j] :: l.drop (i + 1)).set j (l[i]) =
      l.take i ++ l[j] :: (l.drop (i + 1)).set (j - i - 1) (l[i]) := by
    rw [List.set_append_right _ _ (by rw [htk]; omega)]
    rw [htk]
    rw [show j - i = (j - i - 1) + 1 from by omega]
    rfl
  have hset3 : (l.drop (i + 1)).set (j - i - 1) (l[i]) =
      (l.drop (i + 1)).take (j - i - 1) ++ l[i] :: l.drop (j + 1) := by
    rw [List.set_eq_take_append_cons_drop, if_pos (by rw [hdlen]; omega)]
    have h5 : List.drop (j - i - 1 + 1) (List.drop (i + 1) l) =
        List.drop (j + 1) l := by
      rw [List.drop_drop]
      apply hdropB
      omega
    rw [h5]
  have hdecomp : l.drop (i + 1) =
      (l.drop (i + 1)).take (j - i - 1) ++ l[j] :: l.drop (j + 1) := by
    have h6 : List.drop (j - i - 1) (List.drop (i + 1) l) =
        l[j] :: List.drop (j + 1) l := by
      rw [List.drop_drop]
      apply hdropA
      omega
    conv_lhs => rw [← List.take_append_drop (j - i - 1) (l.drop (i + 1))]
    rw [h6]
  have hl : l = l.take i ++ l[i] ::
      ((l.drop (i + 1)).take (j - i - 1) ++ l[j] :: l.drop (j + 1)) := by
    conv_lhs => rw [← List.take_append_drop i l]
    congr 1
    rw [List.drop_eq_getElem_cons hi]
    rw [← hdecomp]
  rw [hgi, hgj, hset1, hset2, hset3]
  conv_rhs => rw [hl]
  exact List.Perm.append_left _ (swap_cons_perm _ _ _ _)

theorem set_getD_self_eq {α : Type} (l : List α) (i : Nat) (d : α)
    (hi : i < l.length) : l.set i (l.getD i d) = l := by
  have hgi : l.getD i d = l[i] := by
    simp [List.getD_eq_getElem?_getD, List.getElem?_eq_getElem hi]
  rw [hgi, List.set_eq_take_append_cons_drop, if_pos hi,
    ← List.drop_eq_getElem_cons hi, List.take_append_drop]

theorem csSwap_perm (h : List CSEntry) (i j : Nat)
    (hi : i < h.length) (hj : j < h.length) : (csSwap h i j).Perm h := by
  unfold csSwap
  rcases Nat.lt_trichotomy i j with hlt | heq | hgt
  · exact set_swap_perm_lt h i j cdef hlt hj
  · subst heq
    rw [List.set_set, set_getD_self_eq h i cdef hi]
  · rw [List.set_comm _ _ _ (by omega)]
    exact set_swap_perm_lt h j i cdef hgt hi

theorem smallestIdx_min (h : List CSEntry) (index : Nat) :
    (h.getD (smallestIdx h index) cdef).value ≤ (h.getD index cdef).value ∧
    (2 * index + 1 < h.length →
      (h.getD (smallestIdx h index) cdef).value ≤
        (h.getD (2 * index + 1) cdef).value) ∧
    (2 * index + 2 < h.length →
      (h.getD (smallestIdx h index) cdef).value ≤
        (h.getD (2 * index + 2) cdef).value) := by
  simp only [smallestIdx]
  split_ifs with h1 h2 h2
  · obtain ⟨h1a, h1b⟩ := h1
    obtain ⟨h2a, h2b⟩ := h2
    exact ⟨by omega, fun _ => by omega, fun _ => by omega⟩
  · push_neg at h2
    obtain ⟨h1a, h1b⟩ := h1
    refine ⟨by omega, fun _ => by omega, fun hr => ?_⟩
    have := h2 hr
    omega
  · obtain ⟨h2a, h2b⟩ := h2
    push_neg at h1
    refine ⟨by omega, fun hl => ?_, fun _ => by omega⟩
    have := h1 hl
    omega
  · push_neg at h1 h2
    refine ⟨le_refl _, fun hl => h1 hl, fun hr => h2 hr⟩

theorem smallestIdx_ne_cases (h : List CSEntry) (index : Nat)
    (hne : smallestIdx h index ≠ index) :
    (smallestIdx h index = 2 * index + 1 ∨ smallestIdx h index = 2 * index + 2) ∧
    smallestIdx h index < h.length ∧
    (h.getD (smallestIdx h index) cdef).value < (h.getD index cdef).value := by
  simp only [smallestIdx] at hne ⊢
  split_ifs at hne ⊢ with h1 h2 h2
  · obtain ⟨h1a, h1b⟩ := h1
    obtain ⟨h2a, h2b⟩ := h2
    exact ⟨Or.inr rfl, h2a, by omega⟩
  · exact ⟨Or.inl rfl, h1.1, h1.2⟩
  · exact ⟨Or.inr rfl, h2.1, h2.2⟩
  · exact absurd rfl hne

theorem smallestIdx_eq_imp (h : List CSEntry) (index : Nat)
    (heq : smallestIdx h index = index) :
    (2 * index + 1 < h.length →
      (h.getD index cdef).value ≤ (h.getD (2 * index + 1) cdef).value) ∧
    (2 * index + 2 < h.length →
      (h.getD index cdef).value ≤ (h.getD (2 * index + 2) cdef).value) := by
  have hm := smallestIdx_min h index
  rw [heq] at hm
  exact ⟨hm.2.1, hm.2.2⟩

theorem bubbleUp_perm (i : Nat) : ∀ h : List CSEntry, i < h.length →
    (bubbleUp h i).Perm h := by
  induction i using Nat.strong_induction_on with
  | _ i ih =>
    intro h hi
    rw [bubbleUp]
    by_cases hpos : 0 < i
    · rw [dif_pos hpos]
      by_cases hle : (h.getD ((i - 1) / 2) cdef).value ≤ (h.getD i cdef).value
      · rw [if_pos hle]
      · rw [if_neg hle]
        have hp : (i - 1) / 2 < i := by omega
        have hswap := csSwap_perm h ((i - 1) / 2) i (by omega) hi
        exact (ih _ hp _ (by rw [csSwap_length]; omega)).trans hswap
    · rw [dif_neg hpos]

theorem bubbleDownAux_perm (fuel : Nat) : ∀ (h : List CSEntry) (i : Nat),
    i < h.length → (bubbleDownAux fuel h i).Perm h := by
  induction fuel with
  | zero => intro h i _; exact List.Perm.refl _
  | succ fuel ih =>
      intro h i hi
      show (if smallestIdx h i = i then h
        else bubbleDownAux fuel (csSwap h i (smallestIdx h i))
          (smallestIdx h i)).Perm h
      by_cases hs : smallestIdx h i = i
      · rw [if_pos hs]
      · rw [if_neg hs]
        obtain ⟨_, hlen, _⟩ := smallestIdx_ne_cases h i hs
        have hswap := csSwap_perm h i (smallestIdx h i) hi hlen
        exact (ih _ _ (by rw [csSwap_length]; exact hlen)).trans hswap

/-- Min-heap except that the edge into node `i` may be violated. -/
def HeapExceptAt (h : List CSEntry) (i : Nat) : Prop :=
  ∀ j, 0 < j → j < h.length → j ≠ i →
    (h.getD ((j - 1) / 2) cdef).value ≤ (h.getD j cdef).value

/-- `bubbleUp` repairs a heap whose only defect is the edge into `i`,
provided `i`'s parent-to-be dominates `i`'s children. -/
theorem bubbleUp_heap (i : Nat) : ∀ h : List CSEntry, i < h.length →
    HeapExceptAt h i →
    (0 < i → ∀ j, j < h.length → (j - 1) / 2 = i →
      (h.getD ((i - 1) / 2) cdef).value ≤ (h.getD j cdef).value) →
    IsMinHeap (bubbleUp h i) := by
  induction i using Nat.strong_induction_on with
  | _ i ih =>
    intro h hilen hex hdom
    rw [bubbleUp]
    by_cases hpos : 0 < i
    · rw [dif_pos hpos]
      by_cases hle : (h.getD ((i - 1) / 2) cdef).value ≤ (h.getD i cdef).value
      · rw [if_pos hle]
        intro j hj0 hjlen
        by_cases hji : j = i
        · subst hji
          exact hle
        · exact hex j hj0 hjlen hji
      · rw [if_neg hle]
        push_neg at hle
        have hplt : (i - 1) / 2 < i := by omega
        have hplen : (i - 1) / 2 < h.length := lt_trans hplt hilen
        have hpi : (i - 1) / 2 ≠ i := by omega
        apply ih ((i - 1) / 2) hplt
        · rw [csSwap_length]
          exact hplen
        · intro j hj0 hjlen hjp
          rw [csSwap_length] at hjlen
          by_cases hji : j = i
          · subst hji
            rw [csSwap_getD_fst h _ j hplen, csSwap_getD_snd h _ j hilen]
            exact le_of_lt hle
          · by_cases hpj : (j - 1) / 2 = i
            · have hjgt : i < j := by omega
              rw [hpj, csSwap_getD_snd h _ i hilen,
                csSwap_getD_other h _ i j (by omega) (by omega)]
              exact hdom hpos j hjlen hpj
            · by_cases hpj2 : (j - 1) / 2 = (i - 1) / 2
              · rw [hpj2, csSwap_getD_fst h _ i hplen,
                  csSwap_getD_other h _ i j hjp hji]
                have h2 := hex j hj0 hjlen hji
                rw [hpj2] at h2
                omega
              · rw [csSwap_getD_other h _ i ((j - 1) / 2) hpj2 hpj,
                  csSwap_getD_other h _ i j hjp hji]
                exact hex j hj0 hjlen hji
        · intro hppos j hjlen hpj
          rw [csSwap_length] at hjlen
          have hppne1 : ((i - 1) / 2 - 1) / 2 ≠ (i - 1) / 2 := by omega
          have hppne2 : ((i - 1) / 2 - 1) / 2 ≠ i := by omega
          rw [csSwap_getD_other h _ i _ hppne1 hppne2]
          have hjgtp : (i - 1) / 2 < j := by omega
          by_cases hji : j = i
          · subst hji
            rw [csSwap_getD_snd h _ j hilen]
            exact hex _ hppos hplen hpi
          · rw [csSwap_getD_other h _ i j (by omega) hji]
            have h1 := hex _ hppos hplen hpi
            have h2 := hex j (by omega) hjlen hji
            rw [hpj] at h2
            omega
    · rw [dif_neg hpos]
      intro j hj0 hjlen
      exact hex j hj0 hjlen (by omega)

/-- Min-heap except that the edges out of node `i` (to its children) may
be violated. -/
def HeapExceptChildren (h : List CSEntry) (i : Nat) : Prop :=
  ∀ j, 0 < j → j < h.length → (j - 1) / 2 ≠ i →
    (h.getD ((j - 1) / 2) cdef).value ≤ (h.getD j cdef).value

/-- `bubbleDown` repairs a heap whose only defects are the edges out of
`i`, provided `i`'s parent dominates `i`'s children; `h.length - i` fuel
suffices. -/
theorem bubbleDownAux_heap (fuel : Nat) : ∀ (h : List CSEntry) (i : Nat),
    i < h.length →
    h.length ≤ fuel + i →
    HeapExceptChildren h i →
    (0 < i → ∀ j, j < h.length → (j - 1) / 2 = i →
      (h.getD ((i - 1) / 2) cdef).value ≤ (h.getD j cdef).value) →
    IsMinHeap (bubbleDownAux fuel h i) := by
  induction fuel with
  | zero =>
      intro h i hi hfuel hex hdom
      exact absurd hi (by omega)
  | succ fuel ih =>
      intro h i hi hfuel hex hdom
      show IsMinHeap (if smallestIdx h i = i then h
        else bubbleDownAux fuel (csSwap h i (smallestIdx h i)) (smallestIdx h i))
      by_cases hs : smallestIdx h i = i
      · rw [if_pos hs]
        intro j hj0 hjlen
        by_cases hpj : (j - 1) / 2 = i
        · obtain ⟨hL, hR⟩ := smallestIdx_eq_imp h i hs
          rw [hpj]
          have hj2 : j = 2 * i + 1 ∨ j = 2 * i + 2 := by omega
          rcases hj2 with hj2 | hj2
          · rw [hj2] at hjlen ⊢
            exact hL hjlen
          · rw [hj2] at hjlen ⊢
            exact hR hjlen
        · exact hex j hj0 hjlen hpj
      · rw [if_neg hs]
        obtain ⟨hchild, hslen, hslt⟩ := smallestIdx_ne_cases h i hs
        have hsgt : i < smallestIdx h i := by omega
        have hm := smallestIdx_min h i
        have hparent_s : (smallestIdx h i - 1) / 2 = i := by omega
        apply ih (csSwap h i (smallestIdx h i)) (smallestIdx h i)
        · rw [csSwap_length]
          exact hslen
        · rw [csSwap_length]
          omega
        · intro j hj0 hjlen hpj
          rw [csSwap_length] at hjlen
          by_cases hjs : j = smallestIdx h i
          · subst hjs
            rw [hparent_s, csSwap_getD_fst h i _ hi, csSwap_getD_snd h i _ hslen]
            exact le_of_lt hslt
          · by_cases hji : j = i
            · subst hji
              have hjpos := hj0
              have hppne1 : (j - 1) / 2 ≠ j := by omega
              have hppne2 : (j - 1) / 2 ≠ smallestIdx h j := by omega
              rw [csSwap_getD_other h j _ _ hppne1 hppne2,
                csSwap_getD_fst h j _ hi]
              exact hdom hjpos _ hslen hparent_s
            · by_cases hpji : (j - 1) / 2 = i
              · rw [hpji, csSwap_getD_fst h i _ hi,
                  csSwap_getD_other h i _ j hji hjs]
                have hj2 : j = 2 * i + 1 ∨ j = 2 * i + 2 := by omega
                rcases hj2 with hj2 | hj2
                · have := hm.2.1 (by omega)
                  rw [hj2]
                  omega
                · have := hm.2.2 (by omega)
                  rw [hj2]
                  omega
              · rw [csSwap_getD_other h i _ _ hpji hpj,
                  csSwap_getD_other h i _ j hji hjs]
                exact hex j hj0 hjlen hpji
        · intro hspos j hjlen hpj
          rw [csSwap_length] at hjlen
          rw [hparent_s]
          have hjgt : smallestIdx h i < j := by omega
          have hjne_i : j ≠ i := by omega
          have hjne_s : j ≠ smallestIdx h i := by omega
          rw [csSwap_getD_fst h i _ hi, csSwap_getD_other h i _ j hjne_i hjne_s]
          have h2 := hex j (by omega) hjlen (by omega)
          rw [hpj] at h2
          omega

/-- In a min-heap, the root is a minimum. -/
theorem isMinHeap_root_le (h : List CSEntry) (hh : IsMinHeap h) :
    ∀ j, j < h.length → (h.getD 0 cdef).value ≤ (h.getD j cdef).value := by
  intro j
  induction j using Nat.strong_induction_on with
  | _ j ih =>
    intro hj
    rcases Nat.eq_zero_or_pos j with h0 | hpos
    · subst h0
      exact le_refl _
    · have hp := hh j hpos hj
      have hplt : (j - 1) / 2 < j := by omega
      exact le_trans (ih _ hplt (lt_trans hplt hj)) hp

theorem isMinHeap_root_min (h : List CSEntry) (hh : IsMinHeap h) :
    ∀ e ∈ h, (h.getD 0 cdef).value ≤ e.value := by
  intro e he
  obtain ⟨n, hn, hget⟩ := List.getElem_of_mem he
  have hgd : h.getD n cdef = e := by
    simp [List.getD_eq_getElem?_getD, List.getElem?_eq_getElem hn, hget]
  rw [← hgd]
  exact isMinHeap_root_le h hh n hn

theorem getD_append_left {h : List CSEntry} {e : CSEntry} {j : Nat}
    (hj : j < h.length) : (h ++ [e]).getD j cdef = h.getD j cdef := by
  simp [List.getD_eq_getElem?_getD, List.getElem?_append_left hj]

theorem getD_append_last (h : List CSEntry) (e : CSEntry) :
    (h ++ [e]).getD h.length cdef = e := by
  simp [List.getD_eq_getElem?_getD]

/-- The full `add` specification for non-falsy arguments on a valid
state: below capacity, the entry is inserted (count up by one, same
multiset plus the new entry); at capacity the root — which is a minimum
of the heap — is replaced exactly when the new score beats it; the
min-heap shape is preserved throughout. -/
theorem csAdd_spec (s : CandidateSet) (k : List Nat) (v : Int)
    (hk : k ≠ []) (hv : v ≠ 0) (hsz : 0 < s.size) (hheap : IsMinHeap s.heap) :
    ∃ s2 : CandidateSet, csAdd s k v = .ok s2 ∧ s2.size = s.size ∧
      IsMinHeap s2.heap ∧
      (s.heap.length < s.size →
        s2.heap.Perm (s.heap ++ [⟨k, v⟩]) ∧
        s2.heap.length = s.heap.length + 1) ∧
      (¬s.heap.length < s.size →
        ((¬(s.heap.getD 0 cdef).value < v → s2 = s) ∧
         ((s.heap.getD 0 cdef).value < v →
            s2.heap.Perm ((⟨k, v⟩ : CSEntry) :: s.heap.tail) ∧
            s2.heap.length = s.heap.length ∧
            (∀ e ∈ s.heap, (s.heap.getD 0 cdef).value ≤ e.value)))) := by
  unfold csAdd
  rw [if_neg hk, if_neg hv]
  by_cases hcap : s.heap.length < s.size
  · rw [if_pos hcap]
    set e1 : CSEntry := ⟨k, v⟩ with he1
    set h1 : List CSEntry := s.heap ++ [e1] with hh1
    have hlen1 : h1.length = s.heap.length + 1 := by
      rw [hh1]
      simp
    have hn : s.heap.length < h1.length := by omega
    have hidx : h1.length - 1 = s.heap.length := by omega
    refine ⟨⟨s.size, bubbleUp h1 (h1.length - 1)⟩, rfl, rfl, ?_, ?_, ?_⟩
    · rw [hidx]
      apply bubbleUp_heap s.heap.length h1 hn
      · intro j hj0 hjlen hji
        rw [hlen1] at hjlen
        have hjlt : j < s.heap.length := by omega
        have hplt : (j - 1) / 2 < s.heap.length := by omega
        rw [hh1, getD_append_left hjlt, getD_append_left hplt]
        exact hheap j hj0 hjlt
      · intro hpos j hjlen hpj
        rw [hlen1] at hjlen
        exact absurd hpj (by omega)
    · intro _
      constructor
      · exact (bubbleUp_perm _ h1 (by omega)).trans (List.Perm.refl _)
      · show (bubbleUp h1 (h1.length - 1)).length = s.heap.length + 1
        rw [(bubbleUp_perm _ h1 (by omega)).length_eq, hlen1]
    · intro hcon
      exact absurd hcap hcon
  · rw [if_neg hcap]
    have hne : s.heap ≠ [] := by
      intro hcon
      rw [hcon] at hcap
      simp at hcap
      omega
    have hlen0 : 0 < s.heap.length := List.length_pos.mpr hne
    by_cases hbeat : (s.heap.getD 0 cdef).value < v
    · rw [if_pos hbeat]
      set e1 : CSEntry := ⟨k, v⟩ with he1
      set h1 : List CSEntry := s.heap.set 0 e1 with hh1
      have hlen1 : h1.length = s.heap.length := by simp [hh1]
      have hcons : h1 = e1 :: s.heap.tail := by
        rw [hh1]
        cases hc : s.heap with
        | nil => exact absurd hc hne
        | cons a t => rfl
      have hheap1 : IsMinHeap (bubbleDown h1 0) := by
        unfold bubbleDown
        apply bubbleDownAux_heap h1.length h1 0 (by omega) (by omega)
        · intro j hj0 hjlen hpj
          have hjne : j ≠ 0 := by omega
          have hpne : (j - 1) / 2 ≠ 0 := hpj
          rw [hh1, getD_set_other (fun hh => hpne hh.symm),
            getD_set_other (fun hh => hjne hh.symm)]
          rw [hlen1] at hjlen
          exact hheap j hj0 hjlen
        · intro hcon
          exact absurd hcon (by omega)
      refine ⟨⟨s.size, bubbleDown h1 0⟩, rfl, rfl, hheap1, ?_, ?_⟩
      · intro hcon
        exact absurd hcon hcap
      · intro _
        refine ⟨fun hcon => absurd hbeat hcon, fun _ => ⟨?_, ?_, ?_⟩⟩
        · have hperm : (bubbleDown h1 0).Perm h1 := by
            unfold bubbleDown
            exact bubbleDownAux_perm h1.length h1 0 (by omega)
          show (bubbleDown h1 0).Perm ((⟨k, v⟩ : CSEntry) :: s.heap.tail)
          rw [show ((⟨k, v⟩ : CSEntry) :: s.heap.tail) = h1 from hcons.symm]
          exact hperm
        · show (bubbleDown h1 0).length = s.heap.length
          have hperm : (bubbleDown h1 0).Perm h1 := by
            unfold bubbleDown
            exact bubbleDownAux_perm h1.length h1 0 (by omega)
          rw [hperm.length_eq, hlen1]
        · exact isMinHeap_root_min s.heap hheap
    · rw [if_neg hbeat]
      refine ⟨s, rfl, rfl, hheap, ?_, ?_⟩
      · intro hcon
        exact absurd hcon hcap
      · intro _
        exact ⟨fun _ => rfl, fun hcon => absurd hcon hbeat⟩

/-- `getEntries` returns a copy of the heap sorted by score, highest
first. -/
theorem getEntries_spec (s : CandidateSet) :
    (getEntries s).Perm s.heap ∧
    (getEntries s).Pairwise (fun a b => b.value ≤ a.value) := by
  constructor
  · exact List.mergeSort_perm s.heap _
  · have h := @List.sorted_mergeSort CSEntry
      (fun a b : CSEntry => decide (b.value ≤ a.value))
      (by
        intro a b c hab hbc
        simp only [decide_eq_true_eq] at hab hbc ⊢
        omega)
      (by
        intro a b
        simp only [Bool.or_eq_true, decide_eq_true_eq]
        omega)
      s.heap
    have h2 : (getEntries s).Pairwise
        (fun a b => decide (b.value ≤ a.value) = true) := h
    exact h2.imp (by intro a b hab; simpa using hab)

/-! ## Sequence-number invariant without the index clause

`buildFromWal` updates its running maximum on EVERY recovered WAL entry,
whether or not the entry's key can be read back from the data file, so
the sequence-counter discipline holds for arbitrary key lengths.  The
weaker invariant below drops the `index_eq` clause of `EngineInv` and is
preserved without any bound on key length. -/

structure EngineInvSeq (e : Engine) (recs : List DataRecord) : Prop where
  dim_bound : e.dimension ≤ 2 ^ 16
  count_bound : recs.length ≤ 2 ^ 32
  recs_valid : ∀ r ∈ recs, ValidDataRecord r
  recs_dim : ∀ r ∈ recs, r.dimension = e.dimension
  seqs : ∀ i (h : i < recs.length), recs[i].sequenceNumber = (i : Int) + 1
  counter : e.sequenceCounter = (recs.length : Int) + 1
  files : (recs = [] ∧ e.dataFile = none ∧ e.walFile = none) ∨
      (recs ≠ [] ∧ e.dataFile = some (dataBytes e.dimension recs) ∧
        e.walFile = some (walBytes recs))

theorem invSeq_of_inv {e : Engine} {recs : List DataRecord}
    (h : EngineInv e recs) : EngineInvSeq e recs :=
  ⟨h.dim_bound, h.count_bound, h.recs_valid, h.recs_dim, h.seqs, h.counter,
    h.files⟩

theorem walEntries_valid_parts (D : Nat) (recs : List DataRecord)
    (hD : D ≤ 2 ^ 16) (hcount : recs.length ≤ 2 ^ 32)
    (hvalid : ∀ r ∈ recs, ValidDataRecord r)
    (hdim : ∀ r ∈ recs, r.dimension = D) :
    ∀ en ∈ walEntries recs, ValidWalEntry en := by
  have hsz : ∀ r ∈ recs, (serializeDataRecord r).length ≤ 2 ^ 19 := fun r hr =>
    recordSize_bound (hvalid r hr) (by rw [hdim r hr]; exact hD)
  have hauxlen : (dataBytesAux recs).length ≤ 2 ^ 51 := by
    have h1 := dataBytesAux_length_bound recs D hvalid hdim hD
    have h3 : recs.length * 2 ^ 19 ≤ 2 ^ 32 * 2 ^ 19 :=
      Nat.mul_le_mul_right _ hcount
    have h4 : (2 : Nat) ^ 32 * 2 ^ 19 = 2 ^ 51 := by norm_num
    omega
  apply walEntriesAux_valid recs headerSize ?_ hvalid hsz
  unfold headerSize
  omega

theorem buildFold_snd (file : List Nat) (l : List WalEntry) :
    ∀ acc : List (List Nat × RecordLocation) × Int,
    (l.foldl (fun acc e =>
        let m2 := max acc.2 e.sequenceNumber
        match readKeyFromBuffer (readChunk file e.offset 1024) 0 with
        | some k =>
            if k = [] then (acc.1, m2)
            else (keyIndexApply acc.1 k ⟨e.offset, e.length, e.sequenceNumber⟩
              e.opType, m2)
        | none => (acc.1, m2)) acc).2 =
      l.foldl (fun m en => max m en.sequenceNumber) acc.2 := by
  induction l with
  | nil => intro acc; rfl
  | cons en l ih =>
      intro acc
      simp only [List.foldl_cons]
      rw [ih]
      congr 1
      cases readKeyFromBuffer (readChunk file en.offset 1024) 0 with
      | none => rfl
      | some k =>
          by_cases hk : k = []
          · simp [hk]
          · simp [hk]

theorem buildFromWal_snd (wal file : List Nat) :
    (buildFromWal (some wal) (some file)).2 =
      (walRecoverFile (some wal)).foldl (fun m en => max m en.sequenceNumber) 0 := by
  show ((walRecoverFile (some wal)).foldl _ ([], 0)).2 = _
  exact buildFold_snd file (walRecoverFile (some wal)) ([], 0)

theorem walEntries_fold_max (recs : List DataRecord)
    (hseqs : ∀ i (h : i < recs.length), recs[i].sequenceNumber = (i : Int) + 1) :
    (walEntries recs).foldl (fun m en => max m en.sequenceNumber) 0 =
      (0 : Int) + recs.length := by
  have hmap : (walEntries recs).map WalEntry.sequenceNumber =
      recs.map DataRecord.sequenceNumber := walEntriesAux_seqMap recs headerSize
  have h1 : ((walEntries recs).map WalEntry.sequenceNumber).foldl max 0 =
      (walEntries recs).foldl (fun m en => max m en.sequenceNumber) 0 :=
    List.foldl_map _ _ _ _
  have h2 : ((recs.map DataRecord.sequenceNumber)).foldl max 0 =
      recs.foldl (fun m r => max m r.sequenceNumber) 0 :=
    List.foldl_map _ _ _ _
  rw [← h1, hmap, h2]
  apply foldl_max_seqs recs 0
  intro i h
  rw [show (recs.get ⟨i, h⟩) = recs[i] from rfl, hseqs i h]
  ring

theorem writeRecordCore_invSeq {e : Engine} {recs : List DataRecord}
    (hinv : EngineInvSeq e recs) (k emb : List Nat) (op : Nat) (ts : Int)
    (hk : ∀ b ∈ k, b < 256) (hklt : k.length < 2 ^ 16)
    (hemb : emb.length = e.dimension) (hw : ∀ w ∈ emb, w < 2 ^ 32) (hop : op < 3)
    (hts1 : -(2 ^ 63) ≤ ts) (hts2 : ts < 2 ^ 63)
    (hcnt : recs.length + 1 ≤ 2 ^ 32) :
    EngineInvSeq (writeRecordCore e k emb op ts)
      (recs ++ [⟨op, e.sequenceCounter, ts, k, e.dimension, emb⟩]) := by
  set newRec : DataRecord := ⟨op, e.sequenceCounter, ts, k, e.dimension, emb⟩ with hnew
  have hseqval : e.sequenceCounter = (recs.length : Int) + 1 := hinv.counter
  have hseqlt : e.sequenceCounter < 2 ^ 63 := by
    rw [hseqval]
    have : (recs.length : Int) ≤ 2 ^ 32 := by exact_mod_cast hinv.count_bound
    omega
  have hseqge : -(2 ^ 63) ≤ e.sequenceCounter := by
    rw [hseqval]
    have : (0 : Int) ≤ (recs.length : Int) := Int.ofNat_nonneg _
    omega
  have hvnew : ValidDataRecord newRec := by
    refine ⟨by show op < 256; omega, hseqge, hseqlt, hts1, hts2, hklt, hk, ?_,
      hemb, hw⟩
    have := hinv.dim_bound
    show e.dimension < 2 ^ 32
    omega
  constructor
  case dim_bound => exact hinv.dim_bound
  case count_bound => simpa using hcnt
  case recs_valid =>
    intro r hr
    rcases List.mem_append.mp hr with h | h
    · exact hinv.recs_valid r h
    · simp only [List.mem_singleton] at h
      subst h
      exact hvnew
  case recs_dim =>
    intro r hr
    rcases List.mem_append.mp hr with h | h
    · exact hinv.recs_dim r h
    · simp only [List.mem_singleton] at h
      subst h
      rfl
  case seqs =>
    intro i h
    simp only [List.length_append, List.length_singleton, List.length_nil] at h
    by_cases hi : i < recs.length
    · rw [List.getElem_append_left hi]
      exact hinv.seqs i hi
    · have : i = recs.length := by omega
      subst this
      rw [List.getElem_append_right (le_refl _)]
      simp [hnew, hseqval]
  case counter =>
    show e.sequenceCounter + 1 = _
    rw [hseqval]
    simp
  case files =>
    right
    have hdim2 : (writeRecordCore e k emb op ts).dimension = e.dimension := rfl
    refine ⟨by simp, ?_, ?_⟩
    · show some (appendToDataFile e (serializeDataRecord newRec)).2 = _
      rw [hdim2]
      unfold appendToDataFile
      rcases hinv.files with ⟨hrecs, hdf, hwf⟩ | ⟨hrecs, hdf, hwf⟩
      · subst hrecs
        rw [hdf]
        simp [dataBytes, dataBytesAux]
      · rw [hdf]
        simp only [Option.getD_some]
        rw [if_neg (by rw [dataBytes_length]; omega)]
        simp [dataBytes, dataBytesAux_append, List.append_assoc]
    · show some (e.walFile.getD [] ++ serializeWalEntry _) = _
      rcases hinv.files with ⟨hrecs, hdf, hwf⟩ | ⟨hrecs, hdf, hwf⟩
      · subst hrecs
        rw [hwf]
        unfold walBytes walEntries
        simp only [Option.getD_none, List.nil_append]
        simp only [walEntriesAux, serializeWalList, List.append_nil]
        congr 2
        unfold appendToDataFile
        rw [hdf]
        simp
      · rw [hwf]
        unfold walBytes walEntries
        simp only [Option.getD_some]
        rw [walEntriesAux_append, serializeWalList_append]
        congr 2
        unfold appendToDataFile
        rw [hdf]
        simp only [Option.getD_some]
        rw [if_neg (by rw [dataBytes_length]; omega)]
        rw [dataBytes_length]
        rfl

theorem reopen_invSeq (e : Engine) (recs : List DataRecord)
    (hinv : EngineInvSeq e recs) :
    EngineInvSeq (createEngine e.dimension e.dataFile e.walFile) recs := by
  rcases hinv.files with ⟨hrecs, hdf, hwf⟩ | ⟨hrecs, hdf, hwf⟩
  · subst hrecs
    rw [hdf, hwf]
    exact invSeq_of_inv (fresh_inv e.dimension hinv.dim_bound)
  · rw [hdf, hwf]
    have hval : ∀ en ∈ walEntries recs, ValidWalEntry en :=
      walEntries_valid_parts e.dimension recs hinv.dim_bound hinv.count_bound
        hinv.recs_valid hinv.recs_dim
    constructor
    case dim_bound => exact hinv.dim_bound
    case count_bound => exact hinv.count_bound
    case recs_valid => exact hinv.recs_valid
    case recs_dim => exact hinv.recs_dim
    case seqs => exact hinv.seqs
    case counter =>
      show (buildFromWal (some (walBytes recs))
        (some (dataBytes e.dimension recs))).2 + 1 = _
      rw [buildFromWal_snd, walRecoverFile_walBytes recs hval,
        walEntries_fold_max recs hinv.seqs]
      omega
    case files =>
      right
      exact ⟨hrecs, rfl, rfl⟩

theorem runOps_invSeq (ops : List EngOp) : ∀ (e : Engine) (recs : List DataRecord),
    EngineInvSeq e recs → (∀ o ∈ ops, WFOp e.dimension o) →
    recs.length + ops.length ≤ 2 ^ 32 →
    ∃ recs2 : List DataRecord, EngineInvSeq (runOps e ops) recs2 ∧
      recs2.length ≤ recs.length + ops.length := by
  induction ops with
  | nil =>
      intro e recs hinv _ _
      exact ⟨recs, hinv, by simp⟩
  | cons o ops ih =>
      intro e recs hinv hwf hb
      have hwfo : WFOp e.dimension o := hwf o (List.mem_cons_self o ops)
      have hwf2 : ∀ o2 ∈ ops, WFOp (applyOp e o).dimension o2 := by
        rw [applyOp_dimension]
        exact fun o2 h2 => hwf o2 (List.mem_cons_of_mem o h2)
      have hb1 : recs.length + 1 ≤ 2 ^ 32 := by
        simp only [List.length_cons] at hb
        omega
      cases o with
      | write k0 emb op0 ts =>
          obtain ⟨hk, hklt, hembd, hww, hop, hts1, hts2⟩ := hwfo
          have happ : applyOp e (.write k0 emb op0 ts) =
              writeRecordCore e k0 emb op0 ts := by
            show (match writeRecord e k0 emb op0 ts with
              | .ok e2 => e2 | .error _ => e) = writeRecordCore e k0 emb op0 ts
            unfold writeRecord
            rw [if_neg (not_ne_iff.mpr hembd)]
          have hinv1 := writeRecordCore_invSeq hinv k0 emb op0 ts hk hklt hembd
            hww hop hts1 hts2 hb1
          rw [← happ] at hinv1
          obtain ⟨recs2, hinv2, hlen2⟩ :=
            ih (applyOp e (.write k0 emb op0 ts))
              (recs ++ [⟨op0, e.sequenceCounter, ts, k0, e.dimension, emb⟩])
              hinv1 hwf2
              (by
                simp only [List.length_append, List.length_cons,
                  List.length_singleton, List.length_nil] at hb ⊢
                omega)
          refine ⟨recs2, hinv2, ?_⟩
          simp only [List.length_append, List.length_cons,
            List.length_singleton, List.length_nil] at hlen2 ⊢
          omega
      | del k0 ts =>
          obtain ⟨hk, hklt, hts1, hts2⟩ := hwfo
          by_cases hhas : idxHas e.index k0 = true
          · have happ : applyOp e (.del k0 ts) =
                writeRecordCore e k0 (List.replicate e.dimension 0) opDelete ts := by
              show (deleteRecord e k0 ts).2 = _
              unfold deleteRecord
              rw [if_pos hhas]
            have hinv1 := writeRecordCore_invSeq hinv k0
              (List.replicate e.dimension 0) opDelete ts hk hklt (by simp)
              (by
                intro w hw
                rw [List.eq_of_mem_replicate hw]
                norm_num)
              (by norm_num [opDelete]) hts1 hts2 hb1
            rw [← happ] at hinv1
            obtain ⟨recs2, hinv2, hlen2⟩ :=
              ih (applyOp e (.del k0 ts))
                (recs ++ [⟨opDelete, e.sequenceCounter, ts, k0, e.dimension,
                  List.replicate e.dimension 0⟩]) hinv1 hwf2
                (by
                  simp only [List.length_append, List.length_cons,
                    List.length_singleton, List.length_nil] at hb ⊢
                  omega)
            refine ⟨recs2, hinv2, ?_⟩
            simp only [List.length_append, List.length_cons,
              List.length_singleton, List.length_nil] at hlen2 ⊢
            omega
          · have happ : applyOp e (.del k0 ts) = e := by
              show (deleteRecord e k0 ts).2 = e
              unfold deleteRecord
              rw [if_neg hhas]
            obtain ⟨recs2, hinv2, hlen2⟩ :=
              ih (applyOp e (.del k0 ts)) recs (by rw [happ]; exact hinv) hwf2
                (by
                  simp only [List.length_cons] at hb
                  omega)
            refine ⟨recs2, hinv2, ?_⟩
            simp only [List.length_cons]
            omega

theorem lifetime_invSeq (sessions : List (List EngOp)) :
    ∀ (e : Engine) (recs : List DataRecord), EngineInvSeq e recs →
    (∀ ops ∈ sessions, ∀ o ∈ ops, WFOp e.dimension o) →
    recs.length + (sessions.map List.length).sum ≤ 2 ^ 32 →
    ∃ recs2 : List DataRecord,
      EngineInvSeq (sessions.foldl (fun e2 ops => runOps (reopenEngine e2) ops) e)
        recs2 ∧
      recs2.length ≤ recs.length + (sessions.map List.length).sum := by
  induction sessions with
  | nil =>
      intro e recs hinv _ _
      exact ⟨recs, hinv, by simp⟩
  | cons ops sessions ih =>
      intro e recs hinv hwf hb
      have hinv1 : EngineInvSeq (reopenEngine e) recs := reopen_invSeq e recs hinv
      obtain ⟨recs1, hinv1r, hlen1⟩ :=
        runOps_invSeq ops (reopenEngine e) recs hinv1
          (hwf ops (List.mem_cons_self ops sessions))
          (by
            simp only [List.map_cons, List.sum_cons] at hb
            omega)
      have hdim : (runOps (reopenEngine e) ops).dimension = e.dimension := by
        rw [runOps_dimension]
        rfl
      obtain ⟨recs2, hinv2, hlen2⟩ :=
        ih (runOps (reopenEngine e) ops) recs1 hinv1r
          (by
            rw [hdim]
            exact fun ops2 h2 => hwf ops2 (List.mem_cons_of_mem _ h2))
          (by
            simp only [List.map_cons, List.sum_cons] at hb
            omega)
      refine ⟨recs2, hinv2, ?_⟩
      simp only [List.map_cons, List.sum_cons]
      omega

theorem inv_walRecover_seq (e : Engine) (recs : List DataRecord)
    (hinv : EngineInvSeq e recs) :
    walRecoverFile e.walFile = walEntries recs := by
  rcases hinv.files with ⟨hrecs, hdf, hwf⟩ | ⟨hrecs, hdf, hwf⟩
  · subst hrecs
    rw [hwf]
    rfl
  · rw [hwf]
    exact walRecoverFile_walBytes recs
      (walEntries_valid_parts e.dimension recs hinv.dim_bound hinv.count_bound
        hinv.recs_valid hinv.recs_dim)

/-- Sequence-number discipline over a whole database lifetime, for
arbitrary keys: the recovery maximum updates on every recovered entry
whether or not its key can be read back, so no key-length hypothesis is
needed. -/
theorem lifetime_seq_full (D : Nat) (hD : D ≤ 2 ^ 16)
    (sessions : List (List EngOp))
    (hwf : ∀ ops ∈ sessions, ∀ o ∈ ops, WFOp D o)
    (hb : (sessions.map List.length).sum ≤ 2 ^ 32) :
    (∀ (i : Nat) (en : WalEntry),
        (walRecoverFile (runLifetime D sessions).walFile)[i]? = some en →
        en.sequenceNumber = (i : Int) + 1) ∧
    (∀ (i j : Nat) (en1 en2 : WalEntry), i < j →
        (walRecoverFile (runLifetime D sessions).walFile)[i]? = some en1 →
        (walRecoverFile (runLifetime D sessions).walFile)[j]? = some en2 →
        en1.sequenceNumber < en2.sequenceNumber) ∧
    (reopenEngine (runLifetime D sessions)).sequenceCounter =
      (walRecoverFile (runLifetime D sessions).walFile).foldl
        (fun m en => max m en.sequenceNumber) 0 + 1 := by
  obtain ⟨recs, hinv, _⟩ :=
    lifetime_invSeq sessions (createEngine D none none) []
      (invSeq_of_inv (fresh_inv D hD)) hwf (by simpa using hb)
  have hrec : walRecoverFile (runLifetime D sessions).walFile = walEntries recs :=
    inv_walRecover_seq _ recs hinv
  have hmap : (walEntries recs).map WalEntry.sequenceNumber =
      recs.map DataRecord.sequenceNumber := walEntriesAux_seqMap recs headerSize
  have hseqAt : ∀ (i : Nat) (en : WalEntry), (walEntries recs)[i]? = some en →
      en.sequenceNumber = (i : Int) + 1 := by
    intro i en hi
    have h1 : (recs.map DataRecord.sequenceNumber)[i]? =
        some en.sequenceNumber := by
      rw [← hmap, List.getElem?_map, hi]
      rfl
    rw [List.getElem?_map] at h1
    obtain ⟨r, hr, hrs⟩ := Option.map_eq_some'.mp h1
    obtain ⟨hlt, hget⟩ := List.getElem?_eq_some.mp hr
    rw [← hrs, ← hget]
    exact hinv.seqs i hlt
  refine ⟨?_, ?_, ?_⟩
  · intro i en hi
    rw [hrec] at hi
    exact hseqAt i en hi
  · intro i j en1 en2 hij h1 h2
    rw [hrec] at h1 h2
    rw [hseqAt i en1 h1, hseqAt j en2 h2]
    omega
  · have hro := reopen_invSeq (runLifetime D sessions) recs hinv
    have hcnt : (reopenEngine (runLifetime D sessions)).sequenceCounter =
        (recs.length : Int) + 1 := hro.counter
    rw [hcnt, hrec, walEntries_fold_max recs hinv.seqs]
    omega

instance (D : Nat) (o : EngOp) : Decidable (WFOp D o) := by
  cases o <;> (unfold WFOp; infer_instance)

instance (o : EngOp) : Decidable (RecoverableKeyOp o) := by
  cases o <;> (unfold RecoverableKeyOp; infer_instance)

/-! ## Claim theorems -/

/-- C1 (amended): for every sequence of acknowledged well-formed writes
whose keys are recoverable — between 1 and 998 UTF-8 bytes, since the
26-byte record header plus the key must fit the 1024-byte recovery chunk
AND the `if (key)` truthiness guard in `KeyIndex.buildFromWal` skips the
empty string — after close and reopen the engine reports exactly the keys
whose last committed operation was not a delete, and `readRecord` on each
live key returns the embedding written by the last committed write on it.
The original claim, quantified over ALL keys, is refuted by
`C1_long_key_lost`: a 999-byte key and the empty key are both lost. -/
theorem C1_recovery_round_trip (D : Nat) (hD : D ≤ 2 ^ 16) (ops : List EngOp)
    (hwf : ∀ o ∈ ops, WFOp D o) (hshort : ∀ o ∈ ops, RecoverableKeyOp o)
    (hb : ops.length ≤ 2 ^ 32) :
    (∀ k, hasKey (reopenEngine (runOps (createEngine D none none) ops)) k =
        liveKey ops k) ∧
    (∀ k v, liveEmb ops k = some v →
        ∃ r, readRecord (reopenEngine (runOps (createEngine D none none) ops)) k =
            some r ∧ r.embedding = v ∧ r.key = k) :=
  recover_spec D hD ops hwf hshort hb

theorem C1_recovery_round_trip_witness :
    (1 : Nat) ≤ 2 ^ 16 ∧
    (∀ o ∈ ([.write [97] [5] 0 3] : List EngOp), WFOp 1 o) ∧
    (∀ o ∈ ([.write [97] [5] 0 3] : List EngOp), RecoverableKeyOp o) ∧
    ([.write [97] [5] 0 3] : List EngOp).length ≤ 2 ^ 32 ∧
    ((∀ k, hasKey (reopenEngine (runOps (createEngine 1 none none)
        [.write [97] [5] 0 3])) k = liveKey [.write [97] [5] 0 3] k) ∧
     (∀ k v, liveEmb [.write [97] [5] 0 3] k = some v →
        ∃ r, readRecord (reopenEngine (runOps (createEngine 1 none none)
            [.write [97] [5] 0 3])) k = some r ∧ r.embedding = v ∧ r.key = k)) :=
  ⟨by norm_num, by decide, by decide, by norm_num,
    C1_recovery_round_trip 1 (by norm_num) [.write [97] [5] 0 3]
      (by decide) (by decide) (by norm_num)⟩

/-- C1 counterexample: the quantification over ALL keys fails twice. A
committed insert with a 999-byte key is lost on reopen (the 26-byte record
header plus the key does not fit the 1024-byte recovery chunk), and a
committed insert with the EMPTY key is also lost (the `if (key)`
truthiness guard in `KeyIndex.buildFromWal` treats the empty string as
falsy and skips the entry). In both cases the write is acknowledged, its
last operation is an insert, yet `hasKey` is false after recovery. -/
theorem C1_long_key_lost :
    (liveKey bigOps bigKey = true ∧
     hasKey (reopenEngine (runOps (createEngine 1 none none) bigOps)) bigKey
       = false) ∧
    (liveKey emptyKeyOps [] = true ∧
     hasKey (reopenEngine (runOps (createEngine 1 none none) emptyKeyOps)) []
       = false) :=
  ⟨bigKey_lost, emptyKey_lost⟩

/-- C2: read-only engines. Opening with `readOnly = true` fails with
`noDatabase` exactly when neither the data file nor the WAL exists;
`writeRecord` on a read-only engine fails with `ReadOnlyError` before any
mutation; `deleteRecord` on a key the read-only engine has fails with
`ReadOnlyError`; creating an engine acquires no lock, and reads leave the
state (hence the lock count) unchanged. -/
theorem C2_read_only_mode :
    (∀ D df wf, createEngineRO D true df wf = .error .noDatabase ↔
        (df = none ∧ wf = none)) ∧
    (∀ e k emb op ts, e.readOnly = true →
        writeRecordRO e k emb op ts = .error .readOnlyError) ∧
    (∀ e k ts, e.readOnly = true → idxHas e.eng.index k = true →
        deleteRecordRO e k ts = .error .readOnlyError) ∧
    (∀ D ro df wf e2, createEngineRO D ro df wf = .ok e2 →
        e2.locksAcquired = 0) ∧
    (∀ e k, (readRecordRO e k).2 = e ∧ (hasKeyRO e k).2 = e) := by
  refine ⟨?_, ?_, ?_, ?_, fun e k => ⟨rfl, rfl⟩⟩
  · intro D df wf
    constructor
    · intro h
      unfold createEngineRO at h
      by_cases hc : ((true : Bool) = true ∧ df = none ∧ wf = none)
      · exact ⟨hc.2.1, hc.2.2⟩
      · rw [if_neg hc] at h
        cases h
    · rintro ⟨h1, h2⟩
      unfold createEngineRO
      rw [if_pos ⟨rfl, h1, h2⟩]
  · intro e k emb op ts hro
    unfold writeRecordRO
    rw [if_pos hro]
  · intro e k ts hro hhas
    unfold deleteRecordRO
    rw [if_neg (by rw [hhas]; exact fun hcon => hcon rfl)]
    unfold writeRecordRO
    rw [if_pos hro]
  · intro D ro df wf e2 h
    unfold createEngineRO at h
    by_cases hc : (ro = true ∧ df = none ∧ wf = none)
    · rw [if_pos hc] at h
      cases h
    · rw [if_neg hc] at h
      injection h with h2
      rw [← h2]

/-- C3: the header magic is NOT stored big-endian.  `serializeHeader`
writes `headerMagic = 0x454d4244` with `setUint32(…, true)` (little
endian), so the first four bytes of the file are `0x44 0x42 0x4D 0x45` —
ASCII `D`,`B`,`M`,`E` — while `file-format.md` specifies the bytes must
read `E`,`M`,`B`,`D`.  This theorem exhibits the actual bytes. -/
theorem C3_magic_little_endian (D : Nat) :
    (serializeHeader D).take 4 = [0x44, 0x42, 0x4D, 0x45] ∧
    headerMagic = 0x454d4244 := by
  constructor
  · rw [show serializeHeader D = leBytes 4 headerMagic ++
      (leBytes 2 headerVersionV2 ++ (leBytes 4 D ++ List.replicate 6 0)) from by
        simp [serializeHeader, List.append_assoc]]
    rw [List.take_left' (leBytes_length 4 headerMagic)]
    decide
  · rfl

/-- C4: WAL recovery scans consecutive 48-byte slots from offset 0 and
returns exactly the longest valid prefix: every returned entry decodes at
its slot, the scan stops at the first slot that does not decode (never
skipping and resuming), a serialized WAL followed by a truncated tail
(fewer than 48 bytes) recovers exactly the serialized entries, and a
missing or empty WAL file recovers nothing. -/
theorem C4_wal_recovery_longest_valid_run :
    (∀ buf : List Nat, ∀ i : Nat, ∀ e : WalEntry,
        (walRecoverFile (some buf))[i]? = some e →
        deserializeWalEntry buf (walEntrySize * i) = some (e, walEntrySize)) ∧
    (∀ buf : List Nat,
        deserializeWalEntry buf
          (walEntrySize * (walRecoverFile (some buf)).length) = none) ∧
    (∀ es extra, (∀ e ∈ es, ValidWalEntry e) → extra.length < walEntrySize →
        walRecoverFile (some (serializeWalList es ++ extra)) = es) ∧
    walRecoverFile none = [] ∧
    (∀ buf : List Nat, buf.length = 0 → walRecoverFile (some buf) = []) := by
  have hfile : ∀ buf : List Nat, buf.length ≠ 0 →
      walRecoverFile (some buf) = walRecoverAux buf 0 := by
    intro buf h
    show (if buf.length = 0 then [] else walRecover buf) = _
    rw [if_neg h]
    rfl
  have hempty : ∀ buf : List Nat, buf.length = 0 →
      walRecoverFile (some buf) = [] := by
    intro buf h
    show (if buf.length = 0 then [] else walRecover buf) = []
    rw [if_pos h]
  refine ⟨?_, ?_, ?_, rfl, hempty⟩
  · intro buf i e hi
    by_cases hlen : buf.length = 0
    · rw [hempty buf hlen] at hi
      cases hi
    · rw [hfile buf hlen] at hi
      have := (walRecoverAux_spec buf buf.length 0 (by omega)).1 i e hi
      rwa [Nat.zero_add] at this
  · intro buf
    by_cases hlen : buf.length = 0
    · rw [hempty buf hlen]
      unfold deserializeWalEntry
      rw [if_pos (by unfold walEntrySize; omega)]
    · rw [hfile buf hlen]
      have := (walRecoverAux_spec buf buf.length 0 (by omega)).2
      rwa [Nat.zero_add] at this
  · intro es extra hval hex
    by_cases hlen : (serializeWalList es ++ extra).length = 0
    · have h1 : es = [] := by
        have := serializeWalList_length es
        simp only [List.length_append] at hlen
        unfold walEntrySize at this
        have h2 : es.length = 0 := by omega
        exact List.length_eq_zero.mp h2
      rw [hempty _ hlen, h1]
    · rw [hfile _ hlen]
      exact walRecover_serialized es extra hval hex

/-- C5: for every run of well-formed operations on a fresh engine,
`hasKey k` is true exactly when some operation targeted `k` and the last
one was not a delete, and `count` equals the number of distinct keys
satisfying that condition. -/
theorem C5_hasKey_count (D : Nat) (hD : D ≤ 2 ^ 16) (ops : List EngOp)
    (hwf : ∀ o ∈ ops, WFOp D o) (hb : ops.length ≤ 2 ^ 32) :
    (∀ k, hasKey (runOps (createEngine D none none) ops) k = liveKey ops k) ∧
    engineCount (runOps (createEngine D none none) ops) = liveKeyCount ops := by
  obtain ⟨recs2, hinv2, _, _, hLR, _⟩ := fresh_run_ghost D hD ops hwf hb
  constructor
  · intro k
    rw [hasKey_spec _ recs2 hinv2 k]
    exact hLR k
  · exact engineCount_eq_liveKeyCount ops _ recs2 hinv2 hLR

theorem C5_hasKey_count_witness :
    (1 : Nat) ≤ 2 ^ 16 ∧
    (∀ o ∈ ([.write [97] [7] 0 0, .del [97] 1] : List EngOp), WFOp 1 o) ∧
    ([.write [97] [7] 0 0, .del [97] 1] : List EngOp).length ≤ 2 ^ 32 ∧
    ((∀ k, hasKey (runOps (createEngine 1 none none)
        [.write [97] [7] 0 0, .del [97] 1]) k =
        liveKey [.write [97] [7] 0 0, .del [97] 1] k) ∧
      engineCount (runOps (createEngine 1 none none)
        [.write [97] [7] 0 0, .del [97] 1]) =
        liveKeyCount [.write [97] [7] 0 0, .del [97] 1]) :=
  ⟨by norm_num, by decide, by norm_num,
    C5_hasKey_count 1 (by norm_num) [.write [97] [7] 0 0, .del [97] 1]
      (by decide) (by norm_num)⟩

/-- C6: across a whole database lifetime (any number of close/reopen
cycles), the recovered WAL entries carry sequence numbers `i + 1` in file
order — so they are strictly increasing and the first is `1` — and a
final reopen sets the engine's `sequenceCounter` to the maximum committed
sequence number plus one (`0 + 1 = 1` for a fresh database). -/
theorem C6_sequence_discipline (D : Nat) (hD : D ≤ 2 ^ 16)
    (sessions : List (List EngOp))
    (hwf : ∀ ops ∈ sessions, ∀ o ∈ ops, WFOp D o)
    (hb : (sessions.map List.length).sum ≤ 2 ^ 32) :
    (∀ (i : Nat) (en : WalEntry),
        (walRecoverFile (runLifetime D sessions).walFile)[i]? = some en →
        en.sequenceNumber = (i : Int) + 1) ∧
    (∀ (i j : Nat) (en1 en2 : WalEntry), i < j →
        (walRecoverFile (runLifetime D sessions).walFile)[i]? = some en1 →
        (walRecoverFile (runLifetime D sessions).walFile)[j]? = some en2 →
        en1.sequenceNumber < en2.sequenceNumber) ∧
    (reopenEngine (runLifetime D sessions)).sequenceCounter =
      (walRecoverFile (runLifetime D sessions).walFile).foldl
        (fun m en => max m en.sequenceNumber) 0 + 1 :=
  lifetime_seq_full D hD sessions hwf hb

theorem C6_sequence_discipline_witness :
    (384 : Nat) ≤ 2 ^ 16 ∧
    (∀ ops ∈ ([] : List (List EngOp)), ∀ o ∈ ops, WFOp 384 o) ∧
    (([] : List (List EngOp)).map List.length).sum ≤ 2 ^ 32 ∧
    ((∀ (i : Nat) (en : WalEntry),
        (walRecoverFile (runLifetime 384 []).walFile)[i]? = some en →
        en.sequenceNumber = (i : Int) + 1) ∧
     (∀ (i j : Nat) (en1 en2 : WalEntry), i < j →
        (walRecoverFile (runLifetime 384 []).walFile)[i]? = some en1 →
        (walRecoverFile (runLifetime 384 []).walFile)[j]? = some en2 →
        en1.sequenceNumber < en2.sequenceNumber) ∧
     (reopenEngine (runLifetime 384 [])).sequenceCounter =
      (walRecoverFile (runLifetime 384 []).walFile).foldl
        (fun m en => max m en.sequenceNumber) 0 + 1) :=
  ⟨by norm_num, by simp, by norm_num,
    C6_sequence_discipline 384 (by norm_num) [] (by simp) (by norm_num)⟩

/-- C7: encode-then-decode on any valid `DataRecord` (key under 2^16
UTF-8 bytes, embedding of the stated dimension, int64 sequence number and
timestamp) succeeds and returns an equal record with `bytesRead` equal to
the serialized length.  Embeddings are 32-bit patterns, so every float32
payload — 0, -0, infinities, NaN — round-trips bit-for-bit. -/
theorem C7_record_round_trip (r : DataRecord) (hr : ValidDataRecord r) :
    deserializeDataRecord (serializeDataRecord r) 0 =
      some (r, calculateRecordSize r.key.length r.dimension) ∧
    (serializeDataRecord r).length =
      calculateRecordSize r.key.length r.dimension := by
  constructor
  · have := deserializeDataRecord_serialize r hr []
    rwa [List.append_nil] at this
  · exact serializeDataRecord_length r hr.2.2.2.2.2.2.2.2.1

theorem C7_record_round_trip_witness :
    ValidDataRecord ⟨0, 1, 2, [97], 1, [0x7fc00000]⟩ ∧
    (deserializeDataRecord
        (serializeDataRecord ⟨0, 1, 2, [97], 1, [0x7fc00000]⟩) 0 =
      some (⟨0, 1, 2, [97], 1, [0x7fc00000]⟩, calculateRecordSize 1 1) ∧
    (serializeDataRecord ⟨0, 1, 2, [97], 1, [0x7fc00000]⟩).length =
      calculateRecordSize 1 1) :=
  ⟨by decide, C7_record_round_trip ⟨0, 1, 2, [97], 1, [0x7fc00000]⟩ (by decide)⟩

/-- C8: on byte sequences, the table-driven `crc32` equals the standard
zlib/PKZIP reference definition: polynomial `0xEDB88320`, initial value
`0xFFFFFFFF`, final XOR `0xFFFFFFFF`, result below 2^32. -/
theorem C8_crc32_standard (data : List Nat) (h : ∀ b ∈ data, b < 256) :
    crc32 data = crc32Zlib data ∧ crc32 data < 2 ^ 32 :=
  ⟨crc32_eq_zlib data h, crc32_lt data⟩

theorem C8_crc32_standard_witness :
    (∀ b ∈ [0, 1, 127, 255], b < 256) ∧
    (crc32 [0, 1, 127, 255] = crc32Zlib [0, 1, 127, 255] ∧
      crc32 [0, 1, 127, 255] < 2 ^ 32) :=
  ⟨by decide, C8_crc32_standard [0, 1, 127, 255] (by decide)⟩

/-- C9 (amended): for a non-empty key and a non-zero score on a valid
set, `add` inserts below capacity (count up by one, same entries plus the
new one) and at capacity replaces the root — a minimum of the heap —
exactly when the score beats it, preserving the min-heap shape; and
`getEntries` returns a copy sorted by score, highest first.  The original
claim's "for all scores, including 0, and for the empty-string key" is
refuted by `C9_falsy_add_throws`: `invariant(key)` / `invariant(value)`
throw on falsy arguments. -/
theorem C9_candidate_set :
    (∀ (s : CandidateSet) (k : List Nat) (v : Int),
      k ≠ [] → v ≠ 0 → 0 < s.size → IsMinHeap s.heap →
      ∃ s2 : CandidateSet, csAdd s k v = .ok s2 ∧ s2.size = s.size ∧
        IsMinHeap s2.heap ∧
        (s.heap.length < s.size →
          s2.heap.Perm (s.heap ++ [⟨k, v⟩]) ∧
          s2.heap.length = s.heap.length + 1) ∧
        (¬s.heap.length < s.size →
          ((¬(s.heap.getD 0 cdef).value < v → s2 = s) ∧
           ((s.heap.getD 0 cdef).value < v →
              s2.heap.Perm ((⟨k, v⟩ : CSEntry) :: s.heap.tail) ∧
              s2.heap.length = s.heap.length ∧
              (∀ e ∈ s.heap, (s.heap.getD 0 cdef).value ≤ e.value))))) ∧
    (∀ s : CandidateSet, (getEntries s).Perm s.heap ∧
      (getEntries s).Pairwise (fun a b => b.value ≤ a.value)) :=
  ⟨fun s k v hk hv hsz hheap => csAdd_spec s k v hk hv hsz hheap,
    getEntries_spec⟩

/-- C9 counterexample: `add` throws on the falsy score `0` and on the
empty key, so the claimed behaviour does not hold "for all scores,
including 0, and for the empty-string key". -/
theorem C9_falsy_add_throws :
    csAdd ⟨5, []⟩ [97] 0 = .error .valueMissing ∧
    csAdd ⟨5, []⟩ [] 1 = .error .keyMissing := by
  constructor <;> rfl

theorem bigKeyRecord_key_length : bigKeyRecord.key.length = 2 ^ 16 := by
  rw [show bigKeyRecord.key = leBytes 4 16388 ++ List.replicate 65532 65 from rfl]
  rw [List.length_append, leBytes_length, List.length_replicate]
  norm_num

/-- C10 (amended): `serializeDataRecord` stores the keyLen field as the
key's UTF-8 byte length reduced modulo 2^16 (`setUint16` wraps), and for
a key of 2^16 bytes or more the decode of the serialized record can never
return the original record.  The original claim's stronger statement —
that `deserializeDataRecord` always REJECTS such a record — is refuted by
`C10_wrapped_key_decodes`: an aligned 2^16-byte key makes the decode
succeed with a different record. -/
theorem C10_keyLen_wraps (r : DataRecord) (hk : 2 ^ 16 ≤ r.key.length) :
    readLE (serializeDataRecord r) 24 2 = r.key.length % 2 ^ 16 ∧
    (∀ p, deserializeDataRecord (serializeDataRecord r) 0 = some p →
      p.1 ≠ r) := by
  constructor
  · have := ser_read_keyLenField r []
    rwa [List.append_nil] at this
  · exact fun p hp => long_key_roundtrip_ne r hk p hp

theorem C10_keyLen_wraps_witness :
    2 ^ 16 ≤ bigKeyRecord.key.length ∧
    (readLE (serializeDataRecord bigKeyRecord) 24 2 =
        bigKeyRecord.key.length % 2 ^ 16 ∧
      (∀ p, deserializeDataRecord (serializeDataRecord bigKeyRecord) 0 =
        some p → p.1 ≠ bigKeyRecord)) :=
  ⟨le_of_eq bigKeyRecord_key_length.symm,
    C10_keyLen_wraps bigKeyRecord (le_of_eq bigKeyRecord_key_length.symm)⟩

/-- C10 counterexample: the concrete oversized-key record whose wrapped
keyLen field reads 0 and whose first four key bytes realign the parse —
`deserializeDataRecord` on its serialization SUCCEEDS instead of
rejecting it. -/
theorem C10_wrapped_key_decodes :
    2 ^ 16 ≤ bigKeyRecord.key.length ∧
    deserializeDataRecord (serializeDataRecord bigKeyRecord) 0 ≠ none := by
  constructor
  · exact le_of_eq bigKeyRecord_key_length.symm
  · apply wrapped_key_parse_some bigKeyRecord 16388 (List.replicate 65532 65)
    · rfl
    · exact bigKeyRecord_key_length
    · show (16388 : Nat) = 4 + 16384
      norm_num
    · rfl
    · norm_num

end Raptor
